import Mathlib

/-!
Verification of the lambdas repository: a flat-arena untyped lambda calculus
representation (parsing, spans, costs) and a Hindley-Milner unification /
inference engine with two backends (tree-based `Context` and arena-based
`TypeSet`).

The Rust sources are shallowly embedded:
* machine integers become `Nat` / `Int`,
* functions that can panic (failed `assert!`, out-of-bounds indexing,
  `unwrap`, `unimplemented!`) or recurse without a structural bound are
  modelled in the `PRes` result type, where `.panic` stands for a Rust panic
  and `.fuel` for exhaustion of an explicit fuel parameter (the Rust
  recursion has no such parameter; a `.fuel` answer carries no information
  about the Rust program, while `.ok` / `.panic` answers are faithful).
* `&mut self` methods take and return the state explicitly.
-/

/-- Outcome of running an embedded Rust computation: `fuel` means the fuel
parameter of the embedding ran out, `panic` means the Rust code panics,
`ok a` means it returns `a`. -/
inductive PRes (α : Type) where
  | fuel : PRes α
  | panic : PRes α
  | ok : α → PRes α
deriving Repr, DecidableEq

namespace PRes

def bind {α β : Type} : PRes α → (α → PRes β) → PRes β
  | .fuel, _ => .fuel
  | .panic, _ => .panic
  | .ok a, f => f a

def map {α β : Type} (f : α → β) : PRes α → PRes β
  | .fuel => .fuel
  | .panic => .panic
  | .ok a => .ok (f a)

@[simp] theorem bind_ok {α β : Type} (a : α) (f : α → PRes β) :
    (PRes.ok a).bind f = f a := rfl

@[simp] theorem bind_fuel {α β : Type} (f : α → PRes β) :
    (PRes.fuel : PRes α).bind f = .fuel := rfl

@[simp] theorem bind_panic {α β : Type} (f : α → PRes β) :
    (PRes.panic : PRes α).bind f = .panic := rfl

@[simp] theorem map_ok {α β : Type} (f : α → β) (a : α) :
    (PRes.ok a).map f = .ok (f a) := rfl

@[simp] theorem map_fuel {α β : Type} (f : α → β) :
    (PRes.fuel : PRes α).map f = .fuel := rfl

@[simp] theorem map_panic {α β : Type} (f : α → β) :
    (PRes.panic : PRes α).map f = .panic := rfl

end PRes

/-- Monadic map over a list in `PRes` (models Rust `iter().map(...).collect()`
on fallible element computations). -/
def mapPRes {α β : Type} (f : α → PRes β) : List α → PRes (List β)
  | [] => .ok []
  | a :: rest => (f a).bind fun b => (mapPRes f rest).map fun bs => b :: bs

/-! ## Types (`src/types.rs`)

`Type` in the source is a tree of type variables and constructor terms.
We call it `Ty` because `Type` is reserved in Lean.  `Symbol` is a string. -/

inductive Ty where
  | var : Nat → Ty
  | term : String → List Ty → Ty
deriving Repr

mutual

def Ty.beq : Ty → Ty → Bool
  | .var i, .var j => i == j
  | .term x xs, .term y ys => x == y && Ty.beqList xs ys
  | _, _ => false

def Ty.beqList : List Ty → List Ty → Bool
  | [], [] => true
  | a :: as_, b :: bs => Ty.beq a b && Ty.beqList as_ bs
  | _, _ => false

end

mutual

def Ty.decEq : (a b : Ty) → Decidable (a = b)
  | .var i, .var j =>
    match Nat.decEq i j with
    | isTrue h => isTrue (by rw [h])
    | isFalse h => isFalse (fun he => h (by cases he; rfl))
  | .var _, .term _ _ => isFalse (fun h => Ty.noConfusion h)
  | .term _ _, .var _ => isFalse (fun h => Ty.noConfusion h)
  | .term x xs, .term y ys =>
    match String.decEq x y with
    | isFalse h1 => isFalse (fun he => by cases he; exact h1 rfl)
    | isTrue h1 =>
      match Ty.decEqList xs ys with
      | isTrue h2 => isTrue (by rw [h1, h2])
      | isFalse h2 => isFalse (fun he => by cases he; exact h2 rfl)

def Ty.decEqList : (as_ bs : List Ty) → Decidable (as_ = bs)
  | [], [] => isTrue rfl
  | [], _ :: _ => isFalse (fun h => List.noConfusion h)
  | _ :: _, [] => isFalse (fun h => List.noConfusion h)
  | a :: as_, b :: bs =>
    match Ty.decEq a b with
    | isFalse h1 => isFalse (fun he => by cases he; exact h1 rfl)
    | isTrue h1 =>
      match Ty.decEqList as_ bs with
      | isTrue h2 => isTrue (by rw [h1, h2])
      | isFalse h2 => isFalse (fun he => by cases he; exact h2 rfl)

end

instance : DecidableEq Ty := Ty.decEq

/-- `UnifyErr` from `src/types.rs`. -/
inductive UnifyErr where
  | occurs
  | concreteSubtree
  | production
deriving Repr, DecidableEq

/-- `UnifyResult = Result<(), UnifyErr>`. -/
abbrev UnifyResult := Except UnifyErr Unit

instance {ε α : Type} [DecidableEq ε] [DecidableEq α] : DecidableEq (Except ε α) := fun x y =>
  match x, y with
  | .ok a, .ok b =>
    if h : a = b then isTrue (by rw [h]) else isFalse (by intro he; cases he; exact h rfl)
  | .error a, .error b =>
    if h : a = b then isTrue (by rw [h]) else isFalse (by intro he; cases he; exact h rfl)
  | .ok _, .error _ => isFalse (by intro h; cases h)
  | .error _, .ok _ => isFalse (by intro h; cases h)

/-- The process-wide arrow symbol `ARROW_SYM`. -/
def ARROW_SYM : String := "->"

namespace Ty

/-- `Type::base` -/
def base (name : String) : Ty := .term name []

/-- `Type::arrow` -/
def arrow (left right : Ty) : Ty := .term ARROW_SYM [left, right]

end Ty

/- Rust `iter().all(...)` / `iter().any(...)` over subterm lists are rendered
as structural list recursions (mutual with the node-level function). -/

mutual

/-- `Type::is_concrete`: true if there are no type vars in this type. -/
def Ty.is_concrete : Ty → Bool
  | .var _ => false
  | .term _ args => Ty.all_concrete args

def Ty.all_concrete : List Ty → Bool
  | [] => true
  | t :: rest => t.is_concrete && Ty.all_concrete rest

end

mutual

/-- `Type::occurs`: true if type var `i` occurs in this type. -/
def Ty.occurs : Ty → Nat → Bool
  | .var j, i => i = j
  | .term _ args, i => Ty.occursList args i

def Ty.occursList : List Ty → Nat → Bool
  | [], _ => false
  | t :: rest, i => t.occurs i || Ty.occursList rest i

end

/-! ## The tree-based substitution engine (`Context`, `src/types.rs` 628-796) -/

structure Context where
  subst_unionfind : List (Option Ty)
  subst_append_only : List (Nat × Ty)
  next_var : Nat
  append_only : Bool
deriving Repr, DecidableEq

namespace Context

/-- `Context::empty` -/
def empty : Context :=
  { subst_unionfind := [], subst_append_only := [], next_var := 0, append_only := true }

/-- `Context::empty_unionfind` -/
def empty_unionfind : Context :=
  { subst_unionfind := [], subst_append_only := [], next_var := 0, append_only := false }

/-- `rfind` on the append-only log: later entries shadow earlier ones, so we
search the tail (pushed later) before the head. -/
def lookupAO (l : List (Nat × Ty)) (v : Nat) : Option Ty :=
  match l with
  | [] => none
  | (i, t) :: rest => (lookupAO rest v).elim (if i = v then some t else none) some

/-- `Context::get`.  In unionfind mode the Rust code indexes
`subst_unionfind[var]`, which panics when out of bounds. -/
def get (c : Context) (v : Nat) : PRes (Option Ty) :=
  if c.append_only then
    .ok (lookupAO c.subst_append_only v)
  else
    match c.subst_unionfind.get? v with
    | some o => .ok o
    | none => .panic

/-- `Context::set`.  In unionfind mode the Rust index assignment panics when
out of bounds. -/
def set (c : Context) (v : Nat) (t : Ty) : PRes Context :=
  if c.append_only then
    .ok { c with subst_append_only := c.subst_append_only ++ [(v, t)] }
  else
    if v < c.subst_unionfind.length then
      .ok { c with subst_unionfind := c.subst_unionfind.set v (some t) }
    else
      .panic

/-- `Context::fresh_type_var` -/
def fresh_type_var (c : Context) : Ty × Context :=
  (Ty.var c.next_var,
    { c with
      subst_unionfind := if c.append_only then c.subst_unionfind else c.subst_unionfind ++ [none]
      next_var := c.next_var + 1 })

/-- Iterate `fresh_type_var` a fixed number of times. -/
def freshN : Nat → Context → Context
  | 0, c => c
  | k + 1, c => freshN k (c.fresh_type_var).2

/-- `Context::fresh_type_vars`: add fresh vars while `var >= next_var`.
Each iteration of the Rust `while` loop increments `next_var` by one, so it
runs exactly `var + 1 - next_var` times (saturating at zero). -/
def fresh_type_vars (c : Context) (var : Nat) : Context :=
  freshN (var + 1 - c.next_var) c

end Context

mutual

/-- `Context::might_unify` (pure, conservative compatibility check).  The
Rust `xs.len() == ys.len() && zip(...).all(...)` is rendered as one
structural recursion over the two argument lists. -/
def Context.might_unify : Ty → Ty → Bool
  | .term x xs, .term y ys => x = y && Context.might_unify_args xs ys
  | _, _ => true

def Context.might_unify_args : List Ty → List Ty → Bool
  | [], [] => true
  | a :: as_, b :: bs => Context.might_unify a b && Context.might_unify_args as_ bs
  | _, _ => false

end

namespace Context

/-- `Type::apply` (non-caching substitution application), with fuel. -/
def applyF : Nat → Context → Ty → PRes Ty
  | 0, _, _ => .fuel
  | f + 1, c, t =>
    if t.is_concrete then .ok t else
    match t with
    | .var i =>
      (c.get i).bind fun
        | some tp => applyF f c tp
        | none => .ok (.var i)
    | .term name args => (mapPRes (applyF f c) args).map (.term name)

mutual

/-- `Type::apply_cached`: like `apply` but memoizes resolved bindings back
into the context (the Rust code mutates `ctx`, so the context is threaded). -/
def applyCachedF : Nat → Context → Ty → PRes (Ty × Context)
  | 0, _, _ => .fuel
  | f + 1, c, t =>
    if t.is_concrete then .ok (t, c) else
    match t with
    | .var i =>
      (c.get i).bind fun
        | some tp =>
          (applyF f c tp).bind fun tp_applied =>
            if tp ≠ tp_applied then
              (c.set i tp_applied).map fun c' => (tp_applied, c')
            else .ok (tp_applied, c)
        | none => .ok (.var i, c)
    | .term name args =>
      (applyCachedArgs f c args).map fun (args', c') => (.term name args', c')

/-- Sequential `args.iter().map(|ty| ty.apply_cached(ctx)).collect()`. -/
def applyCachedArgs : Nat → Context → List Ty → PRes (List Ty × Context)
  | _, c, [] => .ok ([], c)
  | 0, _, _ :: _ => .fuel
  | f + 1, c, a :: rest =>
    (applyCachedF f c a).bind fun (a', c') =>
      (applyCachedArgs f c' rest).map fun (rest', c'') => (a' :: rest', c'')

end

/-- The variable-binding arm shared by the two or-pattern alternatives of
`Context::unify` (`(Type::Var(i), ty) | (ty, Type::Var(i))`). -/
def unifyVar (c : Context) (i : Nat) (ty : Ty) : PRes (UnifyResult × Context) :=
  if ty = .var i then .ok (.ok (), c)
  else if ty.occurs i then .ok (.error .occurs, c)
  else
    (c.get i).bind fun
      | some _ => .panic  -- assert!(self.get(i).is_none())
      | none => (c.set i ty).map fun c' => (.ok (), c')

mutual

/-- `Context::unify`, with fuel. -/
def unifyF : Nat → Context → Ty → Ty → PRes (UnifyResult × Context)
  | 0, _, _, _ => .fuel
  | f + 1, c, t1, t2 =>
    (applyF f c t1).bind fun t1 =>
      (applyF f c t2).bind fun t2 =>
        if t1.is_concrete ∧ t2.is_concrete then
          if t1 = t2 then .ok (.ok (), c) else .ok (.error .concreteSubtree, c)
        else
          match t1, t2 with
          | .var i, ty => unifyVar c i ty
          | ty, .var i => unifyVar c i ty
          | .term x xs, .term y ys =>
            if x ≠ y ∨ xs.length ≠ ys.length then .ok (.error .production, c)
            else unifyPairs f c (xs.zip ys)

/-- `xs.iter().zip(ys).try_for_each(|(x,y)| self.unify(x,y))`. -/
def unifyPairs : Nat → Context → List (Ty × Ty) → PRes (UnifyResult × Context)
  | _, c, [] => .ok (.ok (), c)
  | 0, _, _ :: _ => .fuel
  | f + 1, c, (a, b) :: rest =>
    (unifyF f c a b).bind fun (r, c') =>
      match r with
      | .ok () => unifyPairs f c' rest
      | .error e => .ok (.error e, c')

end

/-- The variable-binding arm of `Context::unify_cached`.  Note the Rust
assertion `assert!(self.subst_unionfind.get(i).is_none())`: it consults the
unionfind table through `Vec::get` even in append-only mode. -/
def unifyCachedVar (c : Context) (i : Nat) (ty : Ty) : PRes (UnifyResult × Context) :=
  if ty = .var i then .ok (.ok (), c)
  else if ty.occurs i then .ok (.error .occurs, c)
  else if (c.subst_unionfind.get? i).isSome then .panic
  else (c.set i ty).map fun c' => (.ok (), c')

/-- `Context::unify_cached`: applies with `apply_cached`, then the same
branches; argument pairs recurse through plain `unify`. -/
def unifyCachedF : Nat → Context → Ty → Ty → PRes (UnifyResult × Context)
  | 0, _, _, _ => .fuel
  | f + 1, c, t1, t2 =>
    (applyCachedF f c t1).bind fun (t1, c) =>
      (applyCachedF f c t2).bind fun (t2, c) =>
        if t1.is_concrete ∧ t2.is_concrete then
          if t1 = t2 then .ok (.ok (), c) else .ok (.error .concreteSubtree, c)
        else
          match t1, t2 with
          | .var i, ty => unifyCachedVar c i ty
          | ty, .var i => unifyCachedVar c i ty
          | .term x xs, .term y ys =>
            if x ≠ y ∨ xs.length ≠ ys.length then .ok (.error .production, c)
            else unifyPairs f c (xs.zip ys)

mutual

/-- The inner loop of `Type::instantiate` (`instantiate_aux`). -/
def instantiateAux : Ty → Context → Nat → PRes (Ty × Context)
  | .var i, c, shift_by =>
    let new := i + shift_by
    let c := c.fresh_type_vars new
    (c.get new).bind fun
      | some _ => .panic  -- assert!(ctx.get(new).is_none())
      | none => .ok (.var new, c)
  | .term name args, c, shift_by =>
    (instantiateAuxArgs args c shift_by).map fun (args', c') => (.term name args', c')

def instantiateAuxArgs : List Ty → Context → Nat → PRes (List Ty × Context)
  | [], c, _ => .ok ([], c)
  | a :: rest, c, shift_by =>
    (instantiateAux a c shift_by).bind fun (a', c') =>
      (instantiateAuxArgs rest c' shift_by).map fun (rest', c'') => (a' :: rest', c'')

end

/-- `Type::instantiate` (tree version): shift all variables of a scheme so
they are fresh in the context. -/
def instantiate (t : Ty) (c : Context) : PRes (Ty × Context) :=
  if t.is_concrete then .ok (t, c)
  else instantiateAux t c c.next_var

end Context

/-! ## The arena-based engine (`TypeSet`, `src/types.rs` 38-404)

`RawTypeRef` is a bare index into the type arena; `TypeRef` adds a variable
shift.  `TNode` stores children as raw references. -/

abbrev RawTypeRef := Nat

inductive TNode where
  | var : Nat → TNode
  | term : String → List RawTypeRef → TNode
deriving Repr, DecidableEq

structure TypeRef where
  raw : RawTypeRef
  shift : Nat
deriving Repr, DecidableEq

structure TypeSet where
  nodes : List TNode
  max_vars : List (Option Nat)
  subst : List (Nat × TypeRef)
  next_var : Nat
deriving Repr, DecidableEq

/-- `RawTypeRef::shift` -/
def RawTypeRef.shift (r : RawTypeRef) (s : Nat) : TypeRef := ⟨r, s⟩

namespace TypeSet

/-- `TypeSet::empty` -/
def empty : TypeSet := { nodes := [], max_vars := [], subst := [], next_var := 0 }

/-- `RawTypeRef::node`: `&typeset.nodes[self.0]`, panics when out of bounds. -/
def node? (ts : TypeSet) (r : RawTypeRef) : PRes TNode :=
  match ts.nodes.get? r with
  | some n => .ok n
  | none => .panic

/-- `rfind` over the substitution log (later bindings shadow earlier ones). -/
def lookupSubst (l : List (Nat × TypeRef)) (v : Nat) : Option TypeRef :=
  match l with
  | [] => none
  | (i, t) :: rest => (lookupSubst rest v).elim (if i = v then some t else none) some

/-- `TypeSet::get_var` -/
def get_var (ts : TypeSet) (v : Nat) : Option TypeRef := lookupSubst ts.subst v

/-- `TypeSet::set_var` -/
def set_var (ts : TypeSet) (v : Nat) (t : TypeRef) : TypeSet :=
  { ts with subst := ts.subst ++ [(v, t)] }

/-- `TypeSet::save_state` -/
def save_state (ts : TypeSet) : Nat × Nat := (ts.subst.length, ts.next_var)

/-- `TypeSet::load_state` -/
def load_state (ts : TypeSet) (st : Nat × Nat) : TypeSet :=
  { ts with subst := ts.subst.take st.1, next_var := st.2 }

/-- `TypeSet::fresh_type_var` (only bumps `next_var`). -/
def fresh_type_var (ts : TypeSet) : Ty × TypeSet :=
  (Ty.var ts.next_var, { ts with next_var := ts.next_var + 1 })

/-- `RawTypeRef::max_var`: `typeset.max_vars[self.0]`, panics out of bounds. -/
def max_var? (ts : TypeSet) (r : RawTypeRef) : PRes (Option Nat) :=
  match ts.max_vars.get? r with
  | some o => .ok o
  | none => .panic

/-- The max over an optional accumulator, mirroring
`args.iter().filter_map(|raw| raw.max_var(self)).max()`. -/
def optMax (l : List (Option Nat)) : Option Nat :=
  l.foldl
    (fun acc o =>
      match acc, o with
      | none, o => o
      | some a, none => some a
      | some a, some b => some (max a b))
    none

/-- The `max_var` computation of `TypeSet::add_node`. -/
def nodeMaxVar (ts : TypeSet) : TNode → PRes (Option Nat)
  | .var i => .ok (some i)
  | .term _ args => (mapPRes (fun a => ts.max_var? a) args).map optMax

/-- `TypeSet::add_node`: append a node, computing its cached max var from the
children's cached values. -/
def add_node (ts : TypeSet) (node : TNode) : PRes (RawTypeRef × TypeSet) :=
  (ts.nodeMaxVar node).map fun mv =>
    (ts.nodes.length,
      { ts with max_vars := ts.max_vars ++ [mv], nodes := ts.nodes ++ [node] })

mutual

/-- `TypeSet::add_tp`: recursively intern a tree type. -/
def add_tp (ts : TypeSet) : Ty → PRes (RawTypeRef × TypeSet)
  | .var i => ts.add_node (.var i)
  | .term p args =>
    (add_tps ts args).bind fun (refs, ts') => ts'.add_node (.term p refs)

def add_tps (ts : TypeSet) : List Ty → PRes (List RawTypeRef × TypeSet)
  | [] => .ok ([], ts)
  | a :: rest =>
    (add_tp ts a).bind fun (r, ts') =>
      (add_tps ts' rest).map fun (rs, ts'') => (r :: rs, ts'')

end

/-- `TypeRef::canonicalize`: resolve chains of variable bindings, with fuel. -/
def canonF : Nat → TypeSet → TypeRef → PRes TypeRef
  | 0, _, _ => .fuel
  | f + 1, ts, t =>
    (ts.node? t.raw).bind fun
      | .var i =>
        match ts.get_var (i + t.shift) with
        | some tp_ref => canonF f ts tp_ref
        | none => .ok t
      | .term _ _ => .ok t

mutual

/-- `TypeRef::occurs`: true if logical var `i` occurs in this type, resolving
through the substitution. -/
def occursF : Nat → TypeSet → Nat → TypeRef → PRes Bool
  | 0, _, _, _ => .fuel
  | f + 1, ts, i, t =>
    (canonF f ts t).bind fun canonical =>
      (ts.node? canonical.raw).bind fun
        | .var j => .ok (i = j + canonical.shift)
        | .term _ args => occursArgs f ts i canonical.shift args

/-- `args.iter().map(shift).any(|ty| ty.occurs(i, ...))` with short-circuit. -/
def occursArgs : Nat → TypeSet → Nat → Nat → List RawTypeRef → PRes Bool
  | _, _, _, _, [] => .ok false
  | 0, _, _, _, _ :: _ => .fuel
  | f + 1, ts, i, shift, a :: rest =>
    (occursF f ts i (a.shift shift)).bind fun b =>
      if b then .ok true else occursArgs f ts i shift rest

end

mutual

/-- `TypeSet::might_unify`: fast conservative check; the left side is an
uninstantiated raw reference, the right side is canonicalized. -/
def mightUnifyF : Nat → TypeSet → RawTypeRef → TypeRef → PRes Bool
  | 0, _, _, _ => .fuel
  | f + 1, ts, t1, t2 =>
    (ts.node? t1).bind fun node1 =>
      (canonF f ts t2).bind fun canonical2 =>
        (ts.node? canonical2.raw).bind fun node2 =>
          match node1, node2 with
          | .term x xs, .term y ys =>
            if x = y ∧ xs.length = ys.length then
              mightUnifyArgs f ts canonical2.shift (xs.zip ys)
            else .ok false
          | _, _ => .ok true

/-- `xs.iter().zip(ys.map(shift)).all(...)` with short-circuit. -/
def mightUnifyArgs : Nat → TypeSet → Nat → List (RawTypeRef × RawTypeRef) → PRes Bool
  | _, _, _, [] => .ok true
  | 0, _, _, _ :: _ => .fuel
  | f + 1, ts, shift, (x, y) :: rest =>
    (mightUnifyF f ts x (y.shift shift)).bind fun b =>
      if b then mightUnifyArgs f ts shift rest else .ok false

end

mutual

/-- `TypeSet::unify`, with fuel. -/
def unifyF : Nat → TypeSet → TypeRef → TypeRef → PRes (UnifyResult × TypeSet)
  | 0, _, _, _ => .fuel
  | f + 1, ts, t1, t2 =>
    (canonF f ts t1).bind fun canonical1 =>
      (canonF f ts t2).bind fun canonical2 =>
        (ts.node? canonical1.raw).bind fun node1 =>
          (ts.node? canonical2.raw).bind fun node2 =>
            match node1, node2 with
            | .var i, _ =>
              let i_shifted := i + canonical1.shift
              -- identical-variable check (only needed in this arm)
              let same_var : Bool :=
                match node2 with
                | .var j => i_shifted == j + canonical2.shift
                | .term _ _ => false
              if same_var then
                .ok (.ok (), ts)
              else
                (occursF f ts i_shifted canonical2).bind fun occ =>
                  if occ then .ok (.error .occurs, ts)
                  else
                    match ts.get_var i_shifted with
                    | some _ => .panic  -- assert!(self.get_var(i_shifted).is_none())
                    | none => .ok (.ok (), ts.set_var i_shifted canonical2)
            | _, .var i =>
              let i_shifted := i + canonical2.shift
              (occursF f ts i_shifted canonical1).bind fun occ =>
                if occ then .ok (.error .occurs, ts)
                else
                  match ts.get_var i_shifted with
                  | some _ => .panic  -- assert!(self.get_var(i_shifted).is_none())
                  | none => .ok (.ok (), ts.set_var i_shifted canonical1)
            | .term x xs, .term y ys =>
              if x ≠ y ∨ xs.length ≠ ys.length then .ok (.error .production, ts)
              else
                unifyPairsTS f ts
                  ((xs.map (fun r => r.shift canonical1.shift)).zip
                    (ys.map (fun r => r.shift canonical2.shift)))

/-- `try_for_each(|(x,y)| self.unify(&x,&y))` over the shifted pairs. -/
def unifyPairsTS : Nat → TypeSet → List (TypeRef × TypeRef) → PRes (UnifyResult × TypeSet)
  | _, ts, [] => .ok (.ok (), ts)
  | 0, _, _ :: _ => .fuel
  | f + 1, ts, (a, b) :: rest =>
    (unifyF f ts a b).bind fun (r, ts') =>
      match r with
      | .ok () => unifyPairsTS f ts' rest
      | .error e => .ok (.error e, ts')

end

end TypeSet

/-- `RawTypeRef::instantiate`: allocate `max_var + 1` fresh variables (none
for a ground type) and return the reference shifted by the old `next_var`.
No nodes are copied or rewritten. -/
def RawTypeRef.instantiate (r : RawTypeRef) (ts : TypeSet) : PRes (TypeRef × TypeSet) :=
  let shift_by := ts.next_var
  (ts.max_var? r).map fun
    | some m => (⟨r, shift_by⟩, { ts with next_var := ts.next_var + (m + 1) })
    | none => (⟨r, shift_by⟩, ts)

/-- `RawTypeRef::tp`: resolve an arena reference to a tree type (no
substitution applied), with fuel. -/
def RawTypeRef.tpF : Nat → TypeSet → RawTypeRef → PRes Ty
  | 0, _, _ => .fuel
  | f + 1, ts, r =>
    (ts.node? r).bind fun
      | .var i => .ok (.var i)
      | .term p args => (mapPRes (RawTypeRef.tpF f ts) args).map (.term p)

/-! ## The expression arena (`src/alt_expr.rs`) -/

/-- `Idx = usize`; `HOLE = usize::MAX` (64-bit). -/
def HOLE : Nat := 18446744073709551615

/-- `Node`: a node of the untyped lambda calculus.  De Bruijn indices are
`i32` in the source, hence `Int` here. -/
inductive Node where
  | prim : String → Node
  | var : Int → Node
  | ivar : Int → Node
  | app : Nat → Nat → Node
  | lam : Nat → Node
deriving Repr, DecidableEq

inductive Order where
  | childFirst
  | parentFirst
  | any
deriving Repr, DecidableEq

/-- `ExprSet`: the arena.  A span `Range<Idx>` is a `(start, end)` pair. -/
structure ExprSet where
  nodes : List Node
  spans : Option (List (Nat × Nat))
  order : Order
deriving Repr, DecidableEq

namespace ExprSet

/-- `ExprSet::empty` -/
def empty (order : Order) (spans : Bool) : ExprSet :=
  { nodes := [], spans := if spans then some [] else none, order := order }

/-- Arena node read (`&self.nodes[idx]`), panics when out of bounds. -/
def node? (s : ExprSet) (idx : Nat) : PRes Node :=
  match s.nodes.get? idx with
  | some n => .ok n
  | none => .panic

/-- The span computed by `ExprSet::add` for the incoming node (indexing
`spans[f]` etc. panics if a child is out of bounds). -/
def spanFor (spans : List (Nat × Nat)) (idx : Nat) : Node → PRes (Nat × Nat)
  | .var _ | .prim _ | .ivar _ => .ok (idx, idx + 1)
  | .app f x =>
    match spans.get? f, spans.get? x with
    | some sf, some sx =>
      .ok (min (min sf.1 sx.1) idx, max (max sf.2 sx.2) (idx + 1))
    | _, _ => .panic
  | .lam b =>
    match spans.get? b with
    | some sb => .ok (min sb.1 idx, max sb.2 (idx + 1))
    | none => .panic

/-- `ExprSet::add`: append a node, maintaining the span table if enabled. -/
def add (s : ExprSet) (node : Node) : PRes (Nat × ExprSet) :=
  let idx := s.nodes.length
  match s.spans with
  | none => .ok (idx, { s with nodes := s.nodes ++ [node] })
  | some spans =>
    (spanFor spans idx node).map fun sp =>
      (idx, { s with nodes := s.nodes ++ [node], spans := some (spans ++ [sp]) })

end ExprSet

/-- `ProgramCost`: per-kind costs plus a per-primitive map with default.
The `HashMap<Symbol,i32>` is modelled as a lookup function. -/
structure ProgramCost where
  cost_lam : Int
  cost_app : Int
  cost_var : Int
  cost_ivar : Int
  cost_prim : String → Option Int
  cost_prim_default : Int

/-- The per-node cost used by both `cost_span` and `cost_rec`. -/
def nodeCost (cf : ProgramCost) : Node → Int
  | .ivar _ => cf.cost_ivar
  | .var _ => cf.cost_var
  | .prim p => (cf.cost_prim p).getD cf.cost_prim_default
  | .app _ _ => cf.cost_app
  | .lam _ => cf.cost_lam

/-- `Expr::cost_span`: sum the per-node cost over every index of the node's
precomputed span (panics when spans are disabled, `get_span().unwrap()`). -/
def costSpan (s : ExprSet) (idx : Nat) (cf : ProgramCost) : PRes Int :=
  match s.spans with
  | none => .panic
  | some spans =>
    match spans.get? idx with
    | none => .panic
    | some sp =>
      (mapPRes (fun i => (s.node? i).map (nodeCost cf)) (List.range' sp.1 (sp.2 - sp.1))).map
        fun costs => costs.sum

/-- `Expr::cost_rec`: direct recursion over the subtree, with fuel. -/
def costRecF : Nat → ExprSet → Nat → ProgramCost → PRes Int
  | 0, _, _, _ => .fuel
  | f + 1, s, idx, cf =>
    (s.node? idx).bind fun
      | .ivar i => .ok (nodeCost cf (.ivar i))
      | .var i => .ok (nodeCost cf (.var i))
      | .prim p => .ok (nodeCost cf (.prim p))
      | .app fn x =>
        (costRecF f s fn cf).bind fun c1 =>
          (costRecF f s x cf).map fun c2 => cf.cost_app + c1 + c2
      | .lam b => (costRecF f s b cf).map fun cb => cf.cost_lam + cb

/-! ## Display of expressions (`impl Display for Expr`, `src/alt_expr.rs` 313-339)

Strings are modelled as `List Char`.  Decimal rendering of the de Bruijn
indices (`write!("${}", i)`) is embedded explicitly so that its round-trip
with integer parsing can be proved. -/

/-- Decimal digits of a natural number, most significant first. -/
def natChars (n : Nat) : List Char :=
  if n < 10 then [Char.ofNat (48 + n)]
  else natChars (n / 10) ++ [Char.ofNat (48 + n % 10)]
decreasing_by exact Nat.div_lt_self (by omega) (by omega)

/-- Decimal rendering of an `i32` (Rust `{}` formatting). -/
def intChars (i : Int) : List Char :=
  if i < 0 then '-' :: natChars (-i).toNat else natChars i.toNat

/-- `fmt_local` of the `Display` impl, with fuel. -/
def displayF : Nat → ExprSet → Nat → Bool → PRes (List Char)
  | 0, _, _, _ => .fuel
  | f + 1, es, idx, left_of_app =>
    if idx = HOLE then .ok ['?', '?']
    else
      (es.node? idx).bind fun
        | .var i => .ok ('$' :: intChars i)
        | .ivar i => .ok ('#' :: intChars i)
        | .prim p => .ok p.toList
        | .app fn x =>
          (displayF f es fn true).bind fun sf =>
            (displayF f es x false).map fun sx =>
              if left_of_app then sf ++ ' ' :: sx
              else '(' :: (sf ++ ' ' :: sx) ++ [')']
        | .lam b =>
          (displayF f es b false).map fun sb =>
            '(' :: 'l' :: 'a' :: 'm' :: ' ' :: sb ++ [')']

/-! ## The s-expression parser (`ExprSet::parse_extend`, `src/alt_expr.rs` 347-481)

The Rust algorithm scans the input string from right to left, repeatedly
trimming it.  We model the remaining input as the *reversed* list of its
characters, so the scan proceeds from the head; `trim()` then strips
whitespace from both ends of the reversed list.  The `items` stack and the
`items_of_depth` stack keep their top at the head. -/

inductive ParseErr where
  | mismatchedParens
  | emptyInput
  | lamParen
  | lamArity
  | intLit
deriving Repr, DecidableEq

def isWs (c : Char) : Bool := c.isWhitespace

/-- Characters that end the right-to-left word scan. -/
def isBoundary (c : Char) : Bool := c.isWhitespace || c = '(' || c = ')'

/-- `s.trim()` on the reversed character list. -/
def trimRev (l : List Char) : List Char :=
  ((l.dropWhile isWs).reverse.dropWhile isWs).reverse

/-- Rust `str::parse::<u32-digit run>`: all decimal digits, at least one. -/
def parseDigits (l : List Char) : Option Nat :=
  if l ≠ [] ∧ l.all (fun c => c.isDigit) then
    some (l.foldl (fun a c => a * 10 + (c.toNat - 48)) 0)
  else none

/-- Rust `str::parse::<i32>`: optional sign, digits, bounds check. -/
def parseI32 (l : List Char) : Option Int :=
  match l with
  | '+' :: rest => (parseDigits rest).bind fun n =>
      if n ≤ 2147483647 then some (n : Int) else none
  | '-' :: rest => (parseDigits rest).bind fun n =>
      if n ≤ 2147483648 then some (-(n : Int)) else none
  | _ => (parseDigits l).bind fun n =>
      if n ≤ 2147483647 then some (n : Int) else none

/-- The fold closing a parenthesis group: `num_items - 1` times pop `f` then
`x` and push `App(f, x)` (`items.pop().unwrap()` panics on an empty stack). -/
def buildApps : Nat → ExprSet → List Nat → PRes (ExprSet × List Nat)
  | 0, es, items => .ok (es, items)
  | k + 1, es, items =>
    match items with
    | f :: x :: rest =>
      (es.add (.app f x)).bind fun (idx, es') => buildApps k es' (idx :: rest)
    | _ => .panic

/-- Reverse `self.nodes[init_len..]` (the `Order::ParentFirst` final step). -/
def reverseFrom (es : ExprSet) (k : Nat) : ExprSet :=
  { es with nodes := es.nodes.take k ++ (es.nodes.drop k).reverse }

/-- The atom case of the parser: `$<int>`, `#<int>` or a primitive. -/
def atomNode (word : List Char) : Except ParseErr Node :=
  match word with
  | '$' :: rest =>
    match parseI32 rest with
    | some i => .ok (.var i)
    | none => .error .intLit
  | '#' :: rest =>
    match parseI32 rest with
    | some i => .ok (.ivar i)
    | none => .error .intLit
  | _ => .ok (.prim (String.mk word))

/-- The main right-to-left scan loop of `parse_extend`.  `s` is the reversed
remaining input, `init_len` the arena length at entry (used by the final
`ParentFirst` reversal). -/
def parseLoop : Nat → ExprSet → Nat → List Char → List Nat → List Nat →
    PRes (Except ParseErr Nat × ExprSet)
  | 0, _, _, _, _, _ => .fuel
  | fuel + 1, es, init_len, s, items, items_of_depth =>
    let s := trimRev s
    if s.isEmpty then
      -- end of input: build the outermost applications and finish
      if items.length = 0 then .ok (.error .emptyInput, es)
      else if items_of_depth.length ≠ 1 then .ok (.error .mismatchedParens, es)
      else
        match items_of_depth with
        | [] => .panic
        | num_items :: _ =>
          (buildApps (num_items - 1) es items).bind fun (es, items) =>
            if items.length ≠ 1 then .ok (.error .mismatchedParens, es)
            else
              let es := if es.order = Order.parentFirst then reverseFrom es init_len else es
              match items with
              | root :: _ => .ok (.ok root, es)
              | [] => .panic
    else
      match s with
      | '(' :: rest =>
        match items_of_depth with
        | [] => .ok (.error .mismatchedParens, es)
        | num_items :: depth_rest =>
          if num_items = 0 then parseLoop fuel es init_len rest items depth_rest
          else
            (buildApps (num_items - 1) es items).bind fun (es, items) =>
              match depth_rest with
              | [] => .ok (.error .mismatchedParens, es)
              | d :: ds => parseLoop fuel es init_len rest items ((d + 1) :: ds)
      | ')' :: rest => parseLoop fuel es init_len rest items (0 :: items_of_depth)
      | _ =>
        -- scan one word (maximal run of non-boundary characters)
        let wordRev := s.takeWhile (fun c => !isBoundary c)
        let word := wordRev.reverse
        let rest := s.drop wordRev.length
        if word = ['l', 'a', 'm'] then
          match rest with
          | [] =>
            -- `lam` at the very start of the input: early return
            match items_of_depth with
            | [] => .ok (.error .mismatchedParens, es)
            | num_items :: _ =>
              if num_items ≠ 1 then .ok (.error .lamArity, es)
              else
                match items with
                | b :: items_rest =>
                  (es.add (.lam b)).bind fun (idx, es) =>
                    if (idx :: items_rest).length ≠ 1 then .ok (.error .mismatchedParens, es)
                    else .ok (.ok idx, es)
                | [] => .panic
          | pc :: prest =>
            if pc ≠ '(' then .ok (.error .lamParen, es)
            else
              match items_of_depth with
              | [] => .ok (.error .mismatchedParens, es)
              | num_items :: depth_rest =>
                if num_items ≠ 1 then .ok (.error .lamArity, es)
                else
                  match items with
                  | b :: items_rest =>
                    (es.add (.lam b)).bind fun (idx, es) =>
                      match depth_rest with
                      | [] => .ok (.error .mismatchedParens, es)
                      | d :: ds =>
                        parseLoop fuel es init_len prest (idx :: items_rest) ((d + 1) :: ds)
                  | [] => .panic
        else
          match atomNode word with
          | .error e => .ok (.error e, es)
          | .ok node =>
            (es.add node).bind fun (idx, es) =>
              match items_of_depth with
              | [] => .panic  -- items_of_depth.last_mut().unwrap()
              | d :: ds => parseLoop fuel es init_len rest (idx :: items) ((d + 1) :: ds)

/-- `ExprSet::parse_extend`.  The input is reversed for the right-to-left
scan; the initial depth stack is `[0]`. -/
def parse_extend (es : ExprSet) (str : List Char) : PRes (Except ParseErr Nat × ExprSet) :=
  parseLoop (str.length + 1) es es.nodes.length str.reverse [] [0]

/-! ## The inference driver (`Expr::infer`, `src/types.rs` 813-846)

The external DSL boundary (`dsl.type_of_prim`) is the function argument
`dsl : String → Ty`; the environment `VecDeque<Type>` is a list with the
innermost binder at the head (`push_front` / `pop_front`). -/

def inferF : Nat → ExprSet → Nat → Context → List Ty → (String → Ty) →
    PRes (Except UnifyErr Ty × Context)
  | 0, _, _, _, _, _ => .fuel
  | f + 1, es, idx, ctx, env, dsl =>
    (es.node? idx).bind fun
      | .app fn x =>
        let (return_tp, ctx) := ctx.fresh_type_var
        (inferF f es x ctx env dsl).bind fun (rx, ctx) =>
          match rx with
          | .error e => .ok (.error e, ctx)
          | .ok x_tp =>
            (inferF f es fn ctx env dsl).bind fun (rf, ctx) =>
              match rf with
              | .error e => .ok (.error e, ctx)
              | .ok f_tp =>
                (Context.unifyF f ctx f_tp (Ty.arrow x_tp return_tp)).bind fun (ur, ctx) =>
                  match ur with
                  | .error e => .ok (.error e, ctx)
                  | .ok () =>
                    (Context.applyF f ctx return_tp).map fun t => (.ok t, ctx)
      | .lam b =>
        let (var_tp, ctx) := ctx.fresh_type_var
        (inferF f es b ctx (var_tp :: env) dsl).bind fun (rb, ctx) =>
          match rb with
          | .error e => .ok (.error e, ctx)
          | .ok body_tp =>
            (Context.applyF f ctx (Ty.arrow var_tp body_tp)).map fun t => (.ok t, ctx)
      | .var i =>
        -- `*i as usize >= env.len()` panics (negative i32 wraps to a huge usize)
        if h : 0 ≤ i ∧ i.toNat < env.length then
          (Context.applyF f ctx (env.get ⟨i.toNat, h.2⟩)).map fun t => (.ok t, ctx)
        else .panic
      | .ivar _ => .panic  -- unimplemented!()
      | .prim p =>
        (Context.instantiate (dsl p) ctx).map fun (t, ctx) => (.ok t, ctx)

/-! ## Auxiliary notions used by the claims -/

/-- An arena "built with spans enabled": run a sequence of `add` calls. -/
def addAll (es : ExprSet) : List Node → PRes ExprSet
  | [] => .ok es
  | n :: rest => (es.add n).bind fun (_, es') => addAll es' rest

/-- Membership of an index in a span interval `[start, end)`. -/
def inSpan (sp : Nat × Nat) (j : Nat) : Prop := sp.1 ≤ j ∧ j < sp.2

instance (sp : Nat × Nat) (j : Nat) : Decidable (inSpan sp j) := by
  unfold inSpan; infer_instance

/-- The list of indices visited by the recursive subtree traversal rooted at
`idx` (the traversal order of `cost_rec`), with fuel. -/
def subtreeIdxF : Nat → ExprSet → Nat → PRes (List Nat)
  | 0, _, _ => .fuel
  | f + 1, s, idx =>
    (s.node? idx).bind fun
      | .app fn x =>
        (subtreeIdxF f s fn).bind fun l1 =>
          (subtreeIdxF f s x).map fun l2 => idx :: (l1 ++ l2)
      | .lam b => (subtreeIdxF f s b).map fun l => idx :: l
      | _ => .ok [idx]

/-- Does every `App`/`Lam` node of the arena point only at strictly larger
indices (the stated `ParentFirst` reading of the arena)? -/
def childrenLater (nodes : List Node) : Bool :=
  nodes.enum.all fun (i, n) =>
    match n with
    | .app f x => i < f && i < x
    | .lam b => i < b
    | _ => true

/-! ## C7: `unify_cached` versus `unify`

In unionfind mode every allocated variable `i` satisfies
`subst_unionfind.get(i) == Some(&entry)`, so the assertion
`assert!(self.subst_unionfind.get(i).is_none())` in `unify_cached` fails as
soon as it tries to bind a variable, whereas `unify` succeeds. -/

/-- A unionfind context with one freshly allocated variable `t0`. -/
def ctxUF1 : Context := (Context.empty_unionfind.fresh_type_var).2

/-- The per-index cost function: cost of the node stored at an index (the
default value is irrelevant, only used at indices where the arena read is
known to succeed). -/
def idxCost (s : ExprSet) (cf : ProgramCost) (i : Nat) : Int :=
  nodeCost cf ((s.nodes.get? i).getD (.prim ""))

/-! ## C5: scope-shift instantiation

A `TypeRef` with shift `s` denotes the logical type obtained by adding `s`
to every variable of the referenced term; `shiftVars` expresses that
reading. -/

mutual

def shiftVars (s : Nat) : Ty → Ty
  | .var i => .var (i + s)
  | .term n args => .term n (shiftVarsList s args)

def shiftVarsList (s : Nat) : List Ty → List Ty
  | [] => []
  | a :: rest => shiftVars s a :: shiftVarsList s rest

end

namespace TypeSet

/-- Conservative substitution extension: only variables that were unbound at
push time get bound (exactly what guarded `set_var` calls produce). -/
inductive SubstExt : List (Nat × TypeRef) → List (Nat × TypeRef) → Prop where
  | refl (s : List (Nat × TypeRef)) : SubstExt s s
  | push {s s' : List (Nat × TypeRef)} (v : Nat) (t : TypeRef) :
      SubstExt s s' → lookupSubst s' v = none → SubstExt s (s' ++ [(v, t)])

/-- Closed type arenas: every stored child reference and every reference in
the substitution log points inside the arena. -/
def ArgsLt (len : Nat) : TNode → Prop
  | .var _ => True
  | .term _ args => ∀ a ∈ args, a < len

def Closed (ts : TypeSet) : Prop :=
  (∀ n ∈ ts.nodes, ArgsLt ts.nodes.length n) ∧
  (∀ p ∈ ts.subst, (p : Nat × TypeRef).2.raw < ts.nodes.length)

/-- "The evaluation does not panic, and any returned state is closed." -/
def GoodOut (out : PRes (UnifyResult × TypeSet)) : Prop :=
  out ≠ .panic ∧ ∀ r ts', out = .ok (r, ts') → Closed ts'

end TypeSet

instance (len : Nat) (n : TNode) : Decidable (TypeSet.ArgsLt len n) :=
  match n with
  | .var _ => isTrue True.intro
  | .term _ args => inferInstanceAs (Decidable (∀ a ∈ args, a < len))

instance (ts : TypeSet) : Decidable (TypeSet.Closed ts) :=
  inferInstanceAs (Decidable (_ ∧ _))

namespace TypeSet

/-- The semantic content of a `TypeSet::might_unify = false` verdict: a path
of matching canonical constructor terms ending at a clash.  All facts in it
are stable under conservative substitution extensions. -/
inductive MUFalse (ts : TypeSet) : RawTypeRef → TypeRef → Prop where
  | head {r1 : RawTypeRef} {r2 : TypeRef} (f : Nat) (c2 : TypeRef) (x y : String)
      (xs ys : List RawTypeRef) :
      ts.node? r1 = .ok (.term x xs) → canonF f ts r2 = .ok c2 →
      ts.node? c2.raw = .ok (.term y ys) →
      ¬(x = y ∧ xs.length = ys.length) → MUFalse ts r1 r2
  | child {r1 : RawTypeRef} {r2 : TypeRef} (f : Nat) (c2 : TypeRef) (x : String)
      (xs ys : List RawTypeRef) (p : RawTypeRef × RawTypeRef) :
      ts.node? r1 = .ok (.term x xs) → canonF f ts r2 = .ok c2 →
      ts.node? c2.raw = .ok (.term x ys) →
      xs.length = ys.length → p ∈ xs.zip ys →
      MUFalse ts p.1 (RawTypeRef.shift p.2 c2.shift) → MUFalse ts r1 r2

end TypeSet

/-- A small closed arena holding the two ground types `int` and `bool`. -/
def tsIntBool : TypeSet :=
  { nodes := [.term "int" [], .term "bool" []], max_vars := [none, none],
    subst := [], next_var := 0 }

/-- A DSL giving `+ : int -> int -> int` and typing every other primitive
(in particular the numerals) `int`. -/
def dslPlus : String → Ty := fun p =>
  if p = "+" then Ty.arrow (Ty.base "int") (Ty.arrow (Ty.base "int") (Ty.base "int"))
  else Ty.base "int"

/-- The arena produced by parsing `"(+ 2 3)"` into an empty `ChildFirst`
arena (root index 4). -/
def esPlus : ExprSet :=
  { nodes := [.prim "3", .prim "2", .prim "+", .app 2 1, .app 3 0],
    spans := none, order := .childFirst }

/-- The arena produced by parsing `"(lam $0)"` (root index 1). -/
def esLam : ExprSet :=
  { nodes := [.var 0, .lam 0], spans := none, order := .childFirst }

/-- The context state after inferring `"(+ 2 3)"`. -/
def ctxPlusOut : Context :=
  { subst_unionfind := [],
    subst_append_only :=
      [(1, Ty.arrow (Ty.base "int") (Ty.base "int")), (0, Ty.base "int")],
    next_var := 2, append_only := true }

/-- The context state after inferring `"(lam $0)"`. -/
def ctxLamOut : Context :=
  { subst_unionfind := [], subst_append_only := [], next_var := 1,
    append_only := true }

/-! ## C2: the display/parse round-trip -/

/-- Abstract syntax trees of the s-expression language, with primitive
words as character lists. -/
inductive STree where
  | prim : List Char → STree
  | var : Int → STree
  | ivar : Int → STree
  | app : STree → STree → STree
  | lam : STree → STree
deriving Repr, DecidableEq

/-- A word that parses back as the same primitive: nonempty, no boundary
characters, not the keyword `lam`, no leading `$` or `#`. -/
def GoodWord (w : List Char) : Prop :=
  w ≠ [] ∧ (∀ c ∈ w, isBoundary c = false) ∧ w ≠ ['l', 'a', 'm'] ∧
  w.head? ≠ some '$' ∧ w.head? ≠ some '#'

/-- Trees whose atoms survive the round-trip (`i32` bounds on indices). -/
def GoodTree : STree → Prop
  | .prim w => GoodWord w
  | .var i => -2147483648 ≤ i ∧ i ≤ 2147483647
  | .ivar i => -2147483648 ≤ i ∧ i ≤ 2147483647
  | .app f x => GoodTree f ∧ GoodTree x
  | .lam b => GoodTree b

/-- The canonical rendering of a tree, mirroring `fmt_local` (the Boolean is
`left_of_app`). -/
def dispT : STree → Bool → List Char
  | .prim w, _ => w
  | .var i, _ => '$' :: intChars i
  | .ivar i, _ => '#' :: intChars i
  | .app f x, true => dispT f true ++ ' ' :: dispT x false
  | .app f x, false => '(' :: (dispT f true ++ ' ' :: dispT x false) ++ [')']
  | .lam b, _ => '(' :: 'l' :: 'a' :: 'm' :: ' ' :: dispT b false ++ [')']

/-- Append one node (what `ExprSet::add` does to the node list). -/
def esPush (es : ExprSet) (n : Node) : ExprSet := { es with nodes := es.nodes ++ [n] }

/-- The childFirst layout the parser produces for a tree: arguments before
functions, children before parents; returns the root index. -/
def addT (es : ExprSet) : STree → ExprSet × Nat
  | .prim w => (esPush es (.prim (String.mk w)), es.nodes.length)
  | .var i => (esPush es (.var i), es.nodes.length)
  | .ivar i => (esPush es (.ivar i), es.nodes.length)
  | .app f x =>
    let px := addT es x
    let pf := addT px.1 f
    (esPush pf.1 (.app pf.2 px.2), pf.1.nodes.length)
  | .lam b =>
    let pb := addT es b
    (esPush pb.1 (.lam pb.2), pb.1.nodes.length)

/-- The item indices pushed by scanning a tree in left-of-application
position (the application spine, before the closing-paren fold). -/
def addL (es : ExprSet) : STree → ExprSet × List Nat
  | .app f x =>
    let px := addT es x
    let pf := addL px.1 f
    (pf.1, pf.2 ++ [px.2])
  | .prim w => ((addT es (.prim w)).1, [(addT es (.prim w)).2])
  | .var i => ((addT es (.var i)).1, [(addT es (.var i)).2])
  | .ivar i => ((addT es (.ivar i)).1, [(addT es (.ivar i)).2])
  | .lam b => ((addT es (.lam b)).1, [(addT es (.lam b)).2])

mutual

/-- Loop iterations the parser spends on a tree in argument position. -/
def itersFull : STree → Nat
  | .app f x => itersFull x + itersLeft f + 2
  | .lam b => itersFull b + 2
  | .prim _ => 1
  | .var _ => 1
  | .ivar _ => 1

/-- Loop iterations the parser spends on a tree in left position. -/
def itersLeft : STree → Nat
  | .app f x => itersFull x + itersLeft f
  | .lam b => itersFull b + 2
  | .prim _ => 1
  | .var _ => 1
  | .ivar _ => 1

end

/-- Nesting depth (fuel bound for `displayF`). -/
def depthT : STree → Nat
  | .app f x => max (depthT f) (depthT x) + 1
  | .lam b => depthT b + 1
  | .prim _ => 1
  | .var _ => 1
  | .ivar _ => 1

/-- Number of arena nodes a tree occupies. -/
def nodesT : STree → Nat
  | .app f x => nodesT f + nodesT x + 1
  | .lam b => nodesT b + 1
  | .prim _ => 1
  | .var _ => 1
  | .ivar _ => 1

/-- An arena index denotes a tree.  `HOLE` denotes the word `??` (what the
printer emits for it); all real indices carry their stored node. -/
inductive Denotes (es : ExprSet) : Nat → STree → Prop where
  | hole : Denotes es HOLE (.prim ['?', '?'])
  | prim {idx : Nat} (w : List Char) : idx ≠ HOLE →
      es.node? idx = .ok (.prim (String.mk w)) → Denotes es idx (.prim w)
  | var {idx : Nat} (i : Int) : idx ≠ HOLE →
      es.node? idx = .ok (.var i) → Denotes es idx (.var i)
  | ivar {idx : Nat} (i : Int) : idx ≠ HOLE →
      es.node? idx = .ok (.ivar i) → Denotes es idx (.ivar i)
  | app {idx : Nat} (fi xi : Nat) (f x : STree) : idx ≠ HOLE →
      es.node? idx = .ok (.app fi xi) →
      Denotes es fi f → Denotes es xi x → Denotes es idx (.app f x)
  | lam {idx : Nat} (bi : Nat) (b : STree) : idx ≠ HOLE →
      es.node? idx = .ok (.lam bi) → Denotes es bi b → Denotes es idx (.lam b)

/-- The continuation text starts at a word boundary (or is empty). -/
def HeadBd (l : List Char) : Prop := ∀ c, l.head? = some c → isBoundary c = true

/-- The continuation text does not end in whitespace. -/
def LastNW (l : List Char) : Prop := ∀ c, l.getLast? = some c → isWs c = false

/-- Total node count of a stack of trees. -/
def sumN : List STree → Nat
  | [] => 0
  | t :: r => nodesT t + sumN r

/-- The arena produced by parsing `(a b)` into a fresh childFirst arena. -/
def esAB : ExprSet :=
  { nodes := [.prim "b", .prim "a", .app 1 0], spans := none, order := .childFirst }

/-- The arena produced by parsing `(+ 2 3)` into a fresh childFirst arena. -/
def esP23 : ExprSet :=
  { nodes := [.prim "3", .prim "2", .prim "+", .app 2 1, .app 3 0],
    spans := none, order := .childFirst }

/-- The arena produced by parsing `((foo bar) baz)` (equally `foo bar baz`)
into a fresh childFirst arena. -/
def esFBB : ExprSet :=
  { nodes := [.prim "baz", .prim "bar", .prim "foo", .app 2 1, .app 3 0],
    spans := none, order := .childFirst }

/-! ## Theorems -/

namespace PRes

theorem bind_eq_ok {α β : Type} {x : PRes α} {f : α → PRes β} {b : β}
    (h : x.bind f = .ok b) : ∃ a, x = .ok a ∧ f a = .ok b := by
  cases x with
  | fuel => simp [bind] at h
  | panic => simp [bind] at h
  | ok a => exact ⟨a, rfl, h⟩

theorem map_eq_ok {α β : Type} {x : PRes α} {f : α → β} {b : β}
    (h : x.map f = .ok b) : ∃ a, x = .ok a ∧ f a = b := by
  cases x with
  | fuel => simp [map] at h
  | panic => simp [map] at h
  | ok a => simp [map] at h; exact ⟨a, rfl, h⟩

end PRes

mutual

theorem Ty.beq_iff : ∀ a b : Ty, Ty.beq a b = true ↔ a = b
  | .var i, .var j => by simp [Ty.beq]
  | .term x xs, .term y ys => by
      simp only [Ty.beq, Bool.and_eq_true, beq_iff_eq, Ty.beqList_iff xs ys, Ty.term.injEq]
  | .var _, .term _ _ => by simp [Ty.beq]
  | .term _ _, .var _ => by simp [Ty.beq]

theorem Ty.beqList_iff : ∀ as_ bs : List Ty, Ty.beqList as_ bs = true ↔ as_ = bs
  | [], [] => by simp [Ty.beqList]
  | a :: as_, b :: bs => by
      simp [Ty.beqList, Ty.beq_iff a b, Ty.beqList_iff as_ bs]
  | [], _ :: _ => by simp [Ty.beqList]
  | _ :: _, [] => by simp [Ty.beqList]

end

/-- C7: on a unionfind context with one fresh variable, `unify(t0, int)`
succeeds and binds `t0`, but `unify_cached(t0, int)` panics on its
assertion, contradicting the documented "identical observable results". -/
theorem c7_unify_cached_diverges_from_unify :
    Context.unifyF 10 ctxUF1 (.var 0) (Ty.base "int") =
      .ok (.ok (), { ctxUF1 with subst_unionfind := [some (Ty.base "int")] }) ∧
    Context.unifyCachedF 10 ctxUF1 (.var 0) (Ty.base "int") = .panic := by
  constructor <;> decide

/-! ## C9: `ParentFirst` parsing

`parse_extend` on a `ParentFirst` arena reverses the freshly appended
node slice but rewrites neither the child indices stored inside the nodes
nor the returned root index.  Parsing `"(a b)"` into an empty `ParentFirst`
arena therefore yields `[App(1,0), Prim(a), Prim(b)]` with root index 2:
the `App` node at index 0 has the child index 0 (pointing at itself, not at
a strictly larger index), and the returned root names the leaf `b`. -/

/-- C9: the `ParentFirst` reversal happens, but the resulting slice does not
satisfy "every node's children have strictly larger indices", and the
returned root index is stale. -/
theorem c9_parent_first_reversal_breaks_children :
    parse_extend (ExprSet.empty .parentFirst false) "(a b)".toList =
      .ok (.ok 2,
        { nodes := [.app 1 0, .prim "a", .prim "b"], spans := none,
          order := .parentFirst }) ∧
    childrenLater [.app 1 0, .prim "a", .prim "b"] = false ∧
    [Node.app 1 0, .prim "a", .prim "b"].get? 2 = some (.prim "b") := by
  refine ⟨by decide, by decide, by decide⟩

/-! ## C8: span invariants of `ExprSet::add` -/

/-- C8 counterexample: an arena built by four `add` calls (with spans
enabled) in which the span interval recorded for the `App` node at index 3
is `[0,4)`, which contains the foreign index 2 even though 2 is neither
the node itself nor inside a child span. -/
theorem c8_span_not_exact_counterexample :
    addAll (ExprSet.empty .childFirst true)
        [.prim "a", .prim "b", .prim "c", .app 0 1] =
      .ok { nodes := [.prim "a", .prim "b", .prim "c", .app 0 1],
            spans := some [(0, 1), (1, 2), (2, 3), (0, 4)],
            order := .childFirst } ∧
    inSpan (0, 4) 2 ∧
    ¬ (2 = 3 ∨ inSpan (0, 1) 2 ∨ inSpan (1, 2) 2) := by
  refine ⟨by decide, by decide, by decide⟩

/-- Shape of `ExprSet::add` when the span table is enabled. -/
theorem ExprSet.add_spans_eq (s : ExprSet) (spans0 : List (Nat × Nat)) (node : Node)
    (h : s.spans = some spans0) :
    s.add node =
      (ExprSet.spanFor spans0 s.nodes.length node).map fun sp =>
        (s.nodes.length,
          { s with nodes := s.nodes ++ [node], spans := some (spans0 ++ [sp]) }) := by
  unfold ExprSet.add
  rw [h]

/-- C8 (amended): the span appended by `add` for the node at index `i`
satisfies `start <= i < end` and is the smallest interval containing `{i}`
and the spans of the children: `start` is the `min` and `end` the `max` of
the constituents, and each child span is contained in `[start, end)` —
but the interval need not equal the union (see the counterexample). -/
theorem c8_add_span_bounds : ∀ (s : ExprSet) spans0 node idx s',
    s.spans = some spans0 → s.add node = .ok (idx, s') →
    ∃ sp, s'.spans = some (spans0 ++ [sp]) ∧ idx = s.nodes.length ∧
      sp.1 ≤ idx ∧ idx < sp.2 ∧
      (∀ f x, node = .app f x → ∃ sf sx,
        spans0.get? f = some sf ∧ spans0.get? x = some sx ∧
        sp = (min (min sf.1 sx.1) idx, max (max sf.2 sx.2) (idx + 1)) ∧
        (∀ j, inSpan sf j → inSpan sp j) ∧ (∀ j, inSpan sx j → inSpan sp j)) ∧
      (∀ b, node = .lam b → ∃ sb, spans0.get? b = some sb ∧
        sp = (min sb.1 idx, max sb.2 (idx + 1)) ∧
        (∀ j, inSpan sb j → inSpan sp j)) ∧
      (∀ i, node = .var i ∨ node = .ivar i → sp = (idx, idx + 1)) ∧
      (∀ p, node = .prim p → sp = (idx, idx + 1)) := by
  intro s spans0 node idx s' hs hadd
  rw [ExprSet.add_spans_eq s spans0 node hs] at hadd
  obtain ⟨sp, hsp, hpair⟩ := PRes.map_eq_ok hadd
  obtain ⟨hidx, hs'⟩ := Prod.mk.injEq _ _ _ _ ▸ hpair
  subst hidx
  cases node with
  | var i =>
    simp only [ExprSet.spanFor, PRes.ok.injEq] at hsp
    subst hsp
    refine ⟨_, by rw [← hs'], rfl, Nat.le_refl _, Nat.lt_succ_self _, ?_, ?_, ?_, ?_⟩
    · intro _ _ h; cases h
    · intro _ h; cases h
    · intro _ _; rfl
    · intro _ h; cases h
  | ivar i =>
    simp only [ExprSet.spanFor, PRes.ok.injEq] at hsp
    subst hsp
    refine ⟨_, by rw [← hs'], rfl, Nat.le_refl _, Nat.lt_succ_self _, ?_, ?_, ?_, ?_⟩
    · intro _ _ h; cases h
    · intro _ h; cases h
    · intro _ _; rfl
    · intro _ h; cases h
  | prim p =>
    simp only [ExprSet.spanFor, PRes.ok.injEq] at hsp
    subst hsp
    refine ⟨_, by rw [← hs'], rfl, Nat.le_refl _, Nat.lt_succ_self _, ?_, ?_, ?_, ?_⟩
    · intro _ _ h; cases h
    · intro _ h; cases h
    · intro _ h; rcases h with h | h <;> cases h
    · intro _ _; rfl
  | app fn x =>
    simp only [ExprSet.spanFor] at hsp
    split at hsp
    · rename_i sf sx hf hx
      simp only [PRes.ok.injEq] at hsp
      subst hsp
      refine ⟨_, by rw [← hs'], rfl, by simp, by simp, ?_, ?_, ?_, ?_⟩
      · intro f' x' heq
        cases heq
        refine ⟨sf, sx, hf, hx, rfl, ?_, ?_⟩
        · intro j hj
          obtain ⟨h1, h2⟩ := hj
          exact ⟨by simp; omega, by simp; omega⟩
        · intro j hj
          obtain ⟨h1, h2⟩ := hj
          exact ⟨by simp; omega, by simp; omega⟩
      · intro b heq; cases heq
      · intro i heq; rcases heq with h | h <;> cases h
      · intro p heq; cases heq
    · cases hsp
  | lam b =>
    simp only [ExprSet.spanFor] at hsp
    split at hsp
    · rename_i sb hb
      simp only [PRes.ok.injEq] at hsp
      subst hsp
      refine ⟨_, by rw [← hs'], rfl, by simp, by simp, ?_, ?_, ?_, ?_⟩
      · intro f' x' heq; cases heq
      · intro b' heq
        cases heq
        refine ⟨sb, hb, rfl, ?_⟩
        intro j hj
        obtain ⟨h1, h2⟩ := hj
        exact ⟨by simp; omega, by simp; omega⟩
      · intro i heq; rcases heq with h | h <;> cases h
      · intro p heq; cases heq
    · cases hsp

/-- Witness for `c8_add_span_bounds` at a concrete arena. -/
theorem c8_add_span_bounds_witness :
    ∃ sp, ({ nodes := [Node.prim "a", Node.prim "b", Node.app 0 1],
             spans := some [(0, 1), (1, 2), (0, 3)],
             order := Order.childFirst } : ExprSet).spans =
        some ([(0, 1), (1, 2)] ++ [sp]) ∧ sp.1 ≤ 2 ∧ 2 < sp.2 := by
  obtain ⟨sp, h1, _, h3, h4, _⟩ :=
    c8_add_span_bounds
      { nodes := [Node.prim "a", Node.prim "b"],
        spans := some [(0, 1), (1, 2)], order := Order.childFirst }
      [(0, 1), (1, 2)] (.app 0 1) 2
      { nodes := [.prim "a", .prim "b", .app 0 1],
        spans := some [(0, 1), (1, 2), (0, 3)], order := .childFirst }
      (by rfl) (by decide)
  exact ⟨sp, h1, h3, h4⟩

/-! ## C6: `cost_rec` versus `cost_span` -/

theorem mapPRes_ok_of_forall {α β : Type} {h : α → PRes β} {g : α → β} :
    ∀ {l : List α}, (∀ a ∈ l, h a = .ok (g a)) → mapPRes h l = .ok (l.map g)
  | [], _ => rfl
  | a :: rest, hall => by
    have ha := hall a (List.mem_cons_self a rest)
    have hrest := mapPRes_ok_of_forall (fun b hb => hall b (List.mem_cons_of_mem a hb))
    simp [mapPRes, ha, hrest]

theorem subtree_reads_ok : ∀ (f : Nat) (s : ExprSet) (idx : Nat) (L : List Nat),
    subtreeIdxF f s idx = .ok L → ∀ i ∈ L, ∃ n, s.nodes.get? i = some n
  | 0, _, _, _, h => by cases h
  | f + 1, s, idx, L, h => by
    unfold subtreeIdxF at h
    obtain ⟨n, hn, hrest⟩ := PRes.bind_eq_ok h
    have hget : s.nodes.get? idx = some n := by
      unfold ExprSet.node? at hn
      cases hg : s.nodes.get? idx <;> rw [hg] at hn <;> simp at hn
      rw [hn]
    cases n with
    | app fn x =>
      obtain ⟨L1, h1, hrest2⟩ := PRes.bind_eq_ok hrest
      obtain ⟨L2, h2, hL⟩ := PRes.map_eq_ok hrest2
      subst hL
      intro i hi
      rcases List.mem_cons.mp hi with rfl | hi
      · exact ⟨_, hget⟩
      · rcases List.mem_append.mp hi with hi | hi
        · exact subtree_reads_ok f s fn L1 h1 i hi
        · exact subtree_reads_ok f s x L2 h2 i hi
    | lam b =>
      obtain ⟨L1, h1, hL⟩ := PRes.map_eq_ok hrest
      subst hL
      intro i hi
      rcases List.mem_cons.mp hi with rfl | hi
      · exact ⟨_, hget⟩
      · exact subtree_reads_ok f s b L1 h1 i hi
    | var v =>
      simp only [PRes.ok.injEq] at hrest
      subst hrest
      intro i hi
      rcases List.mem_singleton.mp hi with rfl
      exact ⟨_, hget⟩
    | ivar v =>
      simp only [PRes.ok.injEq] at hrest
      subst hrest
      intro i hi
      rcases List.mem_singleton.mp hi with rfl
      exact ⟨_, hget⟩
    | prim p =>
      simp only [PRes.ok.injEq] at hrest
      subst hrest
      intro i hi
      rcases List.mem_singleton.mp hi with rfl
      exact ⟨_, hget⟩

theorem costRec_eq_subtree_sum : ∀ (f : Nat) (s : ExprSet) (idx : Nat) (L : List Nat)
    (cf : ProgramCost), subtreeIdxF f s idx = .ok L →
    costRecF f s idx cf = .ok ((L.map (idxCost s cf)).sum)
  | 0, _, _, _, _, h => by cases h
  | f + 1, s, idx, L, cf, h => by
    unfold subtreeIdxF at h
    obtain ⟨n, hn, hrest⟩ := PRes.bind_eq_ok h
    have hget : s.nodes.get? idx = some n := by
      unfold ExprSet.node? at hn
      cases hg : s.nodes.get? idx <;> rw [hg] at hn <;> simp at hn
      rw [hn]
    have hcost : idxCost s cf idx = nodeCost cf n := by
      unfold idxCost
      rw [hget]
      rfl
    cases n with
    | app fn x =>
      obtain ⟨L1, h1, hrest2⟩ := PRes.bind_eq_ok hrest
      obtain ⟨L2, h2, hL⟩ := PRes.map_eq_ok hrest2
      subst hL
      simp only [costRecF, hn, PRes.bind_ok]
      rw [costRec_eq_subtree_sum f s fn L1 cf h1]
      simp only [PRes.bind_ok]
      rw [costRec_eq_subtree_sum f s x L2 cf h2]
      simp only [PRes.map_ok, PRes.ok.injEq]
      simp only [nodeCost] at hcost
      simp [hcost]
      ring
    | lam b =>
      obtain ⟨L1, h1, hL⟩ := PRes.map_eq_ok hrest
      subst hL
      simp only [costRecF, hn, PRes.bind_ok]
      rw [costRec_eq_subtree_sum f s b L1 cf h1]
      simp only [PRes.map_ok, PRes.ok.injEq]
      simp only [nodeCost] at hcost
      simp [hcost]
    | var v =>
      simp only [PRes.ok.injEq] at hrest
      subst hrest
      simp only [costRecF, hn, PRes.bind_ok]
      simp [hcost]
    | ivar v =>
      simp only [PRes.ok.injEq] at hrest
      subst hrest
      simp only [costRecF, hn, PRes.bind_ok]
      simp [hcost]
    | prim p =>
      simp only [PRes.ok.injEq] at hrest
      subst hrest
      simp only [costRecF, hn, PRes.bind_ok]
      simp [hcost]

/-- C6 counterexample: in the same four-`add` arena as the C8 counterexample
(a well-formed spans-enabled arena), `cost_rec` of the `App` node at index 3
is 201 while `cost_span` is 301: the span interval contains the unrelated
node at index 2, so the two cost computations disagree. -/
theorem c6_cost_rec_ne_cost_span_counterexample :
    addAll (ExprSet.empty .childFirst true)
        [.prim "a", .prim "b", .prim "c", .app 0 1] =
      .ok { nodes := [.prim "a", .prim "b", .prim "c", .app 0 1],
            spans := some [(0, 1), (1, 2), (2, 3), (0, 4)],
            order := .childFirst } ∧
    costRecF 10
        { nodes := [.prim "a", .prim "b", .prim "c", .app 0 1],
          spans := some [(0, 1), (1, 2), (2, 3), (0, 4)], order := .childFirst }
        3 { cost_lam := 1, cost_app := 1, cost_var := 100, cost_ivar := 100,
            cost_prim := fun _ => none, cost_prim_default := 100 } = .ok 201 ∧
    costSpan
        { nodes := [.prim "a", .prim "b", .prim "c", .app 0 1],
          spans := some [(0, 1), (1, 2), (2, 3), (0, 4)], order := .childFirst }
        3 { cost_lam := 1, cost_app := 1, cost_var := 100, cost_ivar := 100,
            cost_prim := fun _ => none, cost_prim_default := 100 } = .ok 301 := by
  refine ⟨by decide, by decide, by decide⟩

/-- C6 (amended): `cost_rec(n) = cost_span(n)` for every node `n` of a
spans-enabled arena whose recursive subtree traversal visits exactly the
indices of the recorded span, each exactly once (no foreign index inside
the interval, no sharing in the subtree).  The hypothesis is a permutation
between the traversal and the span interval. -/
theorem c6_cost_rec_eq_cost_span_of_exact : ∀ (f : Nat) (s : ExprSet) (idx : Nat)
    (cf : ProgramCost) (L : List Nat) (spans0 : List (Nat × Nat)) (st en : Nat),
    s.spans = some spans0 → spans0.get? idx = some (st, en) →
    subtreeIdxF f s idx = .ok L → L.Perm (List.range' st (en - st)) →
    ∃ c, costRecF f s idx cf = .ok c ∧ costSpan s idx cf = .ok c := by
  intro f s idx cf L spans0 st en hspans hsp hsub hperm
  refine ⟨(L.map (idxCost s cf)).sum, costRec_eq_subtree_sum f s idx L cf hsub, ?_⟩
  simp only [costSpan, hspans, hsp]
  have hreads := subtree_reads_ok f s idx L hsub
  have hall : ∀ i ∈ List.range' st (en - st),
      ((s.node? i).map (nodeCost cf) : PRes Int) = .ok (idxCost s cf i) := by
    intro i hi
    obtain ⟨n, hn⟩ := hreads i (hperm.mem_iff.mpr hi)
    have hn2 : s.nodes[i]? = some n := by
      rw [← List.get?_eq_getElem?]
      exact hn
    unfold ExprSet.node?
    rw [hn]
    simp [idxCost, hn2]
  rw [mapPRes_ok_of_forall hall]
  simp only [PRes.map_ok, PRes.ok.injEq]
  exact (List.Perm.sum_eq (hperm.map (idxCost s cf))).symm

/-- Witness for the amended C6 at the arena parsed from three nodes. -/
theorem c6_cost_rec_eq_cost_span_witness :
    ∃ c, costRecF 10
        { nodes := [.prim "a", .prim "b", .app 0 1],
          spans := some [(0, 1), (1, 2), (0, 3)], order := .childFirst }
        2 { cost_lam := 1, cost_app := 1, cost_var := 100, cost_ivar := 100,
            cost_prim := fun _ => none, cost_prim_default := 100 } = .ok c ∧
      costSpan
        { nodes := [.prim "a", .prim "b", .app 0 1],
          spans := some [(0, 1), (1, 2), (0, 3)], order := .childFirst }
        2 { cost_lam := 1, cost_app := 1, cost_var := 100, cost_ivar := 100,
            cost_prim := fun _ => none, cost_prim_default := 100 } = .ok c :=
  c6_cost_rec_eq_cost_span_of_exact 10
    { nodes := [.prim "a", .prim "b", .app 0 1],
      spans := some [(0, 1), (1, 2), (0, 3)], order := .childFirst }
    2 _ [2, 0, 1] [(0, 1), (1, 2), (0, 3)] 0 3 (by rfl) (by decide) (by decide)
    (by decide)

mutual

theorem shiftVars_add : ∀ (a b : Nat) (t : Ty),
    shiftVars (a + b) t = shiftVars b (shiftVars a t)
  | a, b, .var i => by simp [shiftVars]; omega
  | a, b, .term n args => by
    simp [shiftVars, shiftVarsList_add a b args]

theorem shiftVarsList_add : ∀ (a b : Nat) (l : List Ty),
    shiftVarsList (a + b) l = shiftVarsList b (shiftVarsList a l)
  | _, _, [] => rfl
  | a, b, t :: rest => by
    simp [shiftVarsList, shiftVars_add a b t, shiftVarsList_add a b rest]

end

mutual

theorem occurs_shiftVars : ∀ (t : Ty) (s v : Nat),
    (shiftVars s t).occurs v = true ↔ ∃ w, t.occurs w = true ∧ v = w + s
  | .var j, s, v => by
    simp [shiftVars, Ty.occurs]
  | .term n args, s, v => by
    simp only [shiftVars, Ty.occurs]
    exact occursList_shiftVars args s v

theorem occursList_shiftVars : ∀ (l : List Ty) (s v : Nat),
    Ty.occursList (shiftVarsList s l) v = true ↔
      ∃ w, Ty.occursList l w = true ∧ v = w + s
  | [], s, v => by simp [shiftVarsList, Ty.occursList]
  | t :: rest, s, v => by
    simp only [shiftVarsList, Ty.occursList, Bool.or_eq_true]
    constructor
    · rintro (h | h)
      · obtain ⟨w, hw, rfl⟩ := (occurs_shiftVars t s v).mp h
        exact ⟨w, Or.inl hw, rfl⟩
      · obtain ⟨w, hw, rfl⟩ := (occursList_shiftVars rest s v).mp h
        exact ⟨w, Or.inr hw, rfl⟩
    · rintro ⟨w, hw | hw, rfl⟩
      · exact Or.inl ((occurs_shiftVars t s (w + s)).mpr ⟨w, hw, rfl⟩)
      · exact Or.inr ((occursList_shiftVars rest s (w + s)).mpr ⟨w, hw, rfl⟩)

end

/-- C5: `RawTypeRef::instantiate` on a reference whose cached max var is `m`
allocates exactly `m + 1` fresh variables starting at `next_var` (none when
the cache records a ground type), rewrites no nodes and no bindings, and
returns the reference shifted by the old `next_var`; two successive
instantiations of the same scheme therefore denote types equal up to the
variable renaming `+(m+1)` and share no logical variable. -/
theorem c5_instantiate_shift :
    (∀ (ts : TypeSet) (r : RawTypeRef) (m : Nat),
      ts.max_vars.get? r = some (some m) →
      RawTypeRef.instantiate r ts =
        .ok (⟨r, ts.next_var⟩, { ts with next_var := ts.next_var + (m + 1) })) ∧
    (∀ (ts : TypeSet) (r : RawTypeRef),
      ts.max_vars.get? r = some none →
      RawTypeRef.instantiate r ts = .ok (⟨r, ts.next_var⟩, ts)) ∧
    (∀ (ts : TypeSet) (r : RawTypeRef) (m fu : Nat) (T : Ty)
      (tr1 : TypeRef) (ts1 : TypeSet) (tr2 : TypeRef) (ts2 : TypeSet),
      ts.max_vars.get? r = some (some m) →
      RawTypeRef.tpF fu ts r = .ok T →
      (∀ v, T.occurs v = true → v ≤ m) →
      RawTypeRef.instantiate r ts = .ok (tr1, ts1) →
      RawTypeRef.instantiate r ts1 = .ok (tr2, ts2) →
      tr1 = ⟨r, ts.next_var⟩ ∧ tr2 = ⟨r, ts.next_var + (m + 1)⟩ ∧
      ts1.nodes = ts.nodes ∧ ts2.nodes = ts.nodes ∧
      ts1.subst = ts.subst ∧ ts2.subst = ts.subst ∧
      ts1.max_vars = ts.max_vars ∧ ts2.max_vars = ts.max_vars ∧
      ts2.next_var = ts.next_var + 2 * (m + 1) ∧
      shiftVars tr2.shift T = shiftVars (m + 1) (shiftVars tr1.shift T) ∧
      (∀ v, (shiftVars tr1.shift T).occurs v = true →
        (shiftVars tr2.shift T).occurs v = false)) := by
  have hsome : ∀ (ts : TypeSet) (r : RawTypeRef) (m : Nat),
      ts.max_vars.get? r = some (some m) →
      RawTypeRef.instantiate r ts =
        .ok (⟨r, ts.next_var⟩, { ts with next_var := ts.next_var + (m + 1) }) := by
    intro ts r m h
    simp only [RawTypeRef.instantiate, TypeSet.max_var?, h, PRes.map_ok]
  have hnone : ∀ (ts : TypeSet) (r : RawTypeRef),
      ts.max_vars.get? r = some none →
      RawTypeRef.instantiate r ts = .ok (⟨r, ts.next_var⟩, ts) := by
    intro ts r h
    simp only [RawTypeRef.instantiate, TypeSet.max_var?, h, PRes.map_ok]
  refine ⟨hsome, hnone, ?_⟩
  intro ts r m fu T tr1 ts1 tr2 ts2 hmv _htp hbound hi1 hi2
  rw [hsome ts r m hmv] at hi1
  simp only [PRes.ok.injEq, Prod.mk.injEq] at hi1
  obtain ⟨rfl, rfl⟩ := hi1
  rw [hsome _ r m (by simpa using hmv)] at hi2
  simp only [PRes.ok.injEq, Prod.mk.injEq] at hi2
  obtain ⟨rfl, rfl⟩ := hi2
  refine ⟨rfl, rfl, rfl, rfl, rfl, rfl, rfl, rfl, by simp; ring, ?_, ?_⟩
  · show shiftVars (ts.next_var + (m + 1)) T = _
    rw [shiftVars_add]
  · intro v hv
    obtain ⟨w, hw, rfl⟩ := (occurs_shiftVars T ts.next_var v).mp hv
    have hwm := hbound w hw
    rw [Bool.eq_false_iff]
    intro hv2
    obtain ⟨w2, _, heq⟩ := (occurs_shiftVars T (ts.next_var + (m + 1)) _).mp hv2
    omega

/-- Witness for C5 at the interned scheme `t0 -> t0`. -/
theorem c5_instantiate_shift_witness :
    ∃ (tsv : TypeSet),
      TypeSet.add_tp TypeSet.empty (Ty.arrow (.var 0) (.var 0)) = .ok (2, tsv) ∧
      RawTypeRef.instantiate 2 tsv =
        .ok (⟨2, 0⟩, { tsv with next_var := 1 }) ∧
      shiftVars 1 (Ty.arrow (.var 0) (.var 0)) =
        shiftVars 1 (shiftVars 0 (Ty.arrow (.var 0) (.var 0))) := by
  refine ⟨{ nodes := [.var 0, .var 0, .term ARROW_SYM [0, 1]],
            max_vars := [some 0, some 0, some 0], subst := [], next_var := 0 },
          by decide, ?_, ?_⟩
  · exact (c5_instantiate_shift.1 _ 2 0 (by decide))
  · have h := (c5_instantiate_shift.2.2
      { nodes := [.var 0, .var 0, .term ARROW_SYM [0, 1]],
        max_vars := [some 0, some 0, some 0], subst := [], next_var := 0 }
      2 0 10 (Ty.arrow (.var 0) (.var 0)) ⟨2, 0⟩
      { nodes := [.var 0, .var 0, .term ARROW_SYM [0, 1]],
        max_vars := [some 0, some 0, some 0], subst := [], next_var := 1 }
      ⟨2, 1⟩
      { nodes := [.var 0, .var 0, .term ARROW_SYM [0, 1]],
        max_vars := [some 0, some 0, some 0], subst := [], next_var := 2 }
      (by decide) (by decide)
      (by
        intro v hv
        simp [Ty.arrow, Ty.occurs, Ty.occursList, ARROW_SYM] at hv
        omega)
      (by decide) (by decide))
    exact h.2.2.2.2.2.2.2.2.2.1

namespace TypeSet

/-! ## Infrastructure for the `TypeSet` unification claims (C3, C4, C10) -/


theorem lookupSubst_append (l : List (Nat × TypeRef)) (v : Nat) (t : TypeRef) (w : Nat) :
    lookupSubst (l ++ [(v, t)]) w = if v = w then some t else lookupSubst l w := by
  induction l with
  | nil =>
    simp only [List.nil_append, lookupSubst]
    by_cases h : v = w <;> simp [h]
  | cons p rest ih =>
    obtain ⟨i, u⟩ := p
    simp only [List.cons_append, lookupSubst, List.append_eq]
    rw [ih]
    by_cases h : v = w
    · subst h
      simp
    · simp [h]

theorem lookupSubst_mem {l : List (Nat × TypeRef)} {v : Nat} {t : TypeRef}
    (h : lookupSubst l v = some t) : (v, t) ∈ l := by
  induction l with
  | nil => cases h
  | cons p rest ih =>
    obtain ⟨i, u⟩ := p
    simp only [lookupSubst] at h
    cases hr : lookupSubst rest v with
    | some t2 =>
      rw [hr] at h
      simp at h
      subst h
      exact List.mem_cons_of_mem _ (ih hr)
    | none =>
      rw [hr] at h
      simp at h
      obtain ⟨rfl, rfl⟩ := h
      exact List.mem_cons_self _ _

theorem lookupSubst_none_iff (l : List (Nat × TypeRef)) (v : Nat) :
    lookupSubst l v = none ↔ v ∉ l.map Prod.fst := by
  induction l with
  | nil => simp [lookupSubst]
  | cons p rest ih =>
    obtain ⟨i, u⟩ := p
    simp only [lookupSubst, List.map_cons, List.mem_cons]
    cases hr : lookupSubst rest v with
    | some t2 =>
      simp only [Option.elim_some]
      constructor
      · intro h; cases h
      · intro h
        exact absurd (ih.mpr (fun hc => h (Or.inr hc))) (by simp [hr])
    | none =>
      simp only [Option.elim_none]
      have hrest := ih.mp hr
      by_cases hiv : i = v
      · simp [hiv]
      · simp [hiv, hrest]
        intro hvi
        exact hiv hvi.symm

theorem SubstExt.trans {a b c : List (Nat × TypeRef)}
    (h1 : SubstExt a b) (h2 : SubstExt b c) : SubstExt a c := by
  induction h2 with
  | refl => exact h1
  | push v t _ hnone ih => exact SubstExt.push v t ih hnone

theorem SubstExt.append {a b : List (Nat × TypeRef)} (h : SubstExt a b) :
    ∃ d, b = a ++ d := by
  induction h with
  | refl => exact ⟨[], by simp⟩
  | push v t _ _ ih =>
    obtain ⟨d, rfl⟩ := ih
    exact ⟨d ++ [(v, t)], by simp⟩

theorem SubstExt.lookup_some {a b : List (Nat × TypeRef)} (h : SubstExt a b)
    {v : Nat} {t : TypeRef} (hv : lookupSubst a v = some t) :
    lookupSubst b v = some t := by
  induction h with
  | refl => exact hv
  | push w u hext hnone ih =>
    rw [lookupSubst_append]
    by_cases hw : w = v
    · subst hw
      rw [ih] at hnone
      cases hnone
    · rw [if_neg hw]
      exact ih

theorem SubstExt.nodup {a b : List (Nat × TypeRef)} (h : SubstExt a b)
    (hnd : (a.map Prod.fst).Nodup) : (b.map Prod.fst).Nodup := by
  induction h with
  | refl => exact hnd
  | push w u hext hnone ih =>
    simp only [List.map_append, List.map_cons, List.map_nil]
    rw [List.nodup_append]
    refine ⟨ih, List.nodup_singleton _, ?_⟩
    intro x hx hx2
    simp at hx2
    subst hx2
    exact ((lookupSubst_none_iff _ _).mp hnone) hx

theorem node?_ok {ts : TypeSet} {r : RawTypeRef} (h : r < ts.nodes.length) :
    ∃ n, ts.node? r = .ok n ∧ ts.nodes.get? r = some n := by
  unfold node?
  cases hg : ts.nodes.get? r with
  | none =>
    exfalso
    rw [List.get?_eq_getElem?, List.getElem?_eq_none_iff] at hg
    exact absurd h (not_lt.mpr hg)
  | some n => exact ⟨n, rfl, rfl⟩

theorem node?_mem {ts : TypeSet} {r : RawTypeRef} {n : TNode}
    (h : ts.node? r = .ok n) : ts.nodes.get? r = some n ∧ n ∈ ts.nodes := by
  unfold node? at h
  cases hg : ts.nodes.get? r with
  | none => rw [hg] at h; cases h
  | some n2 =>
    rw [hg] at h
    simp at h
    subst h
    exact ⟨rfl, List.get?_mem hg⟩

theorem node?_congr {ts ts' : TypeSet} (h : ts'.nodes = ts.nodes) (r : RawTypeRef) :
    ts'.node? r = ts.node? r := by
  unfold node?
  rw [h]

theorem canon_mono : ∀ (f : Nat) (ts : TypeSet) (t c : TypeRef),
    canonF f ts t = .ok c → canonF (f + 1) ts t = .ok c
  | 0, _, _, _, h => by cases h
  | f + 1, ts, t, c, h => by
    obtain ⟨n, hn, hrest⟩ := PRes.bind_eq_ok h
    cases n with
    | var i =>
      simp only [canonF, hn, PRes.bind_ok]
      cases hv : ts.get_var (i + t.shift) with
      | some b =>
        simp only [hv] at hrest
        exact canon_mono f ts b c hrest
      | none =>
        simp only [hv] at hrest
        exact hrest
    | term s args =>
      simp only [canonF, hn, PRes.bind_ok]
      exact hrest

theorem canon_mono_le {f f' : Nat} {ts : TypeSet} {t c : TypeRef}
    (hle : f ≤ f') (h : canonF f ts t = .ok c) : canonF f' ts t = .ok c := by
  induction f', hle using Nat.le_induction with
  | base => exact h
  | succ n hn ih => exact canon_mono n ts t c ih

theorem canon_idem : ∀ (f : Nat) (ts : TypeSet) (t c : TypeRef),
    canonF f ts t = .ok c → canonF f ts c = .ok c
  | 0, _, _, _, h => by cases h
  | f + 1, ts, t, c, h => by
    obtain ⟨n, hn, hrest⟩ := PRes.bind_eq_ok h
    cases n with
    | var i =>
      cases hv : ts.get_var (i + t.shift) with
      | some b =>
        simp only [hv] at hrest
        exact canon_mono f ts c c (canon_idem f ts b c hrest)
      | none =>
        simp only [hv] at hrest
        cases hrest
        exact h
    | term s args =>
      cases hrest
      exact h

theorem canon_var_unbound : ∀ (f : Nat) (ts : TypeSet) (t c : TypeRef) (j : Nat),
    canonF f ts t = .ok c → ts.node? c.raw = .ok (.var j) →
    ts.get_var (j + c.shift) = none
  | 0, _, _, _, _, h, _ => by cases h
  | f + 1, ts, t, c, j, h, hcn => by
    obtain ⟨n, hn, hrest⟩ := PRes.bind_eq_ok h
    cases n with
    | var i =>
      cases hv : ts.get_var (i + t.shift) with
      | some b =>
        simp only [hv] at hrest
        exact canon_var_unbound f ts b c j hrest hcn
      | none =>
        simp only [hv] at hrest
        cases hrest
        rw [hn] at hcn
        simp only [PRes.ok.injEq, TNode.var.injEq] at hcn
        subst hcn
        exact hv
    | term s args =>
      cases hrest
      rw [hn] at hcn
      cases hcn

/-- A canonical result whose node is a constructor term is stable under any
conservative extension of the substitution (the canonicalization chain uses
only bindings that are preserved). -/
theorem canon_stable : ∀ (f : Nat) (ts ts' : TypeSet) (t c : TypeRef) (x : String)
    (args : List RawTypeRef),
    canonF f ts t = .ok c → ts.node? c.raw = .ok (.term x args) →
    SubstExt ts.subst ts'.subst → ts'.nodes = ts.nodes →
    ∀ f', canonF f' ts' t = .fuel ∨ canonF f' ts' t = .ok c
  | 0, _, _, _, _, _, _, h, _, _, _, _ => by cases h
  | f + 1, ts, ts', t, c, x, args, h, hcn, hext, hnodes, f' => by
    obtain ⟨n, hn, hrest⟩ := PRes.bind_eq_ok h
    cases f' with
    | zero => exact Or.inl rfl
    | succ f' =>
      cases n with
      | var i =>
        cases hv : ts.get_var (i + t.shift) with
        | some b =>
          simp only [hv] at hrest
          have hv' : ts'.get_var (i + t.shift) = some b :=
            hext.lookup_some hv
          have := canon_stable f ts ts' b c x args hrest hcn hext hnodes f'
          simp only [canonF, node?_congr hnodes, hn, PRes.bind_ok, hv']
          exact this
        | none =>
          simp only [hv] at hrest
          cases hrest
          rw [hn] at hcn
          cases hcn
      | term s2 args2 =>
        cases hrest
        simp only [canonF, node?_congr hnodes, hn, PRes.bind_ok]
        exact Or.inr trivial

/-- `set_var` leaves every component except the substitution untouched. -/
theorem set_var_fields (ts : TypeSet) (v : Nat) (t : TypeRef) :
    (ts.set_var v t).nodes = ts.nodes ∧ (ts.set_var v t).max_vars = ts.max_vars ∧
    (ts.set_var v t).next_var = ts.next_var ∧
    (ts.set_var v t).subst = ts.subst ++ [(v, t)] :=
  ⟨rfl, rfl, rfl, rfl⟩

mutual

/-- A returning `TypeSet::unify` changes only the substitution, and only by
appending bindings for variables that were unbound at push time. -/
theorem unify_ext : ∀ (f : Nat) (ts : TypeSet) (t1 t2 : TypeRef) (r : UnifyResult)
    (ts' : TypeSet), unifyF f ts t1 t2 = .ok (r, ts') →
    ts'.nodes = ts.nodes ∧ ts'.max_vars = ts.max_vars ∧
    ts'.next_var = ts.next_var ∧ SubstExt ts.subst ts'.subst
  | 0, _, _, _, _, _, h => by cases h
  | f + 1, ts, t1, t2, r, ts', h => by
    obtain ⟨c1, hc1, h⟩ := PRes.bind_eq_ok h
    obtain ⟨c2, hc2, h⟩ := PRes.bind_eq_ok h
    obtain ⟨n1, hn1, h⟩ := PRes.bind_eq_ok h
    obtain ⟨n2, hn2, h⟩ := PRes.bind_eq_ok h
    cases n1 with
    | var i =>
      have hvararm : ∀ (hsame : Bool),
          ((if hsame then (.ok (.ok (), ts) : PRes (UnifyResult × TypeSet))
            else
              (occursF f ts (i + c1.shift) c2).bind fun occ =>
                if occ then .ok (.error .occurs, ts)
                else
                  match ts.get_var (i + c1.shift) with
                  | some _ => .panic
                  | none => .ok (.ok (), ts.set_var (i + c1.shift) c2)) = .ok (r, ts')) →
          ts'.nodes = ts.nodes ∧ ts'.max_vars = ts.max_vars ∧
          ts'.next_var = ts.next_var ∧ SubstExt ts.subst ts'.subst := by
        intro hsame h
        cases hsame with
        | true =>
          rw [if_pos rfl] at h
          cases h
          exact ⟨rfl, rfl, rfl, .refl _⟩
        | false =>
          rw [if_neg Bool.false_ne_true] at h
          obtain ⟨occ, hocc, h⟩ := PRes.bind_eq_ok h
          cases occ with
          | true =>
            rw [if_pos rfl] at h
            cases h
            exact ⟨rfl, rfl, rfl, .refl _⟩
          | false =>
            rw [if_neg Bool.false_ne_true] at h
            cases hv : ts.get_var (i + c1.shift) with
            | some b => rw [hv] at h; cases h
            | none =>
              rw [hv] at h
              simp only [PRes.ok.injEq, Prod.mk.injEq] at h
              obtain ⟨rfl, rfl⟩ := h
              exact ⟨rfl, rfl, rfl, .push _ _ (.refl _) hv⟩
      cases n2 with
      | var j => exact hvararm _ h
      | term y ys => exact hvararm _ h
    | term x xs =>
      cases n2 with
      | var i =>
        obtain ⟨occ, hocc, h⟩ := PRes.bind_eq_ok h
        cases occ with
        | true =>
          rw [if_pos rfl] at h
          cases h
          exact ⟨rfl, rfl, rfl, .refl _⟩
        | false =>
          rw [if_neg Bool.false_ne_true] at h
          cases hv : ts.get_var (i + c2.shift) with
          | some b => rw [hv] at h; cases h
          | none =>
            rw [hv] at h
            simp only [PRes.ok.injEq, Prod.mk.injEq] at h
            obtain ⟨rfl, rfl⟩ := h
            exact ⟨rfl, rfl, rfl, .push _ _ (.refl _) hv⟩
      | term y ys =>
        have h' : (if x ≠ y ∨ xs.length ≠ ys.length then
              (.ok (.error .production, ts) : PRes (UnifyResult × TypeSet))
            else
              unifyPairsTS f ts
                ((xs.map (fun rr => rr.shift c1.shift)).zip
                  (ys.map (fun rr => rr.shift c2.shift)))) = .ok (r, ts') := h
        by_cases hxy : x ≠ y ∨ xs.length ≠ ys.length
        · rw [if_pos hxy] at h'
          cases h'
          exact ⟨rfl, rfl, rfl, .refl _⟩
        · rw [if_neg hxy] at h'
          exact unify_pairs_ext f ts _ r ts' h'

/-- The same for the argument-pair fold. -/
theorem unify_pairs_ext : ∀ (f : Nat) (ts : TypeSet) (ps : List (TypeRef × TypeRef))
    (r : UnifyResult) (ts' : TypeSet), unifyPairsTS f ts ps = .ok (r, ts') →
    ts'.nodes = ts.nodes ∧ ts'.max_vars = ts.max_vars ∧
    ts'.next_var = ts.next_var ∧ SubstExt ts.subst ts'.subst
  | f, ts, [], r, ts', h => by
    cases f <;>
      · simp only [unifyPairsTS, PRes.ok.injEq, Prod.mk.injEq] at h
        obtain ⟨rfl, rfl⟩ := h
        exact ⟨rfl, rfl, rfl, .refl _⟩
  | 0, ts, (a, b) :: rest, r, ts', h => by cases h
  | f + 1, ts, (a, b) :: rest, r, ts', h => by
    simp only [unifyPairsTS] at h
    obtain ⟨⟨r1, ts1⟩, h1, h⟩ := PRes.bind_eq_ok h
    obtain ⟨hn1, hm1, hv1, he1⟩ := unify_ext f ts a b r1 ts1 h1
    cases r1 with
    | ok u =>
      simp only at h
      obtain ⟨hn2, hm2, hv2, he2⟩ := unify_pairs_ext f ts1 rest r ts' h
      exact ⟨hn2.trans hn1, hm2.trans hm1, hv2.trans hv1, he1.trans he2⟩
    | error e =>
      simp only [PRes.ok.injEq, Prod.mk.injEq] at h
      obtain ⟨rfl, rfl⟩ := h
      exact ⟨hn1, hm1, hv1, he1⟩

end

end TypeSet

theorem PRes.bind_eq_panic {α β : Type} {x : PRes α} {f : α → PRes β}
    (h : x.bind f = .panic) : x = .panic ∨ ∃ a, x = .ok a ∧ f a = .panic := by
  cases x with
  | fuel => simp [PRes.bind] at h
  | panic => exact Or.inl rfl
  | ok a => exact Or.inr ⟨a, rfl, h⟩

namespace TypeSet

theorem canon_ok_lt : ∀ (f : Nat) (ts : TypeSet) (t c : TypeRef), Closed ts →
    t.raw < ts.nodes.length → canonF f ts t = .ok c → c.raw < ts.nodes.length
  | 0, _, _, _, _, _, h => by cases h
  | f + 1, ts, t, c, hcl, hlt, h => by
    obtain ⟨n, hn, hrest⟩ := PRes.bind_eq_ok h
    cases n with
    | var i =>
      cases hv : ts.get_var (i + t.shift) with
      | some b =>
        simp only [hv] at hrest
        have hb : b.raw < ts.nodes.length := hcl.2 _ (lookupSubst_mem hv)
        exact canon_ok_lt f ts b c hcl hb hrest
      | none =>
        simp only [hv] at hrest
        cases hrest
        exact hlt
    | term s args =>
      cases hrest
      exact hlt

theorem canon_no_panic : ∀ (f : Nat) (ts : TypeSet) (t : TypeRef), Closed ts →
    t.raw < ts.nodes.length → canonF f ts t ≠ .panic
  | 0, _, _, _, _ => by intro h; cases h
  | f + 1, ts, t, hcl, hlt => by
    intro h
    obtain ⟨n, hn, _⟩ := node?_ok hlt
    rcases PRes.bind_eq_panic h with hp | ⟨n2, hn2, hrest⟩
    · rw [hn] at hp; cases hp
    · rw [hn] at hn2
      cases hn2
      cases n with
      | var i =>
        cases hv : ts.get_var (i + t.shift) with
        | some b =>
          simp only [hv] at hrest
          have hb : b.raw < ts.nodes.length := hcl.2 _ (lookupSubst_mem hv)
          exact canon_no_panic f ts b hcl hb hrest
        | none => simp only [hv] at hrest; cases hrest
      | term s args => cases hrest

/-- Argument references of a stored term node are in bounds. -/
theorem term_args_lt {ts : TypeSet} {r : RawTypeRef} {x : String}
    {args : List RawTypeRef} (hcl : Closed ts) (h : ts.node? r = .ok (.term x args)) :
    ∀ a ∈ args, a < ts.nodes.length := by
  obtain ⟨_, hmem⟩ := node?_mem h
  exact hcl.1 _ hmem

mutual

theorem occurs_no_panic : ∀ (f : Nat) (ts : TypeSet) (i : Nat) (t : TypeRef),
    Closed ts → t.raw < ts.nodes.length → occursF f ts i t ≠ .panic
  | 0, _, _, _, _, _ => by intro h; cases h
  | f + 1, ts, i, t, hcl, hlt => by
    intro h
    rcases PRes.bind_eq_panic h with hp | ⟨c, hc, hrest⟩
    · exact canon_no_panic f ts t hcl hlt hp
    · have hclt : c.raw < ts.nodes.length := canon_ok_lt f ts t c hcl hlt hc
      rcases PRes.bind_eq_panic hrest with hp | ⟨n, hn, hrest2⟩
      · obtain ⟨n, hn, _⟩ := node?_ok hclt
        rw [hn] at hp; cases hp
      · cases n with
        | var j => cases hrest2
        | term s args =>
          exact occurs_args_no_panic f ts i c.shift args hcl
            (term_args_lt hcl hn) hrest2

theorem occurs_args_no_panic : ∀ (f : Nat) (ts : TypeSet) (i shift : Nat)
    (args : List RawTypeRef), Closed ts → (∀ a ∈ args, a < ts.nodes.length) →
    occursArgs f ts i shift args ≠ .panic
  | 0, _, _, _, [], _, _ => by intro h; cases h
  | _ + 1, _, _, _, [], _, _ => by intro h; cases h
  | 0, _, _, _, _ :: _, _, _ => by intro h; cases h
  | f + 1, ts, i, shift, a :: rest, hcl, hbound => by
    intro h
    rcases PRes.bind_eq_panic h with hp | ⟨b, hb, hrest⟩
    · exact occurs_no_panic f ts i (a.shift shift) hcl
        (hbound a (List.mem_cons_self a rest)) hp
    · cases b with
      | true => cases hrest
      | false =>
        rw [if_neg Bool.false_ne_true] at hrest
        exact occurs_args_no_panic f ts i shift rest hcl
          (fun x hx => hbound x (List.mem_cons_of_mem a hx)) hrest

end

/-- Substitution extension by in-bounds references preserves closedness when
the nodes are unchanged. -/
theorem closed_of_ext {ts ts' : TypeSet} (hcl : Closed ts)
    (hn : ts'.nodes = ts.nodes)
    (hvals : ∀ p ∈ ts'.subst, p ∈ ts.subst ∨ (p : Nat × TypeRef).2.raw < ts.nodes.length) :
    Closed ts' := by
  constructor
  · rw [hn]; exact hcl.1
  · intro p hp
    rw [hn]
    rcases hvals p hp with hin | hlt
    · exact hcl.2 p hin
    · exact hlt

theorem goodOut_fuel : GoodOut .fuel := by
  refine ⟨?_, ?_⟩
  · intro h
    cases h
  · intro r ts' h
    cases h

theorem goodOut_ok {r : UnifyResult} {ts' : TypeSet} (h : Closed ts') :
    GoodOut (.ok (r, ts')) := by
  refine ⟨?_, ?_⟩
  · intro h2
    cases h2
  · intro r2 ts2 heq
    cases heq
    exact h

theorem closed_set_var {ts : TypeSet} {v : Nat} {t : TypeRef} (hcl : Closed ts)
    (hlt : t.raw < ts.nodes.length) : Closed (ts.set_var v t) := by
  refine ⟨hcl.1, ?_⟩
  intro p hp
  rcases List.mem_append.mp hp with hold | hnew
  · exact hcl.2 p hold
  · rcases List.mem_singleton.mp hnew with rfl
    exact hlt

mutual

/-- `TypeSet::unify` on a closed arena with in-bounds arguments never
panics: in particular the `assert!(self.get_var(i_shifted).is_none())`
before each binding always holds, because canonicalization only ever
returns an unbound variable.  Any returned state is again closed. -/
theorem unify_no_panic : ∀ (f : Nat) (ts : TypeSet) (t1 t2 : TypeRef),
    Closed ts → t1.raw < ts.nodes.length → t2.raw < ts.nodes.length →
    GoodOut (unifyF f ts t1 t2)
  | 0, _, _, _, _, _, _ => goodOut_fuel
  | f + 1, ts, t1, t2, hcl, hlt1, hlt2 => by
    cases h1 : canonF f ts t1 with
    | fuel => simp only [unifyF, h1, PRes.bind_fuel]; exact goodOut_fuel
    | panic => exact absurd h1 (canon_no_panic f ts t1 hcl hlt1)
    | ok c1 =>
    cases h2 : canonF f ts t2 with
    | fuel => simp only [unifyF, h1, h2, PRes.bind_ok, PRes.bind_fuel]; exact goodOut_fuel
    | panic => exact absurd h2 (canon_no_panic f ts t2 hcl hlt2)
    | ok c2 =>
    have hc1lt := canon_ok_lt f ts t1 c1 hcl hlt1 h1
    have hc2lt := canon_ok_lt f ts t2 c2 hcl hlt2 h2
    obtain ⟨n1, hn1, hmem1⟩ := node?_ok hc1lt
    obtain ⟨n2, hn2, hmem2⟩ := node?_ok hc2lt
    simp only [unifyF, h1, h2, hn1, hn2, PRes.bind_ok]
    cases n1 with
    | var i =>
      have hunb : ts.get_var (i + c1.shift) = none :=
        canon_var_unbound f ts t1 c1 i h1 hn1
      have hvararm : ∀ (hsame : Bool),
          GoodOut (if hsame then (.ok (.ok (), ts) : PRes (UnifyResult × TypeSet))
            else
              (occursF f ts (i + c1.shift) c2).bind fun occ =>
                if occ then .ok (.error .occurs, ts)
                else
                  match ts.get_var (i + c1.shift) with
                  | some _ => .panic
                  | none => .ok (.ok (), ts.set_var (i + c1.shift) c2)) := by
        intro hsame
        cases hsame with
        | true => rw [if_pos rfl]; exact goodOut_ok hcl
        | false =>
          rw [if_neg Bool.false_ne_true]
          cases hocc : occursF f ts (i + c1.shift) c2 with
          | fuel => simp only [hocc, PRes.bind_fuel]; exact goodOut_fuel
          | panic => exact absurd hocc (occurs_no_panic f ts _ c2 hcl hc2lt)
          | ok b =>
            simp only [hocc, PRes.bind_ok]
            cases b with
            | true => rw [if_pos rfl]; exact goodOut_ok hcl
            | false =>
              rw [if_neg Bool.false_ne_true, hunb]
              exact goodOut_ok (closed_set_var hcl hc2lt)
      cases n2 with
      | var j => exact hvararm _
      | term y ys => exact hvararm _
    | term x xs =>
      cases n2 with
      | var i =>
        have hunb : ts.get_var (i + c2.shift) = none :=
          canon_var_unbound f ts t2 c2 i h2 hn2
        show GoodOut
          ((occursF f ts (i + c2.shift) c1).bind fun occ =>
            if occ then .ok (.error .occurs, ts)
            else
              match ts.get_var (i + c2.shift) with
              | some _ => .panic
              | none => .ok (.ok (), ts.set_var (i + c2.shift) c1))
        cases hocc : occursF f ts (i + c2.shift) c1 with
        | fuel => simp only [hocc, PRes.bind_fuel]; exact goodOut_fuel
        | panic => exact absurd hocc (occurs_no_panic f ts _ c1 hcl hc1lt)
        | ok b =>
          simp only [hocc, PRes.bind_ok]
          cases b with
          | true => rw [if_pos rfl]; exact goodOut_ok hcl
          | false =>
            rw [if_neg Bool.false_ne_true, hunb]
            exact goodOut_ok (closed_set_var hcl hc1lt)
      | term y ys =>
        show GoodOut
          (if x ≠ y ∨ xs.length ≠ ys.length then
            (.ok (.error .production, ts) : PRes (UnifyResult × TypeSet))
          else
            unifyPairsTS f ts
              ((xs.map (fun rr => rr.shift c1.shift)).zip
                (ys.map (fun rr => rr.shift c2.shift))))
        by_cases hxy : x ≠ y ∨ xs.length ≠ ys.length
        · rw [if_pos hxy]; exact goodOut_ok hcl
        · rw [if_neg hxy]
          refine unify_pairs_no_panic f ts _ hcl ?_
          intro p hp
          obtain ⟨pa, pb⟩ := p
          obtain ⟨hp1, hp2⟩ := List.of_mem_zip hp
          obtain ⟨a, ha, rfl⟩ := List.mem_map.mp hp1
          obtain ⟨b, hb, rfl⟩ := List.mem_map.mp hp2
          exact ⟨term_args_lt hcl hn1 a ha, term_args_lt hcl hn2 b hb⟩

theorem unify_pairs_no_panic : ∀ (f : Nat) (ts : TypeSet)
    (ps : List (TypeRef × TypeRef)), Closed ts →
    (∀ p ∈ ps, (p : TypeRef × TypeRef).1.raw < ts.nodes.length ∧
      (p : TypeRef × TypeRef).2.raw < ts.nodes.length) →
    GoodOut (unifyPairsTS f ts ps)
  | 0, ts, [], hcl, _ => goodOut_ok hcl
  | f + 1, ts, [], hcl, _ => goodOut_ok hcl
  | 0, _, _ :: _, _, _ => goodOut_fuel
  | f + 1, ts, (a, b) :: rest, hcl, hbound => by
    have hab := hbound (a, b) (List.mem_cons_self _ _)
    cases h1 : unifyF f ts a b with
    | fuel => simp only [unifyPairsTS, h1, PRes.bind_fuel]; exact goodOut_fuel
    | panic => exact absurd h1 (unify_no_panic f ts a b hcl hab.1 hab.2).1
    | ok p =>
      obtain ⟨r1, ts1⟩ := p
      have hcl1 : Closed ts1 := (unify_no_panic f ts a b hcl hab.1 hab.2).2 r1 ts1 h1
      have hnodes1 : ts1.nodes = ts.nodes := (unify_ext f ts a b r1 ts1 h1).1
      simp only [unifyPairsTS, h1, PRes.bind_ok]
      cases r1 with
      | ok u =>
        refine unify_pairs_no_panic f ts1 rest hcl1 ?_
        intro p hp
        rw [hnodes1]
        exact hbound p (List.mem_cons_of_mem _ hp)
      | error e => exact goodOut_ok hcl1

end

end TypeSet

/-- C10: on a closed arena, `TypeSet::unify` never panics — in particular
the assertion `assert!(self.get_var(i_shifted).is_none())` before each
binding never fails, because both sides are canonicalized first and
canonicalization never returns a bound variable.  Consequently every
returned substitution extends the old one, and when the initial log binds
each variable at most once, so does the final log. -/
theorem c10_unify_assert_never_fails : ∀ (f : Nat) (ts : TypeSet) (t1 t2 : TypeRef),
    TypeSet.Closed ts → t1.raw < ts.nodes.length → t2.raw < ts.nodes.length →
    TypeSet.unifyF f ts t1 t2 ≠ .panic ∧
    (∀ r ts', TypeSet.unifyF f ts t1 t2 = .ok (r, ts') →
      (∃ d, ts'.subst = ts.subst ++ d) ∧
      ((ts.subst.map Prod.fst).Nodup → (ts'.subst.map Prod.fst).Nodup)) := by
  intro f ts t1 t2 hcl hlt1 hlt2
  refine ⟨(TypeSet.unify_no_panic f ts t1 t2 hcl hlt1 hlt2).1, ?_⟩
  intro r ts' h
  have hext := (TypeSet.unify_ext f ts t1 t2 r ts' h).2.2.2
  exact ⟨hext.append, hext.nodup⟩

/-- Witness for C10 at a concrete closed arena: unifying the variable `t0`
with `int` binds `t0` once. -/
theorem c10_unify_assert_never_fails_witness :
    TypeSet.unifyF 10
        { nodes := [.var 0, .term "int" []], max_vars := [some 0, none],
          subst := [], next_var := 1 } ⟨0, 0⟩ ⟨1, 0⟩ ≠ .panic ∧
    (∃ d, ([(0, (⟨1, 0⟩ : TypeRef))] : List (Nat × TypeRef)) = [] ++ d) ∧
    ((([] : List (Nat × TypeRef)).map Prod.fst).Nodup →
      (([(0, (⟨1, 0⟩ : TypeRef))] : List (Nat × TypeRef)).map Prod.fst).Nodup) := by
  obtain ⟨hnp, hok⟩ := c10_unify_assert_never_fails 10
    { nodes := [.var 0, .term "int" []], max_vars := [some 0, none],
      subst := [], next_var := 1 } ⟨0, 0⟩ ⟨1, 0⟩ (by decide) (by decide) (by decide)
  have h2 := hok (.ok ())
    { nodes := [.var 0, .term "int" []], max_vars := [some 0, none],
      subst := [(0, ⟨1, 0⟩)], next_var := 1 } (by decide)
  exact ⟨hnp, h2.1, h2.2⟩

/-! ## C3: unifying a variable with itself / the occurs check -/

theorem mem_zip_same {α : Type} : ∀ {l : List α} {p : α × α}, p ∈ l.zip l → p.1 = p.2 := by
  intro l
  induction l with
  | nil => intro p h; cases h
  | cons a rest ih =>
    intro p h
    rcases List.mem_cons.mp h with rfl | h
    · rfl
    · exact ih h

namespace Context

mutual

/-- `Context::unify` on two equal types succeeds without touching the
context. -/
theorem unify_self : ∀ (f : Nat) (c : Context) (t : Ty) (out : UnifyResult × Context),
    unifyF f c t t = .ok out → out = (.ok (), c)
  | 0, _, _, _, h => by cases h
  | f + 1, c, t, out, h => by
    obtain ⟨t1, ha1, h⟩ := PRes.bind_eq_ok h
    obtain ⟨t2, ha2, h⟩ := PRes.bind_eq_ok h
    obtain rfl : t1 = t2 := by
      rw [ha1] at ha2
      exact (PRes.ok.injEq _ _).mp ha2
    by_cases hcc : t1.is_concrete = true ∧ t1.is_concrete = true
    · rw [if_pos hcc, if_pos rfl] at h
      cases h
      rfl
    · rw [if_neg hcc] at h
      cases t1 with
      | var i =>
        have h' : unifyVar c i (.var i) = .ok out := h
        unfold unifyVar at h'
        rw [if_pos rfl] at h'
        cases h'
        rfl
      | term x xs =>
        have h' : (if x ≠ x ∨ xs.length ≠ xs.length then
              (.ok (.error .production, c) : PRes (UnifyResult × Context))
            else unifyPairs f c (xs.zip xs)) = .ok out := h
        rw [if_neg (by simp)] at h'
        exact unify_pairs_self f c (xs.zip xs) out (fun p hp => mem_zip_same hp) h'

theorem unify_pairs_self : ∀ (f : Nat) (c : Context) (ps : List (Ty × Ty))
    (out : UnifyResult × Context), (∀ p ∈ ps, (p : Ty × Ty).1 = p.2) →
    unifyPairs f c ps = .ok out → out = (.ok (), c)
  | 0, c, [], out, _, h => by
    cases h
    rfl
  | f + 1, c, [], out, _, h => by
    cases h
    rfl
  | 0, _, _ :: _, _, _, h => by cases h
  | f + 1, c, (a, b) :: rest, out, heq, h => by
    obtain rfl : a = b := heq (a, b) (List.mem_cons_self _ _)
    obtain ⟨p1, h1, h2⟩ := PRes.bind_eq_ok h
    obtain ⟨r1, c1⟩ := p1
    have hself := unify_self f c a (r1, c1) h1
    rw [Prod.mk.injEq] at hself
    obtain ⟨rfl, rfl⟩ := hself
    exact unify_pairs_self f _ rest out (fun p hp => heq p (List.mem_cons_of_mem _ hp)) h2

end

/-- Applying an unbound variable is the identity. -/
theorem apply_var_unbound : ∀ (f : Nat) (c : Context) (i : Nat) (t : Ty),
    c.get i = .ok none → applyF f c (.var i) = .ok t → t = .var i
  | 0, _, _, _, _, h => by cases h
  | f + 1, c, i, t, hget, h => by
    rw [show applyF (f + 1) c (.var i) =
        ((c.get i).bind fun o =>
          match o with
          | some tp => applyF f c tp
          | none => .ok (.var i)) from rfl, hget] at h
    simp only [PRes.bind_ok] at h
    cases h
    rfl

/-- Applying a concrete type is the identity. -/
theorem apply_concrete : ∀ (f : Nat) (c : Context) (t u : Ty),
    t.is_concrete = true → applyF f c t = .ok u → u = t
  | 0, _, _, _, _, h => by cases h
  | f + 1, c, t, u, hconc, h => by
    unfold applyF at h
    rw [if_pos hconc] at h
    cases h
    rfl

/-- C3 (Context, amended occurs part): in any state where variable 0 is
unbound, `unify(t0, t0 -> int)` can only return `Err(Occurs)`, leaving the
context unchanged. -/
theorem unify_t0_arrow_occurs : ∀ (f : Nat) (c : Context) (out : UnifyResult × Context),
    c.get 0 = .ok none →
    unifyF f c (.var 0) (Ty.arrow (.var 0) (Ty.base "int")) = .ok out →
    out = (.error .occurs, c)
  | 0, _, _, _, h => by cases h
  | f + 1, c, out, hget, h => by
    obtain ⟨t1, ha1, h⟩ := PRes.bind_eq_ok h
    obtain ⟨t2, ha2, h⟩ := PRes.bind_eq_ok h
    obtain rfl : t1 = .var 0 := apply_var_unbound f c 0 t1 hget ha1
    have ht2 : t2 = Ty.arrow (.var 0) (Ty.base "int") := by
      cases f with
      | zero => cases ha2
      | succ f =>
        unfold applyF at ha2
        rw [if_neg (by decide)] at ha2
        have ha2' : ((mapPRes (applyF f c) [.var 0, Ty.base "int"]).map
            (Ty.term ARROW_SYM) : PRes Ty) = .ok t2 := ha2
        obtain ⟨args, hargs, ht2⟩ := PRes.map_eq_ok ha2'
        obtain ⟨e1, he1, hrest⟩ := PRes.bind_eq_ok hargs
        obtain ⟨erest, herest, hcons⟩ := PRes.map_eq_ok hrest
        obtain ⟨e2, he2, hrest2⟩ := PRes.bind_eq_ok herest
        obtain ⟨erest2, herest2, hcons2⟩ := PRes.map_eq_ok hrest2
        obtain rfl : e1 = .var 0 := apply_var_unbound f c 0 e1 hget he1
        obtain rfl : e2 = Ty.base "int" := apply_concrete f c _ e2 (by decide) he2
        cases herest2
        subst hcons2 hcons ht2
        rfl
    subst ht2
    rw [if_neg (by decide)] at h
    have h' : unifyVar c 0 (Ty.arrow (.var 0) (Ty.base "int")) = .ok out := h
    unfold unifyVar at h'
    rw [if_neg (by decide), if_pos (by decide)] at h'
    cases h'
    rfl

end Context

namespace TypeSet

theorem canon_var_self : ∀ (f : Nat) (ts : TypeSet) (t c : TypeRef) (j : Nat),
    ts.node? t.raw = .ok (.var j) → ts.get_var (j + t.shift) = none →
    canonF f ts t = .ok c → c = t
  | 0, _, _, _, _, _, _, h => by cases h
  | f + 1, ts, t, c, j, hn, hv, h => by
    simp only [canonF, hn, PRes.bind_ok, hv] at h
    cases h
    rfl

theorem canon_term_self : ∀ (f : Nat) (ts : TypeSet) (t c : TypeRef) (x : String)
    (args : List RawTypeRef), ts.node? t.raw = .ok (.term x args) →
    canonF f ts t = .ok c → c = t
  | 0, _, _, _, _, _, _, h => by cases h
  | f + 1, ts, t, c, x, args, hn, h => by
    simp only [canonF, hn, PRes.bind_ok] at h
    cases h
    rfl

/-- The body of `unify` depends on the inputs only through their canonical
forms. -/
theorem unify_congr_canon (f : Nat) (ts : TypeSet) (t1 t2 u1 u2 c1 c2 : TypeRef)
    (h1 : canonF f ts t1 = .ok c1) (h2 : canonF f ts t2 = .ok c2)
    (h3 : canonF f ts u1 = .ok c1) (h4 : canonF f ts u2 = .ok c2) :
    unifyF (f + 1) ts t1 t2 = unifyF (f + 1) ts u1 u2 := by
  simp only [unifyF, h1, h2, h3, h4]

mutual

/-- `TypeSet::unify` on two identical references succeeds without touching
the state. -/
theorem unify_self_ts : ∀ (f : Nat) (ts : TypeSet) (t : TypeRef)
    (out : UnifyResult × TypeSet), unifyF f ts t t = .ok out → out = (.ok (), ts)
  | 0, _, _, _, h => by cases h
  | f + 1, ts, t, out, h => by
    obtain ⟨c1, hc1, h⟩ := PRes.bind_eq_ok h
    obtain ⟨c2, hc2, h⟩ := PRes.bind_eq_ok h
    obtain rfl : c1 = c2 := by
      rw [hc1] at hc2
      exact (PRes.ok.injEq _ _).mp hc2
    obtain ⟨n1, hn1, h⟩ := PRes.bind_eq_ok h
    obtain ⟨n2, hn2, h⟩ := PRes.bind_eq_ok h
    obtain rfl : n1 = n2 := by
      rw [hn1] at hn2
      exact (PRes.ok.injEq _ _).mp hn2
    cases n1 with
    | var i =>
      have h' : (if (i + c1.shift == i + c1.shift) then
            (.ok (.ok (), ts) : PRes (UnifyResult × TypeSet))
          else
            (occursF f ts (i + c1.shift) c1).bind fun occ =>
              if occ then .ok (.error .occurs, ts)
              else
                match ts.get_var (i + c1.shift) with
                | some _ => .panic
                | none => .ok (.ok (), ts.set_var (i + c1.shift) c1)) = .ok out := h
      rw [if_pos (by simp)] at h'
      cases h'
      rfl
    | term x xs =>
      have h' : (if x ≠ x ∨ xs.length ≠ xs.length then
            (.ok (.error .production, ts) : PRes (UnifyResult × TypeSet))
          else
            unifyPairsTS f ts
              ((xs.map (fun rr => rr.shift c1.shift)).zip
                (xs.map (fun rr => rr.shift c1.shift)))) = .ok out := h
      rw [if_neg (by simp)] at h'
      exact unify_pairs_self_ts f ts _ out (fun p hp => mem_zip_same hp) h'

theorem unify_pairs_self_ts : ∀ (f : Nat) (ts : TypeSet) (ps : List (TypeRef × TypeRef))
    (out : UnifyResult × TypeSet), (∀ p ∈ ps, (p : TypeRef × TypeRef).1 = p.2) →
    unifyPairsTS f ts ps = .ok out → out = (.ok (), ts)
  | 0, ts, [], out, _, h => by
    cases h
    rfl
  | f + 1, ts, [], out, _, h => by
    cases h
    rfl
  | 0, _, _ :: _, _, _, h => by cases h
  | f + 1, ts, (a, b) :: rest, out, heq, h => by
    obtain rfl : a = b := heq (a, b) (List.mem_cons_self _ _)
    obtain ⟨p1, h1, h2⟩ := PRes.bind_eq_ok h
    obtain ⟨r1, ts1⟩ := p1
    have hself := unify_self_ts f ts a (r1, ts1) h1
    rw [Prod.mk.injEq] at hself
    obtain ⟨rfl, rfl⟩ := hself
    exact unify_pairs_self_ts f _ rest out (fun p hp => heq p (List.mem_cons_of_mem _ hp)) h2

end

/-- C3 (TypeSet, same-variable part): unifying two references that denote
the same logical variable returns `Ok` and appends no binding. -/
theorem unify_same_var_ts : ∀ (f : Nat) (ts : TypeSet) (r1 r2 : TypeRef)
    (j1 j2 i : Nat) (out : UnifyResult × TypeSet),
    ts.node? r1.raw = .ok (.var j1) → j1 + r1.shift = i →
    ts.node? r2.raw = .ok (.var j2) → j2 + r2.shift = i →
    unifyF f ts r1 r2 = .ok out → out = (.ok (), ts)
  | 0, _, _, _, _, _, _, _, _, _, _, _, h => by cases h
  | f + 1, ts, r1, r2, j1, j2, i, out, hn1, hi1, hn2, hi2, h => by
    cases hv : ts.get_var i with
    | none =>
      obtain ⟨c1, hc1, h⟩ := PRes.bind_eq_ok h
      obtain ⟨c2, hc2, h⟩ := PRes.bind_eq_ok h
      obtain ⟨n1, hn1b, h⟩ := PRes.bind_eq_ok h
      obtain ⟨n2, hn2b, h⟩ := PRes.bind_eq_ok h
      have e1 : c1 = r1 := canon_var_self f ts r1 c1 j1 hn1 (by rw [hi1]; exact hv) hc1
      have e2 : c2 = r2 := canon_var_self f ts r2 c2 j2 hn2 (by rw [hi2]; exact hv) hc2
      rw [e1] at hn1b h
      rw [e2] at hn2b h
      have en1 : n1 = TNode.var j1 := by
        rw [hn1] at hn1b
        exact ((PRes.ok.injEq _ _).mp hn1b).symm
      have en2 : n2 = TNode.var j2 := by
        rw [hn2] at hn2b
        exact ((PRes.ok.injEq _ _).mp hn2b).symm
      rw [en1, en2] at h
      have h' : (if (j1 + r1.shift == j2 + r2.shift) then
            (.ok (.ok (), ts) : PRes (UnifyResult × TypeSet))
          else
            (occursF f ts (j1 + r1.shift) r2).bind fun occ =>
              if occ then .ok (.error .occurs, ts)
              else
                match ts.get_var (j1 + r1.shift) with
                | some _ => .panic
                | none => .ok (.ok (), ts.set_var (j1 + r1.shift) r2)) = .ok out := h
      rw [if_pos (by rw [hi1, hi2]; simp)] at h'
      cases h'
      rfl
    | some b =>
      cases f with
      | zero =>
        have hf : unifyF (0 + 1) ts r1 r2 = .fuel := rfl
        rw [hf] at h
        cases h
      | succ g =>
        have hc1 : canonF (g + 1) ts r1 = canonF g ts b := by
          simp only [canonF, hn1, PRes.bind_ok, hi1, hv]
        have hc2 : canonF (g + 1) ts r2 = canonF g ts b := by
          simp only [canonF, hn2, PRes.bind_ok, hi2, hv]
        cases hcb : canonF g ts b with
        | fuel =>
          rw [show unifyF (g + 1 + 1) ts r1 r2 =
              (canonF (g + 1) ts r1).bind (fun c1 =>
                (canonF (g + 1) ts r2).bind fun c2 =>
                  (ts.node? c1.raw).bind fun n1 =>
                    (ts.node? c2.raw).bind fun n2 =>
                      (match n1, n2 with
                      | .var i, _ =>
                        let i_shifted := i + c1.shift
                        let same_var : Bool :=
                          match n2 with
                          | .var j => i_shifted == j + c2.shift
                          | .term _ _ => false
                        if same_var then
                          .ok (.ok (), ts)
                        else
                          (occursF (g + 1) ts i_shifted c2).bind fun occ =>
                            if occ then .ok (.error .occurs, ts)
                            else
                              match ts.get_var i_shifted with
                              | some _ => .panic
                              | none => .ok (.ok (), ts.set_var i_shifted c2)
                      | _, .var i =>
                        let i_shifted := i + c2.shift
                        (occursF (g + 1) ts i_shifted c1).bind fun occ =>
                          if occ then .ok (.error .occurs, ts)
                          else
                            match ts.get_var i_shifted with
                            | some _ => .panic
                            | none => .ok (.ok (), ts.set_var i_shifted c1)
                      | .term x xs, .term y ys =>
                        if x ≠ y ∨ xs.length ≠ ys.length then .ok (.error .production, ts)
                        else
                          unifyPairsTS (g + 1) ts
                            ((xs.map (fun r => r.shift c1.shift)).zip
                              (ys.map (fun r => r.shift c2.shift))))) from rfl] at h
          rw [hc1, hcb] at h
          cases h
        | panic =>
          obtain ⟨c1, hc1b, _⟩ := PRes.bind_eq_ok h
          rw [hc1, hcb] at hc1b
          cases hc1b
        | ok cb =>
          have hcc : canonF (g + 1) ts cb = .ok cb :=
            canon_mono g ts cb cb (canon_idem g ts b cb hcb)
          have := unify_congr_canon (g + 1) ts r1 r2 cb cb cb cb
            (hc1.trans hcb) (hc2.trans hcb) hcc hcc
          rw [this] at h
          exact unify_self_ts (g + 1 + 1) ts cb out h

theorem occurs_var_here : ∀ (f : Nat) (ts : TypeSet) (i : Nat) (t : TypeRef)
    (b : Bool) (j : Nat), ts.node? t.raw = .ok (.var j) →
    ts.get_var (j + t.shift) = none → occursF f ts i t = .ok b →
    b = decide (i = j + t.shift)
  | 0, _, _, _, _, _, _, _, h => by cases h
  | f + 1, ts, i, t, b, j, hn, hv, h => by
    obtain ⟨c, hc, h⟩ := PRes.bind_eq_ok h
    have e : c = t := canon_var_self f ts t c j hn hv hc
    rw [e] at h
    obtain ⟨n, hn2, h⟩ := PRes.bind_eq_ok h
    have en : n = TNode.var j := by
      rw [hn] at hn2
      exact ((PRes.ok.injEq _ _).mp hn2).symm
    rw [en] at h
    cases h
    rfl

theorem occurs_t0_arrow_ts : ∀ (f : Nat) (ts : TypeSet) (r2 : TypeRef)
    (ra ri : RawTypeRef) (ja : Nat) (b : Bool),
    ts.get_var 0 = none →
    ts.node? r2.raw = .ok (.term ARROW_SYM [ra, ri]) →
    ts.node? ra = .ok (.var ja) → ja + r2.shift = 0 →
    occursF f ts 0 r2 = .ok b → b = true
  | 0, _, _, _, _, _, _, _, _, _, _, h => by cases h
  | f + 1, ts, r2, ra, ri, ja, b, hv, hn2, hna, hja, h => by
    obtain ⟨c, hc, h⟩ := PRes.bind_eq_ok h
    have e : c = r2 := canon_term_self f ts r2 c _ _ hn2 hc
    rw [e] at h
    obtain ⟨n, hn', h⟩ := PRes.bind_eq_ok h
    have en : n = TNode.term ARROW_SYM [ra, ri] := by
      rw [hn2] at hn'
      exact ((PRes.ok.injEq _ _).mp hn').symm
    rw [en] at h
    have h' : occursArgs f ts 0 r2.shift [ra, ri] = .ok b := h
    cases f with
    | zero =>
      have hfz : occursArgs 0 ts 0 r2.shift [ra, ri] = .fuel := rfl
      rw [hfz] at h'
      cases h'
    | succ g =>
      obtain ⟨b1, hb1, h'⟩ := PRes.bind_eq_ok h'
      have eb1 : b1 = decide (0 = ja + (RawTypeRef.shift ra r2.shift).shift) :=
        occurs_var_here g ts 0 (RawTypeRef.shift ra r2.shift) b1 ja hna
          (by show ts.get_var (ja + r2.shift) = none; rw [hja]; exact hv) hb1
    
      have eb1' : b1 = true := by
        rw [eb1]
        simp [RawTypeRef.shift, hja.symm]
      rw [eb1'] at h'
      rw [if_pos rfl] at h'
      exact ((PRes.ok.injEq _ _).mp h').symm

/-- C3 (TypeSet, amended occurs part): when logical variable 0 is unbound,
unifying a reference denoting `t0` with a reference denoting `t0 -> int`
returns `Err(Occurs)` with the state unchanged. -/
theorem unify_t0_arrow_occurs_ts : ∀ (f : Nat) (ts : TypeSet) (r1 r2 : TypeRef)
    (j1 ja : Nat) (ra ri : RawTypeRef) (out : UnifyResult × TypeSet),
    ts.get_var 0 = none →
    ts.node? r1.raw = .ok (.var j1) → j1 + r1.shift = 0 →
    ts.node? r2.raw = .ok (.term ARROW_SYM [ra, ri]) →
    ts.node? ra = .ok (.var ja) → ja + r2.shift = 0 →
    unifyF f ts r1 r2 = .ok out → out = (.error .occurs, ts)
  | 0, _, _, _, _, _, _, _, _, _, _, _, _, _, _, h => by cases h
  | f + 1, ts, r1, r2, j1, ja, ra, ri, out, hv, hn1, hi1, hn2, hna, hja, h => by
    obtain ⟨c1, hc1, h⟩ := PRes.bind_eq_ok h
    obtain ⟨c2, hc2, h⟩ := PRes.bind_eq_ok h
    obtain ⟨n1, hn1b, h⟩ := PRes.bind_eq_ok h
    obtain ⟨n2, hn2b, h⟩ := PRes.bind_eq_ok h
    have e1 : c1 = r1 := canon_var_self f ts r1 c1 j1 hn1 (by rw [hi1]; exact hv) hc1
    have e2 : c2 = r2 := canon_term_self f ts r2 c2 _ _ hn2 hc2
    rw [e1] at hn1b h
    rw [e2] at hn2b h
    have en1 : n1 = TNode.var j1 := by
      rw [hn1] at hn1b
      exact ((PRes.ok.injEq _ _).mp hn1b).symm
    have en2 : n2 = TNode.term ARROW_SYM [ra, ri] := by
      rw [hn2] at hn2b
      exact ((PRes.ok.injEq _ _).mp hn2b).symm
    rw [en1, en2] at h
    have h' : ((occursF f ts (j1 + r1.shift) r2).bind fun occ =>
        if occ then (.ok (.error .occurs, ts) : PRes (UnifyResult × TypeSet))
        else
          match ts.get_var (j1 + r1.shift) with
          | some _ => .panic
          | none => .ok (.ok (), ts.set_var (j1 + r1.shift) r2)) = .ok out := h
    rw [hi1] at h'
    obtain ⟨occ, hocc, h'⟩ := PRes.bind_eq_ok h'
    have eo : occ = true := occurs_t0_arrow_ts f ts r2 ra ri ja occ hv hn2 hna hja hocc
    rw [eo] at h'
    rw [if_pos rfl] at h'
    exact ((PRes.ok.injEq _ _).mp h').symm

end TypeSet

/-- C3 counterexample: the claim quantifies over *every* context state, but
in a state where `t0` is already bound to `int`, `Context::unify(t0,
t0 -> int)` returns `Err(ConcreteSubtree)`, not `Err(Occurs)` (both sides
apply to ground, unequal types). -/
theorem c3_occurs_needs_unbound_counterexample :
    Context.unifyF 10
        { subst_unionfind := [], subst_append_only := [(0, Ty.base "int")],
          next_var := 1, append_only := true }
        (.var 0) (Ty.arrow (.var 0) (Ty.base "int")) =
      .ok (.error .concreteSubtree,
        { subst_unionfind := [], subst_append_only := [(0, Ty.base "int")],
          next_var := 1, append_only := true }) ∧
    UnifyErr.concreteSubtree ≠ UnifyErr.occurs := by
  refine ⟨by decide, by decide⟩

/-- C3 (amended): unifying two references denoting the same logical
variable is a no-op success in every state, for both engines; and
`unify(t0, t0 -> int)` returns `Err(Occurs)` (state unchanged) in every
state where variable 0 is *unbound* — with `t0` bound the result can be a
different error (see the counterexample). -/
theorem c3_unify_same_var_and_occurs :
    (∀ (f : Nat) (c : Context) (i : Nat) (out : UnifyResult × Context),
      Context.unifyF f c (.var i) (.var i) = .ok out → out = (.ok (), c)) ∧
    (∀ (f : Nat) (ts : TypeSet) (r1 r2 : TypeRef) (j1 j2 i : Nat)
      (out : UnifyResult × TypeSet),
      ts.node? r1.raw = .ok (.var j1) → j1 + r1.shift = i →
      ts.node? r2.raw = .ok (.var j2) → j2 + r2.shift = i →
      TypeSet.unifyF f ts r1 r2 = .ok out → out = (.ok (), ts)) ∧
    (∀ (f : Nat) (c : Context) (out : UnifyResult × Context),
      c.get 0 = .ok none →
      Context.unifyF f c (.var 0) (Ty.arrow (.var 0) (Ty.base "int")) = .ok out →
      out = (.error .occurs, c)) ∧
    (∀ (f : Nat) (ts : TypeSet) (r1 r2 : TypeRef) (j1 ja : Nat)
      (ra ri : RawTypeRef) (out : UnifyResult × TypeSet),
      ts.get_var 0 = none →
      ts.node? r1.raw = .ok (.var j1) → j1 + r1.shift = 0 →
      ts.node? r2.raw = .ok (.term ARROW_SYM [ra, ri]) →
      ts.node? ra = .ok (.var ja) → ja + r2.shift = 0 →
      TypeSet.unifyF f ts r1 r2 = .ok out → out = (.error .occurs, ts)) :=
  ⟨fun f c _i out h => Context.unify_self f c _ out h,
   TypeSet.unify_same_var_ts,
   Context.unify_t0_arrow_occurs,
   TypeSet.unify_t0_arrow_occurs_ts⟩

/-- Witness for C3 at concrete states: `unify(t0, t0)` in the empty
context, two distinct references denoting logical variable 5, and
`unify(t0, t0 -> int)` in both engines. -/
theorem c3_unify_same_var_and_occurs_witness :
    ((Except.ok (), Context.empty) = ((.ok () : UnifyResult), Context.empty)) ∧
    (((.ok () : UnifyResult),
        ({ nodes := [.var 0, .var 1], max_vars := [some 0, some 1],
           subst := [], next_var := 6 } : TypeSet)) =
      ((.ok () : UnifyResult),
        ({ nodes := [.var 0, .var 1], max_vars := [some 0, some 1],
           subst := [], next_var := 6 } : TypeSet))) ∧
    (((.error .occurs : UnifyResult), Context.empty) =
      ((.error .occurs : UnifyResult), Context.empty)) ∧
    (((.error .occurs : UnifyResult),
        ({ nodes := [.var 0, .term "int" [], .term ARROW_SYM [0, 1]],
           max_vars := [some 0, none, some 0], subst := [], next_var := 1 } : TypeSet)) =
      ((.error .occurs : UnifyResult),
        ({ nodes := [.var 0, .term "int" [], .term ARROW_SYM [0, 1]],
           max_vars := [some 0, none, some 0], subst := [], next_var := 1 } : TypeSet))) := by
  refine ⟨?_, ?_, ?_, ?_⟩
  · exact c3_unify_same_var_and_occurs.1 5 Context.empty 0 (.ok (), Context.empty) (by decide)
  · exact c3_unify_same_var_and_occurs.2.1 10
      { nodes := [.var 0, .var 1], max_vars := [some 0, some 1],
        subst := [], next_var := 6 } ⟨0, 5⟩ ⟨1, 4⟩ 0 1 5 _ (by decide) (by decide)
      (by decide) (by decide) (by decide)
  · exact c3_unify_same_var_and_occurs.2.2.1 10 Context.empty _ (by decide) (by decide)
  · exact c3_unify_same_var_and_occurs.2.2.2 10
      { nodes := [.var 0, .term "int" [], .term ARROW_SYM [0, 1]],
        max_vars := [some 0, none, some 0], subst := [], next_var := 1 }
      ⟨0, 0⟩ ⟨2, 0⟩ 0 0 0 1 _ (by decide) (by decide) (by decide) (by decide)
      (by decide) (by decide) (by decide)

namespace Context

theorem might_unify_var_left (i : Nat) (b : Ty) :
    Context.might_unify (.var i) b = true := by
  cases b <;> rfl

theorem might_unify_var_right (a : Ty) (i : Nat) :
    Context.might_unify a (.var i) = true := by
  cases a <;> rfl

theorem might_unify_term_term (x y : String) (xs ys : List Ty) :
    Context.might_unify (.term x xs) (.term y ys) =
      (decide (x = y) && Context.might_unify_args xs ys) := rfl

theorem might_unify_false_shape : ∀ (a b : Ty), Context.might_unify a b = false →
    ∃ x xs y ys, a = .term x xs ∧ b = .term y ys
  | .var i, b, h => by rw [might_unify_var_left] at h; cases h
  | .term _ _, .var j, h => by rw [might_unify_var_right] at h; cases h
  | .term x xs, .term y ys, _ => ⟨x, xs, y, ys, rfl, rfl⟩

theorem applyF_succ_concrete (f : Nat) (c : Context) (t : Ty)
    (h : t.is_concrete = true) : applyF (f + 1) c t = .ok t := by
  unfold applyF
  rw [if_pos h]

theorem mapApply_concrete (f : Nat) (c : Context) : ∀ (xs : List Ty),
    Ty.all_concrete xs = true → mapPRes (applyF (f + 1) c) xs = .ok xs
  | [], _ => rfl
  | x :: rest, h => by
    have hsplit : x.is_concrete = true ∧ Ty.all_concrete rest = true := by
      simpa only [Ty.all_concrete, Bool.and_eq_true] using h
    simp only [mapPRes, applyF_succ_concrete f c x hsplit.1, PRes.bind_ok,
      mapApply_concrete f c rest hsplit.2, PRes.map_ok]

/-- A returning `apply` on a constructor term yields the same constructor
with arguments that are themselves apply-results (at some fuel). -/
theorem apply_term_ok : ∀ (f : Nat) (c : Context) (x : String) (xs : List Ty) (a2 : Ty),
    applyF f c (.term x xs) = .ok a2 →
    ∃ g xs2, mapPRes (applyF g c) xs = .ok xs2 ∧ a2 = .term x xs2
  | 0, _, _, _, _, h => by cases h
  | f + 1, c, x, xs, a2, h => by
    unfold applyF at h
    by_cases hc : (Ty.term x xs).is_concrete = true
    · rw [if_pos hc] at h
      cases h
      exact ⟨0 + 1, xs,
        mapApply_concrete 0 c xs (by simpa only [Ty.is_concrete] using hc), rfl⟩
    · rw [if_neg hc] at h
      have h2 : ((mapPRes (applyF f c) xs).map (Ty.term x) : PRes Ty) = .ok a2 := h
      obtain ⟨xs2, hxs, he⟩ := PRes.map_eq_ok h2
      exact ⟨f, xs2, hxs, he.symm⟩

end Context

mutual

theorem Context.might_unify_refl : ∀ (t : Ty), Context.might_unify t t = true
  | .var _ => rfl
  | .term x xs => by
    rw [Context.might_unify_term_term, decide_eq_true rfl, Bool.true_and]
    exact Context.might_unify_args_refl xs

theorem Context.might_unify_args_refl : ∀ (xs : List Ty),
    Context.might_unify_args xs xs = true
  | [] => rfl
  | x :: rest => by
    show (Context.might_unify x x && Context.might_unify_args rest rest) = true
    rw [Context.might_unify_refl x, Context.might_unify_args_refl rest, Bool.and_self]

end

mutual

/-- `Context::might_unify = false` is preserved by applying the current
substitution to both sides (`apply` only replaces variables, and a `false`
verdict lives entirely on constructor structure). -/
theorem Context.might_unify_apply_false : ∀ (a b : Ty) (fa fb : Nat) (c : Context)
    (a2 b2 : Ty), Context.might_unify a b = false →
    Context.applyF fa c a = .ok a2 → Context.applyF fb c b = .ok b2 →
    Context.might_unify a2 b2 = false
  | .var i, b, fa, fb, c, a2, b2, hmu, _, _ => by
    rw [Context.might_unify_var_left] at hmu
    cases hmu
  | .term x xs, .var j, fa, fb, c, a2, b2, hmu, _, _ => by
    rw [Context.might_unify_var_right] at hmu
    cases hmu
  | .term x xs, .term y ys, fa, fb, c, a2, b2, hmu, ha, hb => by
    obtain ⟨ga, xs2, hxs, rfl⟩ := Context.apply_term_ok fa c x xs a2 ha
    obtain ⟨gb, ys2, hys, rfl⟩ := Context.apply_term_ok fb c y ys b2 hb
    rw [Context.might_unify_term_term] at hmu ⊢
    by_cases hxy : x = y
    · rw [decide_eq_true hxy, Bool.true_and] at hmu ⊢
      exact Context.might_unify_args_apply_false xs ys ga gb c xs2 ys2 hmu hxs hys
    · rw [decide_eq_false hxy, Bool.false_and]

theorem Context.might_unify_args_apply_false : ∀ (xs ys : List Ty) (fa fb : Nat)
    (c : Context) (xs2 ys2 : List Ty), Context.might_unify_args xs ys = false →
    mapPRes (Context.applyF fa c) xs = .ok xs2 →
    mapPRes (Context.applyF fb c) ys = .ok ys2 →
    Context.might_unify_args xs2 ys2 = false
  | [], [], _, _, _, _, _, hmu, _, _ => by cases hmu
  | [], y :: ys, fa, fb, c, xs2, ys2, _, hx, hy => by
    cases hx
    obtain ⟨b1, hb1, hrest⟩ := PRes.bind_eq_ok hy
    obtain ⟨bs, hbs, he⟩ := PRes.map_eq_ok hrest
    rw [← he]
    rfl
  | x :: xs, [], fa, fb, c, xs2, ys2, _, hx, hy => by
    cases hy
    obtain ⟨b1, hb1, hrest⟩ := PRes.bind_eq_ok hx
    obtain ⟨bs, hbs, he⟩ := PRes.map_eq_ok hrest
    rw [← he]
    rfl
  | x :: xs, y :: ys, fa, fb, c, xs2, ys2, hmu, hx, hy => by
    obtain ⟨x1, hx1, hxr⟩ := PRes.bind_eq_ok hx
    obtain ⟨xs1, hxs1, hex⟩ := PRes.map_eq_ok hxr
    obtain ⟨y1, hy1, hyr⟩ := PRes.bind_eq_ok hy
    obtain ⟨ys1, hys1, hey⟩ := PRes.map_eq_ok hyr
    rw [← hex, ← hey]
    cases hcase : Context.might_unify x y with
    | false =>
      have hh := Context.might_unify_apply_false x y fa fb c x1 y1 hcase hx1 hy1
      show (Context.might_unify x1 y1 && Context.might_unify_args xs1 ys1) = false
      rw [hh, Bool.false_and]
    | true =>
      have hmu2 : Context.might_unify_args xs ys = false := by
        have hh : (Context.might_unify x y && Context.might_unify_args xs ys) = false := hmu
        rwa [hcase, Bool.true_and] at hh
      have hrest := Context.might_unify_args_apply_false xs ys fa fb c xs1 ys1 hmu2 hxs1 hys1
      show (Context.might_unify x1 y1 && Context.might_unify_args xs1 ys1) = false
      rw [hrest, Bool.and_false]

end

namespace Context

theorem might_unify_args_false_mem : ∀ (xs ys : List Ty),
    Context.might_unify_args xs ys = false → xs.length = ys.length →
    ∃ p ∈ xs.zip ys, Context.might_unify (p : Ty × Ty).1 p.2 = false
  | [], [], hmu, _ => by cases hmu
  | [], _ :: _, _, hlen => by cases hlen
  | _ :: _, [], _, hlen => by cases hlen
  | x :: xs, y :: ys, hmu, hlen => by
    cases hcase : Context.might_unify x y with
    | false => exact ⟨(x, y), List.mem_cons_self _ _, hcase⟩
    | true =>
      have hmu2 : Context.might_unify_args xs ys = false := by
        have hh : (Context.might_unify x y && Context.might_unify_args xs ys) = false := hmu
        rwa [hcase, Bool.true_and] at hh
      obtain ⟨p, hp, hpf⟩ :=
        might_unify_args_false_mem xs ys hmu2 (by simpa using hlen)
      exact ⟨p, List.mem_cons_of_mem _ hp, hpf⟩

end Context

mutual

/-- C4, Context side: a `might_unify = false` verdict forces `unify` to
return an error in every state. -/
theorem Context.unify_mu_false : ∀ (f : Nat) (c : Context) (a b : Ty)
    (out : UnifyResult × Context), Context.might_unify a b = false →
    Context.unifyF f c a b = .ok out → ∃ e, out.1 = Except.error e
  | 0, _, _, _, _, _, h => by cases h
  | f + 1, c, a, b, out, hmu, h => by
    obtain ⟨a1, ha1, h⟩ := PRes.bind_eq_ok h
    obtain ⟨b1, hb1, h⟩ := PRes.bind_eq_ok h
    have hmu1 : Context.might_unify a1 b1 = false :=
      Context.might_unify_apply_false a b f f c a1 b1 hmu ha1 hb1
    obtain ⟨x, xs, y, ys, rfl, rfl⟩ := Context.might_unify_false_shape a1 b1 hmu1
    by_cases hcc : (Ty.term x xs).is_concrete = true ∧ (Ty.term y ys).is_concrete = true
    · rw [if_pos hcc] at h
      by_cases heq : Ty.term x xs = Ty.term y ys
      · rw [heq, Context.might_unify_refl] at hmu1
        cases hmu1
      · rw [if_neg heq] at h
        cases h
        exact ⟨.concreteSubtree, rfl⟩
    · rw [if_neg hcc] at h
      have h2 : (if x ≠ y ∨ xs.length ≠ ys.length then
            (.ok (.error .production, c) : PRes (UnifyResult × Context))
          else Context.unifyPairs f c (xs.zip ys)) = .ok out := h
      by_cases hguard : x ≠ y ∨ xs.length ≠ ys.length
      · rw [if_pos hguard] at h2
        cases h2
        exact ⟨.production, rfl⟩
      · rw [if_neg hguard] at h2
        push_neg at hguard
        obtain ⟨hxy, hlen⟩ := hguard
        have hargs : Context.might_unify_args xs ys = false := by
          rw [Context.might_unify_term_term, decide_eq_true hxy, Bool.true_and] at hmu1
          exact hmu1
        obtain ⟨p, hp, hpf⟩ := Context.might_unify_args_false_mem xs ys hargs hlen
        exact Context.unify_pairs_mu_false f c (xs.zip ys) out ⟨p, hp, hpf⟩ h2

theorem Context.unify_pairs_mu_false : ∀ (f : Nat) (c : Context) (ps : List (Ty × Ty))
    (out : UnifyResult × Context),
    (∃ p ∈ ps, Context.might_unify (p : Ty × Ty).1 p.2 = false) →
    Context.unifyPairs f c ps = .ok out → ∃ e, out.1 = Except.error e
  | _, _, [], _, hex, _ => by
    obtain ⟨p, hp, _⟩ := hex
    cases hp
  | 0, _, _ :: _, _, _, h => by cases h
  | f + 1, c, (a, b) :: rest, out, hex, h => by
    obtain ⟨⟨r1, c1⟩, h1, h2⟩ := PRes.bind_eq_ok h
    cases r1 with
    | error e =>
      have h3 : (.ok (.error e, c1) : PRes (UnifyResult × Context)) = .ok out := h2
      cases h3
      exact ⟨e, rfl⟩
    | ok u =>
      cases u
      obtain ⟨p, hp, hpf⟩ := hex
      rcases List.mem_cons.mp hp with heq | hp2
      · subst heq
        obtain ⟨e, he⟩ := Context.unify_mu_false f c a b (.ok (), c1) hpf h1
        cases he
      · exact Context.unify_pairs_mu_false f c1 rest out ⟨p, hp2, hpf⟩ h2

end

namespace TypeSet

/-- Canonicalization results are unique across fuels. -/
theorem canon_det {f f2 : Nat} {ts : TypeSet} {t c c2 : TypeRef}
    (h : canonF f ts t = .ok c) (h2 : canonF f2 ts t = .ok c2) : c = c2 := by
  have hh := canon_mono_le (Nat.le_max_left f f2) h
  have hh2 := canon_mono_le (Nat.le_max_right f f2) h2
  rw [hh] at hh2
  exact (PRes.ok.injEq _ _).mp hh2

/-- A canonicalization chain that ends at a constructor term survives any
conservative substitution extension unchanged, at the same fuel. -/
theorem canon_stable_term : ∀ (f : Nat) (ts ts2 : TypeSet) (t c : TypeRef) (x : String)
    (args : List RawTypeRef),
    canonF f ts t = .ok c → ts.node? c.raw = .ok (.term x args) →
    SubstExt ts.subst ts2.subst → ts2.nodes = ts.nodes →
    canonF f ts2 t = .ok c
  | 0, _, _, _, _, _, _, h, _, _, _ => by cases h
  | f + 1, ts, ts2, t, c, x, args, h, hcn, hext, hnodes => by
    obtain ⟨n, hn, hrest⟩ := PRes.bind_eq_ok h
    cases n with
    | var i =>
      cases hv : ts.get_var (i + t.shift) with
      | some b =>
        simp only [hv] at hrest
        have hv2 : ts2.get_var (i + t.shift) = some b := hext.lookup_some hv
        simp only [canonF, node?_congr hnodes, hn, PRes.bind_ok, hv2]
        exact canon_stable_term f ts ts2 b c x args hrest hcn hext hnodes
      | none =>
        simp only [hv] at hrest
        cases hrest
        rw [hn] at hcn
        cases hcn
    | term s2 args2 =>
      cases hrest
      simp only [canonF, node?_congr hnodes, hn, PRes.bind_ok]

theorem MUFalse.stable {ts ts2 : TypeSet} {r1 : RawTypeRef} {r2 : TypeRef}
    (h : MUFalse ts r1 r2) (hext : SubstExt ts.subst ts2.subst)
    (hnodes : ts2.nodes = ts.nodes) : MUFalse ts2 r1 r2 := by
  induction h with
  | head f c2 x y xs ys hn1 hc hn2 hguard =>
    exact MUFalse.head f c2 x y xs ys
      (by rw [node?_congr hnodes]; exact hn1)
      (canon_stable_term f ts ts2 _ c2 y ys hc hn2 hext hnodes)
      (by rw [node?_congr hnodes]; exact hn2) hguard
  | child f c2 x xs ys p hn1 hc hn2 hlen hp _ ih =>
    exact MUFalse.child f c2 x xs ys p
      (by rw [node?_congr hnodes]; exact hn1)
      (canon_stable_term f ts ts2 _ c2 x ys hc hn2 hext hnodes)
      (by rw [node?_congr hnodes]; exact hn2) hlen hp ih

end TypeSet

mutual

/-- Extract the clash witness from a `might_unify = false` computation. -/
theorem TypeSet.mightUnify_false_muFalse : ∀ (f : Nat) (ts : TypeSet)
    (r1 : RawTypeRef) (r2 : TypeRef),
    TypeSet.mightUnifyF f ts r1 r2 = .ok false → TypeSet.MUFalse ts r1 r2
  | 0, _, _, _, h => by cases h
  | f + 1, ts, r1, r2, h => by
    obtain ⟨n1, hn1, h⟩ := PRes.bind_eq_ok h
    obtain ⟨c2, hc2, h⟩ := PRes.bind_eq_ok h
    obtain ⟨n2, hn2, h⟩ := PRes.bind_eq_ok h
    cases n1 with
    | var i =>
      cases n2 with
      | var j =>
        have h2 : (PRes.ok true : PRes Bool) = .ok false := h
        cases h2
      | term y ys =>
        have h2 : (PRes.ok true : PRes Bool) = .ok false := h
        cases h2
    | term x xs =>
      cases n2 with
      | var j =>
        have h2 : (PRes.ok true : PRes Bool) = .ok false := h
        cases h2
      | term y ys =>
        have h2 : (if x = y ∧ xs.length = ys.length then
              TypeSet.mightUnifyArgs f ts c2.shift (xs.zip ys)
            else (.ok false : PRes Bool)) = .ok false := h
        by_cases hg : x = y ∧ xs.length = ys.length
        · rw [if_pos hg] at h2
          obtain ⟨hxy, hlen⟩ := hg
          subst hxy
          obtain ⟨p, hp, hmf⟩ := TypeSet.mightUnifyArgs_false_mem f ts c2.shift (xs.zip ys) h2
          exact TypeSet.MUFalse.child f c2 x xs ys p hn1 hc2 hn2 hlen hp hmf
        · exact TypeSet.MUFalse.head f c2 x y xs ys hn1 hc2 hn2 hg

theorem TypeSet.mightUnifyArgs_false_mem : ∀ (f : Nat) (ts : TypeSet) (sh : Nat)
    (ps : List (RawTypeRef × RawTypeRef)),
    TypeSet.mightUnifyArgs f ts sh ps = .ok false →
    ∃ p ∈ ps, TypeSet.MUFalse ts (p : RawTypeRef × RawTypeRef).1 (RawTypeRef.shift p.2 sh)
  | 0, _, _, [], h => by
    have h2 : (PRes.ok true : PRes Bool) = .ok false := h
    cases h2
  | f + 1, _, _, [], h => by
    have h2 : (PRes.ok true : PRes Bool) = .ok false := h
    cases h2
  | 0, _, _, _ :: _, h => by cases h
  | f + 1, ts, sh, (x, y) :: rest, h => by
    obtain ⟨b, hb, h⟩ := PRes.bind_eq_ok h
    cases b with
    | false =>
      exact ⟨(x, y), List.mem_cons_self _ _,
        TypeSet.mightUnify_false_muFalse f ts x (RawTypeRef.shift y sh) hb⟩
    | true =>
      rw [if_pos rfl] at h
      obtain ⟨p, hp, hmf⟩ := TypeSet.mightUnifyArgs_false_mem f ts sh rest h
      exact ⟨p, List.mem_cons_of_mem _ hp, hmf⟩

end

mutual

/-- C4, TypeSet side: a clash witness forces `unify` to return an error in
every state containing it. -/
theorem TypeSet.unify_muFalse : ∀ (f : Nat) (ts : TypeSet) (r1 : RawTypeRef)
    (s : Nat) (r2 : TypeRef) (out : UnifyResult × TypeSet),
    TypeSet.MUFalse ts r1 r2 →
    TypeSet.unifyF f ts (RawTypeRef.shift r1 s) r2 = .ok out →
    ∃ e, out.1 = Except.error e
  | 0, _, _, _, _, _, _, h => by cases h
  | f + 1, ts, r1, s, r2, out, hmu, h => by
    obtain ⟨c1, hc1, h⟩ := PRes.bind_eq_ok h
    obtain ⟨c2, hc2, h⟩ := PRes.bind_eq_ok h
    obtain ⟨n1, hn1, h⟩ := PRes.bind_eq_ok h
    obtain ⟨n2, hn2, h⟩ := PRes.bind_eq_ok h
    cases hmu with
    | head g c2w x y xs ys hm1 hmc hm2 hguard =>
      have hm1s : ts.node? (RawTypeRef.shift r1 s).raw = .ok (.term x xs) := hm1
      obtain rfl : c1 = RawTypeRef.shift r1 s :=
        TypeSet.canon_term_self f ts _ c1 x xs hm1s hc1
      have hn1s : ts.node? r1 = .ok n1 := hn1
      rw [hm1] at hn1s
      obtain rfl : TNode.term x xs = n1 := (PRes.ok.injEq _ _).mp hn1s
      have hce : c2w = c2 := TypeSet.canon_det hmc hc2
      rw [hce] at hm2
      rw [hm2] at hn2
      obtain rfl : TNode.term y ys = n2 := (PRes.ok.injEq _ _).mp hn2
      have h2 : (if x ≠ y ∨ xs.length ≠ ys.length then
            (.ok (.error .production, ts) : PRes (UnifyResult × TypeSet))
          else
            TypeSet.unifyPairsTS f ts
              ((xs.map (fun rr => rr.shift (RawTypeRef.shift r1 s).shift)).zip
                (ys.map (fun rr => rr.shift c2.shift)))) = .ok out := h
      have hg : x ≠ y ∨ xs.length ≠ ys.length := by
        by_cases hxy : x = y
        · right
          intro hl
          exact hguard ⟨hxy, hl⟩
        · left
          exact hxy
      rw [if_pos hg] at h2
      cases h2
      exact ⟨.production, rfl⟩
    | child g c2w x xs ys p hm1 hmc hm2 hlen hp hrec =>
      have hm1s : ts.node? (RawTypeRef.shift r1 s).raw = .ok (.term x xs) := hm1
      obtain rfl : c1 = RawTypeRef.shift r1 s :=
        TypeSet.canon_term_self f ts _ c1 x xs hm1s hc1
      have hn1s : ts.node? r1 = .ok n1 := hn1
      rw [hm1] at hn1s
      obtain rfl : TNode.term x xs = n1 := (PRes.ok.injEq _ _).mp hn1s
      have hce : c2w = c2 := TypeSet.canon_det hmc hc2
      rw [hce] at hm2 hrec
      rw [hm2] at hn2
      obtain rfl : TNode.term x ys = n2 := (PRes.ok.injEq _ _).mp hn2
      have h2 : (if x ≠ x ∨ xs.length ≠ ys.length then
            (.ok (.error .production, ts) : PRes (UnifyResult × TypeSet))
          else
            TypeSet.unifyPairsTS f ts
              ((xs.map (fun rr => rr.shift (RawTypeRef.shift r1 s).shift)).zip
                (ys.map (fun rr => rr.shift c2.shift)))) = .ok out := h
      rw [if_neg (by simp [hlen])] at h2
      have hlist : ((xs.map (fun rr => RawTypeRef.shift rr (RawTypeRef.shift r1 s).shift)).zip
            (ys.map (fun rr => RawTypeRef.shift rr c2.shift))) =
          ((xs.zip ys).map
            (fun q => (RawTypeRef.shift q.1 s, RawTypeRef.shift q.2 c2.shift))) := by
        rw [List.zip_map]
        rfl
      rw [hlist] at h2
      exact TypeSet.unify_pairs_muFalse f ts s c2.shift (xs.zip ys) out ⟨p, hp, hrec⟩ h2

theorem TypeSet.unify_pairs_muFalse : ∀ (f : Nat) (ts : TypeSet) (sa sb : Nat)
    (ps : List (RawTypeRef × RawTypeRef)) (out : UnifyResult × TypeSet),
    (∃ p ∈ ps, TypeSet.MUFalse ts (p : RawTypeRef × RawTypeRef).1 (RawTypeRef.shift p.2 sb)) →
    TypeSet.unifyPairsTS f ts
      (ps.map (fun q => (RawTypeRef.shift q.1 sa, RawTypeRef.shift q.2 sb))) = .ok out →
    ∃ e, out.1 = Except.error e
  | _, _, _, _, [], _, hex, _ => by
    obtain ⟨p, hp, _⟩ := hex
    cases hp
  | 0, _, _, _, _ :: _, _, _, h => by cases h
  | f + 1, ts, sa, sb, (a, b) :: rest, out, hex, h => by
    simp only [List.map_cons] at h
    obtain ⟨⟨r1, ts1⟩, h1, h2⟩ := PRes.bind_eq_ok h
    cases r1 with
    | error e =>
      have h3 : (.ok (.error e, ts1) : PRes (UnifyResult × TypeSet)) = .ok out := h2
      cases h3
      exact ⟨e, rfl⟩
    | ok u =>
      cases u
      obtain ⟨p, hp, hmf⟩ := hex
      rcases List.mem_cons.mp hp with heq | hp2
      · subst heq
        obtain ⟨e, he⟩ :=
          TypeSet.unify_muFalse f ts a sa (RawTypeRef.shift b sb) (.ok (), ts1) hmf h1
        cases he
      · obtain ⟨hnodes, _, _, hse⟩ := TypeSet.unify_ext f ts _ _ _ _ h1
        exact TypeSet.unify_pairs_muFalse f ts1 sa sb rest out
          ⟨p, hp2, hmf.stable hse hnodes⟩ h2

end

/-- C4: `might_unify` never returns a false negative relative to `unify`,
for both engines: whenever it returns `false` (at any fuel), `unify` on the
same state never returns `Ok` — at every fuel at which it returns, the
result is an error.  For the arena engine the left side is the raw
reference viewed at an arbitrary shift. -/
theorem c4_might_unify_no_false_negative :
    (∀ (f : Nat) (c : Context) (a b : Ty) (out : UnifyResult × Context),
      Context.might_unify a b = false → Context.unifyF f c a b = .ok out →
      ∃ e, out.1 = Except.error e) ∧
    (∀ (g f : Nat) (ts : TypeSet) (r1 : RawTypeRef) (s : Nat) (r2 : TypeRef)
      (out : UnifyResult × TypeSet),
      TypeSet.mightUnifyF g ts r1 r2 = .ok false →
      TypeSet.unifyF f ts (RawTypeRef.shift r1 s) r2 = .ok out →
      ∃ e, out.1 = Except.error e) :=
  ⟨Context.unify_mu_false,
   fun g f ts r1 s r2 out hmu hu =>
     TypeSet.unify_muFalse f ts r1 s r2 out
       (TypeSet.mightUnify_false_muFalse g ts r1 r2 hmu) hu⟩

/-- Witness for C4: `int` vs `bool` in the empty context (tree engine,
error `ConcreteSubtree`) and in a two-node arena (arena engine, error
`Production`). -/
theorem c4_might_unify_no_false_negative_witness :
    (∃ e, ((Except.error UnifyErr.concreteSubtree, Context.empty) :
        UnifyResult × Context).1 = Except.error e) ∧
    (∃ e, ((Except.error UnifyErr.production, tsIntBool) :
        UnifyResult × TypeSet).1 = Except.error e) :=
  ⟨c4_might_unify_no_false_negative.1 3 Context.empty (Ty.base "int") (Ty.base "bool")
      (.error .concreteSubtree, Context.empty) (by decide) (by decide),
   c4_might_unify_no_false_negative.2 3 3 tsIntBool 0 0 ⟨1, 0⟩
      (.error .production, tsIntBool) (by decide) (by decide)⟩

theorem PRes.bind_congr {α β : Type} (x : PRes α) {k1 k2 : α → PRes β}
    (h : ∀ a, k1 a = k2 a) : x.bind k1 = x.bind k2 := by
  cases x with
  | fuel => rfl
  | panic => rfl
  | ok a => exact h a

theorem ExprSet.node?_mem2 {s : ExprSet} {idx : Nat} {n : Node}
    (h : s.node? idx = .ok n) : n ∈ s.nodes := by
  unfold ExprSet.node? at h
  cases hg : s.nodes.get? idx with
  | none => rw [hg] at h; cases h
  | some n2 =>
    rw [hg] at h
    obtain rfl : n2 = n := (PRes.ok.injEq _ _).mp h
    exact List.get?_mem hg

/-- `infer` consults the DSL only on primitives stored in the arena. -/
theorem inferF_congr : ∀ (f : Nat) (es : ExprSet) (idx : Nat) (ctx : Context)
    (env : List Ty) (dsl dsl2 : String → Ty),
    (∀ p, Node.prim p ∈ es.nodes → dsl p = dsl2 p) →
    inferF f es idx ctx env dsl = inferF f es idx ctx env dsl2
  | 0, _, _, _, _, _, _, _ => rfl
  | f + 1, es, idx, ctx, env, dsl, dsl2, hag => by
    cases hn : es.node? idx with
    | fuel => simp only [inferF, hn, PRes.bind_fuel]
    | panic => simp only [inferF, hn, PRes.bind_panic]
    | ok n =>
      cases n with
      | app fn x =>
        simp only [inferF, hn, PRes.bind_ok, Context.fresh_type_var]
        rw [inferF_congr f es x _ env dsl dsl2 hag]
        refine PRes.bind_congr _ fun a => ?_
        obtain ⟨rx, c⟩ := a
        cases rx with
        | error e => rfl
        | ok xt =>
          show (inferF f es fn c env dsl).bind _ = (inferF f es fn c env dsl2).bind _
          rw [inferF_congr f es fn c env dsl dsl2 hag]
      | lam b =>
        simp only [inferF, hn, PRes.bind_ok, Context.fresh_type_var]
        rw [inferF_congr f es b _ _ dsl dsl2 hag]
      | var i => simp only [inferF, hn, PRes.bind_ok]
      | ivar i => simp only [inferF, hn, PRes.bind_ok]
      | prim p =>
        simp only [inferF, hn, PRes.bind_ok]
        rw [hag p (ExprSet.node?_mem2 hn)]

/-- C1: for every DSL in which `+ : int -> int -> int` and the numerals `2`
and `3` have type `int`, parsing `"(+ 2 3)"` and running `infer` on the
result with an empty context and environment returns `Ok(int)`; and for
every DSL whatsoever, the same pipeline on `"(lam $0)"` returns
`Ok(t0 -> t0)`. -/
theorem c1_infer_examples :
    (∀ (dsl : String → Ty) (root : Nat) (es : ExprSet),
      dsl "+" = Ty.arrow (Ty.base "int") (Ty.arrow (Ty.base "int") (Ty.base "int")) →
      dsl "2" = Ty.base "int" → dsl "3" = Ty.base "int" →
      parse_extend (ExprSet.empty .childFirst false) "(+ 2 3)".toList =
        .ok (.ok root, es) →
      inferF 20 es root Context.empty [] dsl = .ok (.ok (Ty.base "int"), ctxPlusOut)) ∧
    (∀ (dsl : String → Ty) (root : Nat) (es : ExprSet),
      parse_extend (ExprSet.empty .childFirst false) "(lam $0)".toList =
        .ok (.ok root, es) →
      inferF 20 es root Context.empty [] dsl =
        .ok (.ok (Ty.arrow (.var 0) (.var 0)), ctxLamOut)) := by
  constructor
  · intro dsl root es h1 h2 h3 hp
    have hp0 : parse_extend (ExprSet.empty .childFirst false) "(+ 2 3)".toList =
        .ok (.ok 4, esPlus) := by decide
    rw [hp0] at hp
    injection hp with hp
    injection hp with hpa hpb
    injection hpa with hpa
    subst hpa
    subst hpb
    have hag : ∀ p, Node.prim p ∈ esPlus.nodes → dsl p = dslPlus p := by
      intro p hmem
      have hmem2 : p = "3" ∨ p = "2" ∨ p = "+" := by
        simpa [esPlus] using hmem
      rcases hmem2 with rfl | rfl | rfl
      · rw [h3]; decide
      · rw [h2]; decide
      · rw [h1]; decide
    rw [inferF_congr 20 esPlus 4 Context.empty [] dsl dslPlus hag]
    decide
  · intro dsl root es hp
    have hp0 : parse_extend (ExprSet.empty .childFirst false) "(lam $0)".toList =
        .ok (.ok 1, esLam) := by decide
    rw [hp0] at hp
    injection hp with hp
    injection hp with hpa hpb
    injection hpa with hpa
    subst hpa
    subst hpb
    have hag : ∀ p, Node.prim p ∈ esLam.nodes → dsl p = dslPlus p := by
      intro p hmem
      simp [esLam] at hmem
    rw [inferF_congr 20 esLam 1 Context.empty [] dsl dslPlus hag]
    decide

/-- Witness for C1 at the concrete DSL `dslPlus`. -/
theorem c1_infer_examples_witness :
    inferF 20 esPlus 4 Context.empty [] dslPlus =
      .ok (.ok (Ty.base "int"), ctxPlusOut) ∧
    inferF 20 esLam 1 Context.empty [] dslPlus =
      .ok (.ok (Ty.arrow (.var 0) (.var 0)), ctxLamOut) :=
  ⟨c1_infer_examples.1 dslPlus 4 esPlus (by decide) (by decide) (by decide) (by decide),
   c1_infer_examples.2 dslPlus 1 esLam (by decide)⟩

theorem natChars_ne_nil (n : Nat) : natChars n ≠ [] := by
  unfold natChars
  split
  · simp
  · simp

theorem natChars_mem : ∀ (n : Nat), ∀ c ∈ natChars n,
    c.isDigit = true ∧ isBoundary c = false ∧ c ≠ '+' ∧ c ≠ '-' := by
  intro n
  induction n using Nat.strong_induction_on with
  | _ n ih =>
    intro c hc
    unfold natChars at hc
    by_cases h : n < 10
    · rw [if_pos h] at hc
      simp only [List.mem_singleton] at hc
      subst hc
      interval_cases n <;> exact ⟨by decide, by decide, by decide, by decide⟩
    · rw [if_neg h] at hc
      rcases List.mem_append.mp hc with hc | hc
      · exact ih (n / 10) (Nat.div_lt_self (by omega) (by omega)) c hc
      · simp only [List.mem_singleton] at hc
        subst hc
        have h10 : n % 10 < 10 := Nat.mod_lt _ (by omega)
        set m := n % 10 with hm
        interval_cases m <;> exact ⟨by decide, by decide, by decide, by decide⟩

theorem natChars_val : ∀ (n : Nat) (acc : Nat),
    (natChars n).foldl (fun a c => a * 10 + (c.toNat - 48)) acc =
      acc * 10 ^ (natChars n).length + n := by
  intro n
  induction n using Nat.strong_induction_on with
  | _ n ih =>
    intro acc
    unfold natChars
    by_cases h : n < 10
    · rw [if_pos h]
      have hc : (Char.ofNat (48 + n)).toNat = 48 + n := by
        interval_cases n <;> decide
      simp only [List.foldl_cons, List.foldl_nil, List.length_singleton, hc, pow_one]
      omega
    · rw [if_neg h]
      rw [List.foldl_append]
      have h10 : n % 10 < 10 := Nat.mod_lt _ (by omega)
      have hd : (Char.ofNat (48 + n % 10)).toNat = 48 + n % 10 := by
        set m := n % 10 with hm
        interval_cases m <;> decide
      rw [ih (n / 10) (Nat.div_lt_self (by omega) (by omega)) acc]
      simp only [List.foldl_cons, List.foldl_nil, List.length_append,
        List.length_singleton, hd]
      have hmod : 10 * (n / 10) + n % 10 = n := Nat.div_add_mod n 10
      have h1 : (acc * 10 ^ (natChars (n / 10)).length + n / 10) * 10 =
          acc * 10 ^ ((natChars (n / 10)).length + 1) + 10 * (n / 10) := by
        rw [pow_succ]
        ring
      omega

theorem parseDigits_natChars (n : Nat) : parseDigits (natChars n) = some n := by
  unfold parseDigits
  rw [if_pos ⟨natChars_ne_nil n,
    List.all_eq_true.mpr fun c hc => (natChars_mem n c hc).1⟩]
  rw [natChars_val n 0]
  simp

theorem parseI32_intChars : ∀ (i : Int), -2147483648 ≤ i → i ≤ 2147483647 →
    parseI32 (intChars i) = some i := by
  intro i hlo hhi
  unfold intChars
  by_cases hneg : i < 0
  · rw [if_pos hneg]
    simp only [parseI32]
    rw [parseDigits_natChars]
    simp only [Option.some_bind]
    rw [if_pos (by omega)]
    congr 1
    omega
  · rw [if_neg hneg]
    obtain ⟨c, rest, hcr⟩ : ∃ c rest, natChars i.toNat = c :: rest := by
      cases h : natChars i.toNat with
      | nil => exact absurd h (natChars_ne_nil _)
      | cons c rest => exact ⟨c, rest, rfl⟩
    have hcmem : c ∈ natChars i.toNat := by
      rw [hcr]
      exact List.mem_cons_self _ _
    have hcfacts := natChars_mem i.toNat c hcmem
    rw [hcr]
    unfold parseI32
    split
    · rename_i r heq
      injection heq with h1 h2
      exact absurd h1 hcfacts.2.2.1
    · rename_i r heq
      injection heq with h1 h2
      exact absurd h1 hcfacts.2.2.2
    · rw [← hcr, parseDigits_natChars]
      simp only [Option.some_bind]
      rw [if_pos (by omega)]
      simp only [Option.some.injEq]
      omega

theorem intChars_mem : ∀ (i : Int), ∀ c ∈ intChars i, isBoundary c = false := by
  intro i c hc
  unfold intChars at hc
  split at hc
  · rcases List.mem_cons.mp hc with rfl | hc
    · decide
    · exact (natChars_mem _ c hc).2.1
  · exact (natChars_mem _ c hc).2.1

theorem intChars_ne_nil (i : Int) : intChars i ≠ [] := by
  unfold intChars
  split
  · simp
  · exact natChars_ne_nil _

theorem head_dropWhile_nw : ∀ (l : List Char) (c : Char),
    (l.dropWhile isWs).head? = some c → isWs c = false
  | [], c, h => by cases h
  | a :: r, c, h => by
    rw [List.dropWhile_cons] at h
    split at h
    · exact head_dropWhile_nw r c h
    · rename_i ha
      injection h with h
      subst h
      exact Bool.not_eq_true _ ▸ Bool.of_not_eq_true ha

theorem getLast_dropWhile_ne : ∀ (l : List Char),
    l.dropWhile isWs ≠ [] → (l.dropWhile isWs).getLast? = l.getLast? := by
  intro l
  induction l with
  | nil => intro h; rfl
  | cons a r ih =>
    intro h
    rw [List.dropWhile_cons]
    rw [List.dropWhile_cons] at h
    split
    · rename_i ha
      rw [if_pos ha] at h
      have hr : r ≠ [] := by
        intro he
        subst he
        exact h (by rfl)
      rw [ih h]
      cases r with
      | nil => exact absurd rfl hr
      | cons y t => rw [List.getLast?_cons_cons]
    · rfl

theorem head?_append_left {α : Type} {a : List α} (b : List α) (h : a ≠ []) :
    (a ++ b).head? = a.head? := by
  cases a with
  | nil => exact absurd rfl h
  | cons x r => rfl

theorem getLast?_append_right {α : Type} (a : List α) {b : List α} (h : b ≠ []) :
    (a ++ b).getLast? = b.getLast? := by
  induction a with
  | nil => rfl
  | cons x r ih =>
    rw [List.cons_append]
    cases ha : r ++ b with
    | nil => exact absurd (List.append_eq_nil.mp ha).2 h
    | cons y t =>
      rw [List.getLast?_cons_cons, ← ha]
      exact ih

theorem dropWhile_head_id : ∀ (l : List Char),
    (∀ c, l.head? = some c → isWs c = false) → l.dropWhile isWs = l := by
  intro l h
  cases l with
  | nil => rfl
  | cons a r =>
    rw [List.dropWhile_cons, if_neg]
    simp [h a rfl]

theorem trimRev_eq_self (l : List Char)
    (h1 : ∀ c, l.head? = some c → isWs c = false)
    (h2 : ∀ c, l.getLast? = some c → isWs c = false) : trimRev l = l := by
  unfold trimRev
  rw [dropWhile_head_id l h1]
  rw [dropWhile_head_id l.reverse (by
    intro c hc
    rw [List.head?_reverse] at hc
    exact h2 c hc)]
  exact List.reverse_reverse l

theorem trimRev_ws_cons (c : Char) (l : List Char) (h : isWs c = true) :
    trimRev (c :: l) = trimRev l := by
  unfold trimRev
  rw [List.dropWhile_cons, if_pos (by simp [h])]

theorem trim_head_nw (l : List Char) : ∀ c, (trimRev l).head? = some c →
    isWs c = false := by
  intro c h
  unfold trimRev at h
  rw [List.head?_reverse] at h
  have hne : (l.dropWhile isWs).reverse.dropWhile isWs ≠ [] := by
    intro he
    rw [he] at h
    cases h
  rw [getLast_dropWhile_ne _ hne, List.getLast?_reverse] at h
  exact head_dropWhile_nw l c h

theorem trim_last_nw (l : List Char) : ∀ c, (trimRev l).getLast? = some c →
    isWs c = false := by
  intro c h
  unfold trimRev at h
  rw [List.getLast?_reverse] at h
  exact head_dropWhile_nw _ c h

theorem trimRev_trimRev (l : List Char) : trimRev (trimRev l) = trimRev l :=
  trimRev_eq_self _ (trim_head_nw l) (trim_last_nw l)

theorem parseLoop_trim : ∀ (f : Nat) (es : ExprSet) (il : Nat) (s : List Char)
    (items ds : List Nat),
    parseLoop f es il s items ds = parseLoop f es il (trimRev s) items ds
  | 0, _, _, _, _, _ => rfl
  | f + 1, es, il, s, items, ds => by
    simp only [parseLoop, trimRev_trimRev]

theorem takeWhile_nb_append : ∀ (w rest : List Char),
    (∀ c ∈ w, isBoundary c = false) → HeadBd rest →
    (w ++ rest).takeWhile (fun c => !isBoundary c) = w := by
  intro w
  induction w with
  | nil =>
    intro rest _ hrest
    cases rest with
    | nil => rfl
    | cons c r =>
      rw [List.nil_append, List.takeWhile_cons, if_neg]
      simp [hrest c rfl]
  | cons a w ih =>
    intro rest hw hrest
    rw [List.cons_append, List.takeWhile_cons, if_pos]
    · rw [ih rest (fun c hc => hw c (List.mem_cons_of_mem _ hc)) hrest]
    · simp [hw a (List.mem_cons_self _ _)]

theorem isBoundary_false_nw {c : Char} (h : isBoundary c = false) : isWs c = false := by
  unfold isBoundary at h
  unfold isWs
  rcases Bool.or_eq_false_iff.mp h with ⟨h1, _⟩
  rcases Bool.or_eq_false_iff.mp h1 with ⟨h2, _⟩
  exact h2

theorem mem_of_getLast? : ∀ {α : Type} {l : List α} {a : α},
    l.getLast? = some a → a ∈ l
  | _, [], a, h => by cases h
  | _, [x], a, h => by
    injection h with h
    subst h
    exact List.mem_cons_self _ _
  | _, x :: y :: t, a, h => by
    rw [List.getLast?_cons_cons] at h
    exact List.mem_cons_of_mem _ (mem_of_getLast? h)

theorem dispT_ne_nil : ∀ (t : STree) (fl : Bool), GoodTree t → dispT t fl ≠ []
  | .prim w, fl, hg => hg.1
  | .var i, fl, _ => by simp [dispT]
  | .ivar i, fl, _ => by simp [dispT]
  | .app f x, true, _ => by simp [dispT]
  | .app f x, false, _ => by simp [dispT]
  | .lam b, fl, _ => by simp [dispT]

theorem dispT_head_nw : ∀ (t : STree) (fl : Bool), GoodTree t →
    ∀ c, (dispT t fl).head? = some c → isWs c = false
  | .prim w, fl, hg, c, h => by
    have hcm : c ∈ w := by
      cases w with
      | nil => cases h
      | cons a r =>
        injection h with h
        subst h
        exact List.mem_cons_self _ _
    exact isBoundary_false_nw (hg.2.1 c hcm)
  | .var i, fl, _, c, h => by
    injection h with h
    subst h
    decide
  | .ivar i, fl, _, c, h => by
    injection h with h
    subst h
    decide
  | .app f x, true, hg, c, h => by
    rw [show dispT (.app f x) true = dispT f true ++ ' ' :: dispT x false from rfl,
      head?_append_left _ (dispT_ne_nil f true hg.1)] at h
    exact dispT_head_nw f true hg.1 c h
  | .app f x, false, _, c, h => by
    injection h with h
    subst h
    decide
  | .lam b, fl, _, c, h => by
    injection h with h
    subst h
    decide

theorem dispT_last_nw : ∀ (t : STree) (fl : Bool), GoodTree t →
    ∀ c, (dispT t fl).getLast? = some c → isWs c = false
  | .prim w, fl, hg, c, h => isBoundary_false_nw (hg.2.1 c (mem_of_getLast? h))
  | .var i, fl, _, c, h => by
    rw [show dispT (.var i) fl = '$' :: intChars i from rfl] at h
    have : c ∈ '$' :: intChars i := mem_of_getLast? h
    rcases List.mem_cons.mp this with rfl | hc
    · decide
    · exact isBoundary_false_nw (intChars_mem i c hc)
  | .ivar i, fl, _, c, h => by
    rw [show dispT (.ivar i) fl = '#' :: intChars i from rfl] at h
    have : c ∈ '#' :: intChars i := mem_of_getLast? h
    rcases List.mem_cons.mp this with rfl | hc
    · decide
    · exact isBoundary_false_nw (intChars_mem i c hc)
  | .app f x, true, hg, c, h => by
    rw [show dispT (.app f x) true = dispT f true ++ ' ' :: dispT x false from rfl,
      getLast?_append_right _ (by simp)] at h
    have hx : (' ' :: dispT x false).getLast? = (dispT x false).getLast? := by
      cases hd : dispT x false with
      | nil => exact absurd hd (dispT_ne_nil x false hg.2)
      | cons y t => exact List.getLast?_cons_cons
    rw [hx] at h
    exact dispT_last_nw x false hg.2 c h
  | .app f x, false, _, c, h => by
    rw [show dispT (.app f x) false =
      '(' :: (dispT f true ++ ' ' :: dispT x false) ++ [')'] from rfl,
      getLast?_append_right _ (by simp)] at h
    injection h with h
    subst h
    decide
  | .lam b, fl, _, c, h => by
    rw [show dispT (.lam b) fl =
      '(' :: 'l' :: 'a' :: 'm' :: ' ' :: dispT b false ++ [')'] from rfl] at h
    have h2 : ('(' :: 'l' :: 'a' :: 'm' :: ' ' :: dispT b false ++ [')']).getLast? =
        ([')'] : List Char).getLast? := by
      rw [show '(' :: 'l' :: 'a' :: 'm' :: ' ' :: dispT b false ++ [')'] =
        ('(' :: 'l' :: 'a' :: 'm' :: ' ' :: dispT b false) ++ [')'] from rfl]
      exact getLast?_append_right _ (by simp)
    rw [h2] at h
    injection h with h
    subst h
    decide

theorem add_none_eq (es : ExprSet) (n : Node) (h : es.spans = none) :
    es.add n = .ok (es.nodes.length, esPush es n) := by
  unfold ExprSet.add esPush
  rw [h]

theorem addT_spans : ∀ (t : STree) (es : ExprSet), (addT es t).1.spans = es.spans
  | .prim w, es => rfl
  | .var i, es => rfl
  | .ivar i, es => rfl
  | .app f x, es => by
    show (esPush (addT (addT es x).1 f).1 _).spans = es.spans
    rw [show (esPush (addT (addT es x).1 f).1
        (.app (addT (addT es x).1 f).2 (addT es x).2)).spans =
      (addT (addT es x).1 f).1.spans from rfl]
    rw [addT_spans f (addT es x).1, addT_spans x es]
  | .lam b, es => by
    show (esPush (addT es b).1 _).spans = es.spans
    rw [show (esPush (addT es b).1 (.lam (addT es b).2)).spans =
      (addT es b).1.spans from rfl]
    rw [addT_spans b es]

theorem addT_order : ∀ (t : STree) (es : ExprSet), (addT es t).1.order = es.order
  | .prim w, es => rfl
  | .var i, es => rfl
  | .ivar i, es => rfl
  | .app f x, es => by
    show (esPush (addT (addT es x).1 f).1 _).order = es.order
    rw [show (esPush (addT (addT es x).1 f).1
        (.app (addT (addT es x).1 f).2 (addT es x).2)).order =
      (addT (addT es x).1 f).1.order from rfl]
    rw [addT_order f (addT es x).1, addT_order x es]
  | .lam b, es => by
    show (esPush (addT es b).1 _).order = es.order
    rw [show (esPush (addT es b).1 (.lam (addT es b).2)).order =
      (addT es b).1.order from rfl]
    rw [addT_order b es]

theorem addL_spans : ∀ (t : STree) (es : ExprSet), (addL es t).1.spans = es.spans
  | .prim w, es => addT_spans (.prim w) es
  | .var i, es => addT_spans (.var i) es
  | .ivar i, es => addT_spans (.ivar i) es
  | .lam b, es => addT_spans (.lam b) es
  | .app f x, es => by
    show (addL (addT es x).1 f).1.spans = es.spans
    rw [addL_spans f (addT es x).1, addT_spans x es]

theorem addT_nodes : ∀ (t : STree) (es : ExprSet),
    ∃ ext, (addT es t).1.nodes = es.nodes ++ ext ∧ ext.length = nodesT t ∧
      es.nodes.length ≤ (addT es t).2 ∧ (addT es t).2 < (addT es t).1.nodes.length
  | .prim w, es => ⟨[.prim (String.mk w)], rfl, rfl, Nat.le_refl _, by
      show es.nodes.length < (es.nodes ++ [Node.prim (String.mk w)]).length
      simp⟩
  | .var i, es => ⟨[.var i], rfl, rfl, Nat.le_refl _, by
      show es.nodes.length < (es.nodes ++ [Node.var i]).length
      simp⟩
  | .ivar i, es => ⟨[.ivar i], rfl, rfl, Nat.le_refl _, by
      show es.nodes.length < (es.nodes ++ [Node.ivar i]).length
      simp⟩
  | .app f x, es => by
    obtain ⟨e1, he1, hl1, _, _⟩ := addT_nodes x es
    obtain ⟨e2, he2, hl2, _, _⟩ := addT_nodes f (addT es x).1
    refine ⟨e1 ++ e2 ++ [.app (addT (addT es x).1 f).2 (addT es x).2], ?_, ?_, ?_, ?_⟩
    · show (esPush (addT (addT es x).1 f).1 _).nodes = _
      rw [show (esPush (addT (addT es x).1 f).1
          (.app (addT (addT es x).1 f).2 (addT es x).2)).nodes =
        (addT (addT es x).1 f).1.nodes ++
          [.app (addT (addT es x).1 f).2 (addT es x).2] from rfl]
      rw [he2, he1]
      simp
    · simp [hl1, hl2, nodesT]
      omega
    · show es.nodes.length ≤ (addT (addT es x).1 f).1.nodes.length
      rw [he2, he1]
      simp
    · show (addT (addT es x).1 f).1.nodes.length <
        (esPush (addT (addT es x).1 f).1 _).nodes.length
      rw [show (esPush (addT (addT es x).1 f).1
          (.app (addT (addT es x).1 f).2 (addT es x).2)).nodes =
        (addT (addT es x).1 f).1.nodes ++
          [.app (addT (addT es x).1 f).2 (addT es x).2] from rfl]
      simp
  | .lam b, es => by
    obtain ⟨e1, he1, hl1, _, _⟩ := addT_nodes b es
    refine ⟨e1 ++ [.lam (addT es b).2], ?_, ?_, ?_, ?_⟩
    · show (esPush (addT es b).1 _).nodes = _
      rw [show (esPush (addT es b).1 (.lam (addT es b).2)).nodes =
        (addT es b).1.nodes ++ [.lam (addT es b).2] from rfl]
      rw [he1]
      simp
    · simp [hl1, nodesT]
    · show es.nodes.length ≤ (addT es b).1.nodes.length
      rw [he1]
      simp
    · show (addT es b).1.nodes.length < (esPush (addT es b).1 _).nodes.length
      rw [show (esPush (addT es b).1 (.lam (addT es b).2)).nodes =
        (addT es b).1.nodes ++ [.lam (addT es b).2] from rfl]
      simp

theorem ExprSet.node?_mono {es es2 : ExprSet} (hext : ∃ ext, es2.nodes = es.nodes ++ ext)
    {i : Nat} {n : Node} (hn : es.node? i = .ok n) : es2.node? i = .ok n := by
  obtain ⟨ext, he⟩ := hext
  unfold ExprSet.node? at hn ⊢
  cases hg : es.nodes.get? i with
  | none => rw [hg] at hn; cases hn
  | some n2 =>
    rw [hg] at hn
    obtain rfl : n2 = n := (PRes.ok.injEq _ _).mp hn
    have hlt : i < es.nodes.length := by
      by_contra hge
      rw [List.get?_eq_getElem?, List.getElem?_eq_none_iff.mpr (by omega)] at hg
      cases hg
    rw [he, List.get?_append hlt, hg]

theorem Denotes.mono {es es2 : ExprSet} (hext : ∃ ext, es2.nodes = es.nodes ++ ext)
    {i : Nat} {t : STree} (h : Denotes es i t) : Denotes es2 i t := by
  induction h with
  | hole => exact .hole
  | prim w hH hn => exact .prim w hH (ExprSet.node?_mono hext hn)
  | var i2 hH hn => exact .var i2 hH (ExprSet.node?_mono hext hn)
  | ivar i2 hH hn => exact .ivar i2 hH (ExprSet.node?_mono hext hn)
  | app fi xi f x hH hn _ _ ihf ihx => exact .app fi xi f x hH (ExprSet.node?_mono hext hn) ihf ihx
  | lam bi b hH hn _ ihb => exact .lam bi b hH (ExprSet.node?_mono hext hn) ihb

theorem esPush_node_last (es : ExprSet) (n : Node) :
    (esPush es n).node? es.nodes.length = .ok n := by
  unfold ExprSet.node? esPush
  rw [show ({ es with nodes := es.nodes ++ [n] } : ExprSet).nodes = es.nodes ++ [n] from rfl]
  rw [List.get?_concat_length]

/-- The arena layout `addT` builds really denotes the tree. -/
theorem denotes_addT : ∀ (t : STree) (es : ExprSet),
    es.nodes.length + nodesT t ≤ HOLE → Denotes (addT es t).1 (addT es t).2 t
  | .prim w, es, hsz => by
    refine Denotes.prim w (by show es.nodes.length ≠ HOLE; simp [nodesT] at hsz; omega) ?_
    exact esPush_node_last es _
  | .var i, es, hsz => by
    refine Denotes.var i (by show es.nodes.length ≠ HOLE; simp [nodesT] at hsz; omega) ?_
    exact esPush_node_last es _
  | .ivar i, es, hsz => by
    refine Denotes.ivar i (by show es.nodes.length ≠ HOLE; simp [nodesT] at hsz; omega) ?_
    exact esPush_node_last es _
  | .app f x, es, hsz => by
    simp only [nodesT] at hsz
    obtain ⟨e1, he1, hl1, hlo1, hhi1⟩ := addT_nodes x es
    obtain ⟨e2, he2, hl2, hlo2, hhi2⟩ := addT_nodes f (addT es x).1
    have hdx : Denotes (addT es x).1 (addT es x).2 x :=
      denotes_addT x es (by omega)
    have hdf : Denotes (addT (addT es x).1 f).1 (addT (addT es x).1 f).2 f :=
      denotes_addT f (addT es x).1 (by
        rw [he1]
        simp only [List.length_append]
        omega)
    have hlen2 : (addT (addT es x).1 f).1.nodes.length =
        es.nodes.length + nodesT x + nodesT f := by
      rw [he2, he1]
      simp [hl1, hl2]
      omega
    refine Denotes.app (addT (addT es x).1 f).2 (addT es x).2 f x
      (by
        show (addT (addT es x).1 f).1.nodes.length ≠ HOLE
        omega) ?_ ?_ ?_
    · exact esPush_node_last (addT (addT es x).1 f).1 _
    · exact Denotes.mono ⟨[.app (addT (addT es x).1 f).2 (addT es x).2], rfl⟩ hdf
    · refine Denotes.mono ⟨e2 ++ [.app (addT (addT es x).1 f).2 (addT es x).2], ?_⟩ hdx
      show (esPush (addT (addT es x).1 f).1 _).nodes = _
      rw [show (esPush (addT (addT es x).1 f).1
          (.app (addT (addT es x).1 f).2 (addT es x).2)).nodes =
        (addT (addT es x).1 f).1.nodes ++
          [.app (addT (addT es x).1 f).2 (addT es x).2] from rfl]
      rw [he2]
      simp
  | .lam b, es, hsz => by
    simp only [nodesT] at hsz
    obtain ⟨e1, he1, hl1, hlo1, hhi1⟩ := addT_nodes b es
    have hdb : Denotes (addT es b).1 (addT es b).2 b :=
      denotes_addT b es (by omega)
    have hlen1 : (addT es b).1.nodes.length = es.nodes.length + nodesT b := by
      rw [he1]
      simp [hl1]
    refine Denotes.lam (addT es b).2 b
      (by
        show (addT es b).1.nodes.length ≠ HOLE
        omega) ?_ ?_
    · exact esPush_node_last (addT es b).1 _
    · exact Denotes.mono ⟨[.lam (addT es b).2], rfl⟩ hdb

theorem buildApps_split : ∀ (k m : Nat) (es : ExprSet) (items : List Nat),
    buildApps (k + m) es items =
      (buildApps k es items).bind fun p => buildApps m p.1 p.2
  | 0, m, es, items => by
    rw [Nat.zero_add]
    rfl
  | k + 1, m, es, items => by
    have he : k + 1 + m = (k + m) + 1 := by omega
    rw [he]
    show (match items with
      | f :: x :: rest =>
        (es.add (.app f x)).bind fun p => buildApps (k + m) p.2 (p.1 :: rest)
      | _ => .panic) = _
    cases items with
    | nil => rfl
    | cons a items2 =>
      cases items2 with
      | nil => rfl
      | cons b rest =>
        show ((es.add (.app a b)).bind fun p => buildApps (k + m) p.2 (p.1 :: rest)) = _
        rw [show buildApps (k + 1) es (a :: b :: rest) =
          (es.add (.app a b)).bind (fun p => buildApps k p.2 (p.1 :: rest)) from rfl]
        cases hadd : es.add (.app a b) with
        | fuel => rfl
        | panic => rfl
        | ok p =>
          simp only [PRes.bind_ok]
          exact buildApps_split k m p.2 (p.1 :: rest)

/-- Folding the spine items pushed by `addL` (plus the argument on top of
them) builds exactly the `addT` layout of the application. -/
theorem buildL : ∀ (t : STree) (es : ExprSet) (xi : Nat) (items0 : List Nat),
    es.spans = none →
    buildApps (addL es t).2.length (addL es t).1 ((addL es t).2 ++ xi :: items0) =
      .ok (esPush (addT es t).1 (.app (addT es t).2 xi),
        (addT es t).1.nodes.length :: items0)
  | .prim w, es, xi, items0, hsp => by
    show buildApps 1 (addT es (.prim w)).1 ([(addT es (.prim w)).2] ++ xi :: items0) = _
    rw [show ([(addT es (.prim w)).2] ++ xi :: items0) =
      (addT es (.prim w)).2 :: xi :: items0 from rfl]
    show ((addT es (.prim w)).1.add (.app (addT es (.prim w)).2 xi)).bind
        (fun p => buildApps 0 p.2 (p.1 :: items0)) = _
    rw [add_none_eq _ _ (by rw [addT_spans]; exact hsp)]
    rfl
  | .var i, es, xi, items0, hsp => by
    show buildApps 1 (addT es (.var i)).1 ([(addT es (.var i)).2] ++ xi :: items0) = _
    rw [show ([(addT es (.var i)).2] ++ xi :: items0) =
      (addT es (.var i)).2 :: xi :: items0 from rfl]
    show ((addT es (.var i)).1.add (.app (addT es (.var i)).2 xi)).bind
        (fun p => buildApps 0 p.2 (p.1 :: items0)) = _
    rw [add_none_eq _ _ (by rw [addT_spans]; exact hsp)]
    rfl
  | .ivar i, es, xi, items0, hsp => by
    show buildApps 1 (addT es (.ivar i)).1 ([(addT es (.ivar i)).2] ++ xi :: items0) = _
    rw [show ([(addT es (.ivar i)).2] ++ xi :: items0) =
      (addT es (.ivar i)).2 :: xi :: items0 from rfl]
    show ((addT es (.ivar i)).1.add (.app (addT es (.ivar i)).2 xi)).bind
        (fun p => buildApps 0 p.2 (p.1 :: items0)) = _
    rw [add_none_eq _ _ (by rw [addT_spans]; exact hsp)]
    rfl
  | .lam b, es, xi, items0, hsp => by
    show buildApps 1 (addT es (.lam b)).1 ([(addT es (.lam b)).2] ++ xi :: items0) = _
    rw [show ([(addT es (.lam b)).2] ++ xi :: items0) =
      (addT es (.lam b)).2 :: xi :: items0 from rfl]
    show ((addT es (.lam b)).1.add (.app (addT es (.lam b)).2 xi)).bind
        (fun p => buildApps 0 p.2 (p.1 :: items0)) = _
    rw [add_none_eq _ _ (by rw [addT_spans]; exact hsp)]
    rfl
  | .app f x, es, xi, items0, hsp => by
    show buildApps ((addL (addT es x).1 f).2 ++ [(addT es x).2]).length
        (addL (addT es x).1 f).1
        (((addL (addT es x).1 f).2 ++ [(addT es x).2]) ++ xi :: items0) = _
    rw [List.length_append, List.length_singleton, List.append_assoc,
      List.singleton_append]
    rw [buildApps_split (addL (addT es x).1 f).2.length 1]
    rw [buildL f (addT es x).1 (addT es x).2 (xi :: items0)
      (by rw [addT_spans]; exact hsp)]
    simp only [PRes.bind_ok]
    show ((esPush (addT (addT es x).1 f).1
        (.app (addT (addT es x).1 f).2 (addT es x).2)).add
          (.app (addT (addT es x).1 f).1.nodes.length xi)).bind
        (fun p => buildApps 0 p.2 (p.1 :: items0)) = _
    rw [add_none_eq _ _ (by
      show (esPush (addT (addT es x).1 f).1 _).spans = none
      rw [show (esPush (addT (addT es x).1 f).1
          (.app (addT (addT es x).1 f).2 (addT es x).2)).spans =
        (addT (addT es x).1 f).1.spans from rfl]
      rw [addT_spans, addT_spans]
      exact hsp)]
    rfl

theorem step_word : ∀ (F : Nat) (es : ExprSet) (il : Nat) (w rest : List Char)
    (items : List Nat) (d : Nat) (ds : List Nat) (nd : Node),
    w ≠ [] → (∀ c ∈ w, isBoundary c = false) → w ≠ ['l', 'a', 'm'] →
    HeadBd rest → LastNW rest → atomNode w = .ok nd → es.spans = none →
    parseLoop (F + 1) es il (w.reverse ++ rest) items (d :: ds) =
      parseLoop F (esPush es nd) il rest (es.nodes.length :: items) ((d + 1) :: ds) := by
  intro F es il w rest items d ds nd hne hnb hlam hhb hlnw hatom hsp
  have hrne : w.reverse ≠ [] := by simpa using hne
  have hedge1 : ∀ c, (w.reverse ++ rest).head? = some c → isWs c = false := by
    intro c h
    rw [head?_append_left _ hrne, List.head?_reverse] at h
    exact isBoundary_false_nw (hnb c (mem_of_getLast? h))
  have hedge2 : ∀ c, (w.reverse ++ rest).getLast? = some c → isWs c = false := by
    intro c h
    cases hr : rest with
    | nil =>
      rw [hr, List.append_nil, List.getLast?_reverse] at h
      refine isBoundary_false_nw (hnb c ?_)
      cases w with
      | nil => cases h
      | cons a r =>
        injection h with h
        subst h
        exact List.mem_cons_self _ _
    | cons c0 r0 =>
      rw [getLast?_append_right _ (by rw [hr]; simp)] at h
      exact hlnw c h
  have htrim : trimRev (w.reverse ++ rest) = w.reverse ++ rest :=
    trimRev_eq_self _ hedge1 hedge2
  simp only [parseLoop, htrim]
  rw [if_neg (by simp [hne])]
  obtain ⟨c0, wr2, hwr⟩ : ∃ c0 wr2, w.reverse = c0 :: wr2 := by
    cases hw : w.reverse with
    | nil => exact absurd hw hrne
    | cons a r => exact ⟨a, r, rfl⟩
  have hc0w : c0 ∈ w := by
    rw [← List.mem_reverse, hwr]
    exact List.mem_cons_self _ _
  rw [hwr, List.cons_append]
  split
  · rename_i heq
    injection heq with h1 h2
    have := hnb c0 hc0w
    rw [h1] at this
    cases this
  · rename_i heq
    injection heq with h1 h2
    have := hnb c0 hc0w
    rw [h1] at this
    cases this
  · rw [← List.cons_append, ← hwr]
    have htw : (w.reverse ++ rest).takeWhile (fun c => !isBoundary c) = w.reverse :=
      takeWhile_nb_append _ _ (fun c hc => hnb c (List.mem_reverse.mp hc)) hhb
    rw [htw, List.reverse_reverse, List.drop_left, if_neg hlam, hatom]
    show ((es.add nd).bind fun x =>
      parseLoop F x.2 il rest (x.1 :: items) ((d + 1) :: ds)) = _
    rw [add_none_eq es nd hsp]
    rfl

theorem step_close : ∀ (F : Nat) (es : ExprSet) (il : Nat) (s : List Char)
    (items ds : List Nat), LastNW s →
    parseLoop (F + 1) es il (')' :: s) items ds = parseLoop F es il s items (0 :: ds) := by
  intro F es il s items ds hlnw
  have htrim : trimRev (')' :: s) = ')' :: s := by
    refine trimRev_eq_self _ ?_ ?_
    · intro c h
      injection h with h
      subst h
      decide
    · intro c h
      cases hs : s with
      | nil =>
        subst hs
        injection h with h
        subst h
        decide
      | cons a r =>
        subst hs
        rw [List.getLast?_cons_cons] at h
        exact hlnw c h
  simp only [parseLoop, htrim]
  rw [if_neg (by simp)]

theorem step_open : ∀ (F : Nat) (es : ExprSet) (il : Nat) (s : List Char)
    (items : List Nat) (n d : Nat) (ds : List Nat), LastNW s →
    parseLoop (F + 1) es il ('(' :: s) items ((n + 1) :: d :: ds) =
      (buildApps n es items).bind fun p => parseLoop F p.1 il s p.2 ((d + 1) :: ds) := by
  intro F es il s items n d ds hlnw
  have htrim : trimRev ('(' :: s) = '(' :: s := by
    refine trimRev_eq_self _ ?_ ?_
    · intro c h
      injection h with h
      subst h
      decide
    · intro c h
      cases hs : s with
      | nil =>
        subst hs
        injection h with h
        subst h
        decide
      | cons a r =>
        subst hs
        rw [List.getLast?_cons_cons] at h
        exact hlnw c h
  simp only [parseLoop, htrim]
  rw [if_neg (by simp), if_neg (by simp), show n + 1 - 1 = n from by omega]

theorem step_lam : ∀ (F : Nat) (es : ExprSet) (il : Nat) (s : List Char)
    (b : Nat) (items : List Nat) (d : Nat) (ds : List Nat),
    LastNW s → es.spans = none →
    parseLoop (F + 1) es il (' ' :: 'm' :: 'a' :: 'l' :: '(' :: s) (b :: items)
        (1 :: d :: ds) =
      parseLoop F (esPush es (.lam b)) il s (es.nodes.length :: items)
        ((d + 1) :: ds) := by
  intro F es il s b items d ds hlnw hsp
  have htrim : trimRev (' ' :: 'm' :: 'a' :: 'l' :: '(' :: s) =
      'm' :: 'a' :: 'l' :: '(' :: s := by
    rw [trimRev_ws_cons _ _ (by decide)]
    refine trimRev_eq_self _ ?_ ?_
    · intro c h
      injection h with h
      subst h
      decide
    · intro c h
      cases hs : s with
      | nil =>
        subst hs
        have h2 : (['m', 'a', 'l', '('] : List Char).getLast? = some c := h
        injection h2 with h2
        subst h2
        decide
      | cons a r =>
        subst hs
        rw [List.getLast?_cons_cons, List.getLast?_cons_cons,
          List.getLast?_cons_cons] at h
        exact hlnw c h
  simp only [parseLoop, htrim]
  have htk : List.takeWhile (fun c => !isBoundary c) ('m' :: 'a' :: 'l' :: '(' :: s) =
      ['m', 'a', 'l'] := by
    rw [List.takeWhile_cons, if_pos (by decide), List.takeWhile_cons, if_pos (by decide),
      List.takeWhile_cons, if_pos (by decide), List.takeWhile_cons, if_neg (by decide)]
  rw [htk]
  rw [show List.drop (['m', 'a', 'l'] : List Char).length ('m' :: 'a' :: 'l' :: '(' :: s) =
    '(' :: s from rfl]
  show (if ('(' : Char) ≠ '(' then
      (PRes.ok (Except.error ParseErr.lamParen, es) : PRes (Except ParseErr Nat × ExprSet))
    else if (1 : Nat) ≠ 1 then PRes.ok (Except.error ParseErr.lamArity, es)
    else (es.add (Node.lam b)).bind fun x =>
      parseLoop F x.2 il s (x.1 :: items) ((d + 1) :: ds)) = _
  rw [if_neg (by simp), if_neg (by simp), add_none_eq es (.lam b) hsp]
  rfl

theorem headBd_cons (c0 : Char) (l : List Char) (hc : isBoundary c0 = true) :
    HeadBd (c0 :: l) := by
  intro c h
  injection h with h
  subst h
  exact hc

theorem lastNW_cons (c0 : Char) (l : List Char) (hc : isWs c0 = false)
    (hl : LastNW l) : LastNW (c0 :: l) := by
  intro c h
  cases hl2 : l with
  | nil =>
    subst hl2
    injection h with h
    subst h
    exact hc
  | cons a r =>
    subst hl2
    rw [List.getLast?_cons_cons] at h
    exact hl c h

theorem lastNW_cons_ne (c0 : Char) {l : List Char} (hne : l ≠ [])
    (hl : LastNW l) : LastNW (c0 :: l) := by
  intro c h
  cases hl2 : l with
  | nil => exact absurd hl2 hne
  | cons a r =>
    subst hl2
    rw [List.getLast?_cons_cons] at h
    exact hl c h

theorem lastNW_append (a : List Char) {bl : List Char} (h : bl ≠ [])
    (hb : LastNW bl) : LastNW (a ++ bl) := fun c hc =>
  hb c (by rwa [getLast?_append_right _ h] at hc)

theorem lastNW_rev_append (t : STree) (fl : Bool) (hg : GoodTree t)
    (rest : List Char) (hlnw : LastNW rest) :
    LastNW ((dispT t fl).reverse ++ rest) := by
  intro c h
  cases hr : rest with
  | nil =>
    rw [hr, List.append_nil, List.getLast?_reverse] at h
    exact dispT_head_nw t fl hg c h
  | cons a r =>
    rw [getLast?_append_right _ (by rw [hr]; simp)] at h
    exact hlnw c h

theorem atomNode_prim (w : List Char) (h1 : w.head? ≠ some '$')
    (h2 : w.head? ≠ some '#') : atomNode w = .ok (.prim (String.mk w)) := by
  unfold atomNode
  split
  · exact absurd rfl h1
  · exact absurd rfl h2
  · rfl

theorem atomNode_var (i : Int) (hlo : -2147483648 ≤ i) (hhi : i ≤ 2147483647) :
    atomNode ('$' :: intChars i) = .ok (.var i) := by
  show (match parseI32 (intChars i) with
    | some j => (Except.ok (Node.var j) : Except ParseErr Node)
    | none => Except.error ParseErr.intLit) = Except.ok (Node.var i)
  rw [parseI32_intChars i hlo hhi]

theorem atomNode_ivar (i : Int) (hlo : -2147483648 ≤ i) (hhi : i ≤ 2147483647) :
    atomNode ('#' :: intChars i) = .ok (.ivar i) := by
  show (match parseI32 (intChars i) with
    | some j => (Except.ok (Node.ivar j) : Except ParseErr Node)
    | none => Except.error ParseErr.intLit) = Except.ok (Node.ivar i)
  rw [parseI32_intChars i hlo hhi]

theorem intChars_word_ok (sig : Char) (hs : isBoundary sig = false) (i : Int) :
    ∀ c ∈ sig :: intChars i, isBoundary c = false := by
  intro c hc
  rcases List.mem_cons.mp hc with rfl | hc
  · exact hs
  · exact intChars_mem i c hc

mutual

/-- Scanning the rendering of a good tree in argument position consumes it
entirely: it pushes exactly the `addT` layout and one item, and bumps the
current depth counter by one. -/
theorem parseT_full : ∀ (t : STree), GoodTree t → ∀ (es : ExprSet) (il : Nat)
    (items : List Nat) (d : Nat) (ds : List Nat) (rest : List Char) (F : Nat),
    es.spans = none → HeadBd rest → LastNW rest →
    parseLoop (itersFull t + F) es il ((dispT t false).reverse ++ rest) items (d :: ds) =
      parseLoop F (addT es t).1 il rest ((addT es t).2 :: items) ((d + 1) :: ds)
  | .prim w, hg, es, il, items, d, ds, rest, F, hsp, hhb, hlnw => by
    rw [show itersFull (.prim w) + F = F + 1 from by simp [itersFull]; omega]
    rw [show dispT (.prim w) false = w from rfl]
    exact step_word F es il w rest items d ds _ hg.1 hg.2.1 hg.2.2.1 hhb hlnw
      (atomNode_prim w hg.2.2.2.1 hg.2.2.2.2) hsp
  | .var i, hg, es, il, items, d, ds, rest, F, hsp, hhb, hlnw => by
    rw [show itersFull (.var i) + F = F + 1 from by simp [itersFull]; omega]
    rw [show dispT (.var i) false = '$' :: intChars i from rfl]
    exact step_word F es il ('$' :: intChars i) rest items d ds _ (by simp)
      (intChars_word_ok '$' (by decide) i) (by simp)
      hhb hlnw (atomNode_var i hg.1 hg.2) hsp
  | .ivar i, hg, es, il, items, d, ds, rest, F, hsp, hhb, hlnw => by
    rw [show itersFull (.ivar i) + F = F + 1 from by simp [itersFull]; omega]
    rw [show dispT (.ivar i) false = '#' :: intChars i from rfl]
    exact step_word F es il ('#' :: intChars i) rest items d ds _ (by simp)
      (intChars_word_ok '#' (by decide) i) (by simp)
      hhb hlnw (atomNode_ivar i hg.1 hg.2) hsp
  | .lam b, hg, es, il, items, d, ds, rest, F, hsp, hhb, hlnw => by
    have hl0 : LastNW ('(' :: rest) := lastNW_cons _ _ (by decide) hlnw
    have hl1 : LastNW (' ' :: 'm' :: 'a' :: 'l' :: '(' :: rest) :=
      lastNW_cons_ne _ (by simp)
        (lastNW_cons _ _ (by decide) (lastNW_cons _ _ (by decide)
          (lastNW_cons _ _ (by decide) hl0)))
    have hdisp : (dispT (.lam b) false).reverse ++ rest =
        ')' :: ((dispT b false).reverse ++ (' ' :: 'm' :: 'a' :: 'l' :: '(' :: rest)) := by
      rw [show dispT (.lam b) false =
        '(' :: 'l' :: 'a' :: 'm' :: ' ' :: (dispT b false ++ [')']) from rfl]
      simp [List.reverse_cons, List.reverse_append, List.append_assoc]
    rw [hdisp]
    rw [show itersFull (.lam b) + F = (itersFull b + (F + 1)) + 1 from by
      simp [itersFull]; omega]
    rw [step_close _ es il _ items (d :: ds) (lastNW_append _ (by simp) hl1)]
    rw [parseT_full b hg es il items 0 (d :: ds) _ (F + 1) hsp
      (headBd_cons _ _ (by decide)) hl1]
    rw [step_lam F (addT es b).1 il rest (addT es b).2 items d ds hlnw
      (by rw [addT_spans]; exact hsp)]
    rfl
  | .app f x, hg, es, il, items, d, ds, rest, F, hsp, hhb, hlnw => by
    have hl0 : LastNW ('(' :: rest) := lastNW_cons _ _ (by decide) hlnw
    have hlf : LastNW ((dispT f true).reverse ++ '(' :: rest) :=
      lastNW_append _ (by simp) hl0
    have hlx : LastNW (' ' :: ((dispT f true).reverse ++ '(' :: rest)) :=
      lastNW_cons_ne _ (by simp) hlf
    have hdisp : (dispT (.app f x) false).reverse ++ rest =
        ')' :: ((dispT x false).reverse ++
          (' ' :: ((dispT f true).reverse ++ '(' :: rest))) := by
      rw [show dispT (.app f x) false =
        '(' :: ((dispT f true ++ ' ' :: dispT x false) ++ [')']) from rfl]
      simp [List.reverse_cons, List.reverse_append, List.append_assoc]
    rw [hdisp]
    rw [show itersFull (.app f x) + F = (itersFull x + (itersLeft f + (F + 1))) + 1 from by
      simp [itersFull]; omega]
    rw [step_close _ es il _ items (d :: ds) (lastNW_append _ (by simp) hlx)]
    rw [parseT_full x hg.2 es il items 0 (d :: ds) _ (itersLeft f + (F + 1)) hsp
      (headBd_cons _ _ (by decide)) hlx]
    rw [parseLoop_trim, trimRev_ws_cons _ _ (by decide)]
    rw [trimRev_eq_self _ (by
        intro c h
        rw [head?_append_left _ (by simp [dispT_ne_nil f true hg.1]),
          List.head?_reverse] at h
        exact dispT_last_nw f true hg.1 c h) hlf]
    rw [parseT_left f hg.1 (addT es x).1 il ((addT es x).2 :: items) 1 (d :: ds)
      ('(' :: rest) (F + 1) (by rw [addT_spans]; exact hsp)
      (headBd_cons _ _ (by decide)) hl0]
    rw [show 1 + (addL (addT es x).1 f).2.length =
      (addL (addT es x).1 f).2.length + 1 from by omega]
    rw [step_open F (addL (addT es x).1 f).1 il rest _
      (addL (addT es x).1 f).2.length d ds hlnw]
    rw [buildL f (addT es x).1 (addT es x).2 items (by rw [addT_spans]; exact hsp)]
    rfl

/-- Scanning the rendering of a good tree in left position pushes its
application spine. -/
theorem parseT_left : ∀ (t : STree), GoodTree t → ∀ (es : ExprSet) (il : Nat)
    (items : List Nat) (d : Nat) (ds : List Nat) (rest : List Char) (F : Nat),
    es.spans = none → HeadBd rest → LastNW rest →
    parseLoop (itersLeft t + F) es il ((dispT t true).reverse ++ rest) items (d :: ds) =
      parseLoop F (addL es t).1 il rest ((addL es t).2 ++ items)
        ((d + (addL es t).2.length) :: ds)
  | .prim w, hg, es, il, items, d, ds, rest, F, hsp, hhb, hlnw => by
    rw [show itersLeft (.prim w) + F = F + 1 from by simp [itersLeft]; omega]
    rw [show dispT (.prim w) true = w from rfl]
    exact step_word F es il w rest items d ds _ hg.1 hg.2.1 hg.2.2.1 hhb hlnw
      (atomNode_prim w hg.2.2.2.1 hg.2.2.2.2) hsp
  | .var i, hg, es, il, items, d, ds, rest, F, hsp, hhb, hlnw => by
    rw [show itersLeft (.var i) + F = F + 1 from by simp [itersLeft]; omega]
    rw [show dispT (.var i) true = '$' :: intChars i from rfl]
    exact step_word F es il ('$' :: intChars i) rest items d ds _ (by simp)
      (intChars_word_ok '$' (by decide) i) (by simp)
      hhb hlnw (atomNode_var i hg.1 hg.2) hsp
  | .ivar i, hg, es, il, items, d, ds, rest, F, hsp, hhb, hlnw => by
    rw [show itersLeft (.ivar i) + F = F + 1 from by simp [itersLeft]; omega]
    rw [show dispT (.ivar i) true = '#' :: intChars i from rfl]
    exact step_word F es il ('#' :: intChars i) rest items d ds _ (by simp)
      (intChars_word_ok '#' (by decide) i) (by simp)
      hhb hlnw (atomNode_ivar i hg.1 hg.2) hsp
  | .lam b, hg, es, il, items, d, ds, rest, F, hsp, hhb, hlnw => by
    have hl0 : LastNW ('(' :: rest) := lastNW_cons _ _ (by decide) hlnw
    have hl1 : LastNW (' ' :: 'm' :: 'a' :: 'l' :: '(' :: rest) :=
      lastNW_cons_ne _ (by simp)
        (lastNW_cons _ _ (by decide) (lastNW_cons _ _ (by decide)
          (lastNW_cons _ _ (by decide) hl0)))
    have hdisp : (dispT (.lam b) true).reverse ++ rest =
        ')' :: ((dispT b false).reverse ++ (' ' :: 'm' :: 'a' :: 'l' :: '(' :: rest)) := by
      rw [show dispT (.lam b) true =
        '(' :: 'l' :: 'a' :: 'm' :: ' ' :: (dispT b false ++ [')']) from rfl]
      simp [List.reverse_cons, List.reverse_append, List.append_assoc]
    rw [hdisp]
    rw [show itersLeft (.lam b) + F = (itersFull b + (F + 1)) + 1 from by
      simp [itersLeft]; omega]
    rw [step_close _ es il _ items (d :: ds) (lastNW_append _ (by simp) hl1)]
    rw [parseT_full b hg es il items 0 (d :: ds) _ (F + 1) hsp
      (headBd_cons _ _ (by decide)) hl1]
    rw [step_lam F (addT es b).1 il rest (addT es b).2 items d ds hlnw
      (by rw [addT_spans]; exact hsp)]
    rfl
  | .app f x, hg, es, il, items, d, ds, rest, F, hsp, hhb, hlnw => by
    have hlf : LastNW ((dispT f true).reverse ++ rest) :=
      lastNW_rev_append f true hg.1 rest hlnw
    have hlx : LastNW (' ' :: ((dispT f true).reverse ++ rest)) :=
      lastNW_cons_ne _ (by simp [dispT_ne_nil f true hg.1]) hlf
    have hdisp : (dispT (.app f x) true).reverse ++ rest =
        (dispT x false).reverse ++ (' ' :: ((dispT f true).reverse ++ rest)) := by
      rw [show dispT (.app f x) true = dispT f true ++ ' ' :: dispT x false from rfl]
      simp [List.reverse_cons, List.reverse_append, List.append_assoc]
    rw [hdisp]
    rw [show itersLeft (.app f x) + F = itersFull x + (itersLeft f + F) from by
      simp [itersLeft]; omega]
    rw [parseT_full x hg.2 es il items d ds _ (itersLeft f + F) hsp
      (headBd_cons _ _ (by decide)) hlx]
    rw [parseLoop_trim, trimRev_ws_cons _ _ (by decide)]
    rw [trimRev_eq_self _ (by
        intro c h
        rw [head?_append_left _ (by simp [dispT_ne_nil f true hg.1]),
          List.head?_reverse] at h
        exact dispT_last_nw f true hg.1 c h) hlf]
    rw [parseT_left f hg.1 (addT es x).1 il ((addT es x).2 :: items) (d + 1) ds
      rest F (by rw [addT_spans]; exact hsp) hhb hlnw]
    rw [show (addL es (.app f x)).2 ++ items =
      (addL (addT es x).1 f).2 ++ ((addT es x).2 :: items) from by
        rw [show (addL es (.app f x)).2 =
          (addL (addT es x).1 f).2 ++ [(addT es x).2] from rfl]
        rw [List.append_assoc]
        rfl]
    rw [show d + (addL es (.app f x)).2.length =
      d + 1 + (addL (addT es x).1 f).2.length from by
        rw [show (addL es (.app f x)).2 =
          (addL (addT es x).1 f).2 ++ [(addT es x).2] from rfl]
        simp
        omega]
    rfl

end

mutual

theorem itersFull_le : ∀ (t : STree), GoodTree t →
    itersFull t ≤ (dispT t false).length
  | .prim w, hg => by
    simp only [itersFull, dispT]
    cases w with
    | nil => exact absurd rfl hg.1
    | cons a r => simp
  | .var i, _ => by simp [itersFull, dispT]
  | .ivar i, _ => by simp [itersFull, dispT]
  | .app f x, hg => by
    have h1 := itersLeft_le f hg.1
    have h2 := itersFull_le x hg.2
    simp only [itersFull, dispT, List.length_cons, List.length_append]
    omega
  | .lam b, hg => by
    have h1 := itersFull_le b hg
    simp only [itersFull, dispT, List.length_cons, List.length_append]
    omega

theorem itersLeft_le : ∀ (t : STree), GoodTree t →
    itersLeft t ≤ (dispT t true).length
  | .prim w, hg => by
    simp only [itersLeft, dispT]
    cases w with
    | nil => exact absurd rfl hg.1
    | cons a r => simp
  | .var i, _ => by simp [itersLeft, dispT]
  | .ivar i, _ => by simp [itersLeft, dispT]
  | .app f x, hg => by
    have h1 := itersLeft_le f hg.1
    have h2 := itersFull_le x hg.2
    simp only [itersLeft, dispT, List.length_cons, List.length_append]
    omega
  | .lam b, hg => by
    have h1 := itersFull_le b hg
    simp only [itersLeft, dispT, List.length_cons, List.length_append]
    omega

end

theorem step_eof : ∀ (F : Nat) (es : ExprSet) (il : Nat) (root : Nat),
    es.order = .childFirst →
    parseLoop (F + 1) es il [] [root] [1] = .ok (.ok root, es) := by
  intro F es il root hord
  simp only [parseLoop]
  rw [show trimRev [] = [] from rfl]
  rw [if_pos (show ([] : List Char).isEmpty = true from rfl)]
  rw [if_neg (by simp)]
  rw [if_neg (by simp)]
  show (buildApps 0 es [root]).bind _ = _
  show (PRes.ok (es, [root])).bind _ = _
  rw [PRes.bind_ok]
  rw [if_neg (by simp)]
  rw [hord]
  rfl

/-- Parsing the canonical rendering of a good tree from an empty childFirst
arena succeeds and recovers exactly the `addT` layout. -/
theorem parse_dispT (t : STree) (hg : GoodTree t) :
    parse_extend (ExprSet.empty .childFirst false) (dispT t false) =
      .ok (.ok (addT (ExprSet.empty .childFirst false) t).2,
        (addT (ExprSet.empty .childFirst false) t).1) := by
  have hle := itersFull_le t hg
  show parseLoop ((dispT t false).length + 1) (ExprSet.empty .childFirst false) 0
    (dispT t false).reverse [] [0] = _
  obtain ⟨F2, hF2⟩ : ∃ F2, (dispT t false).length + 1 = itersFull t + (F2 + 1) :=
    ⟨(dispT t false).length - itersFull t, by omega⟩
  rw [hF2]
  rw [show (dispT t false).reverse = (dispT t false).reverse ++ [] from by simp]
  rw [parseT_full t hg (ExprSet.empty .childFirst false) 0 [] 0 [] [] (F2 + 1) rfl
    (fun c h => by cases h) (fun c h => by cases h)]
  exact step_eof F2 _ 0 _ (by rw [addT_order]; rfl)

theorem depthT_pos : ∀ (t : STree), 1 ≤ depthT t
  | .prim _ => Nat.le_refl _
  | .var _ => Nat.le_refl _
  | .ivar _ => Nat.le_refl _
  | .app f x => by simp [depthT]
  | .lam b => by simp [depthT]

/-- Display is complete: with enough fuel it prints exactly the denoted
tree's rendering. -/
theorem displayF_complete : ∀ (f : Nat) (es : ExprSet) (idx : Nat) (t : STree)
    (fl : Bool), Denotes es idx t → depthT t ≤ f →
    displayF f es idx fl = .ok (dispT t fl)
  | 0, es, idx, t, fl, hden, hdep => by
    have := depthT_pos t
    omega
  | f + 1, es, idx, t, fl, hden, hdep => by
    cases hden with
    | hole =>
      show displayF (f + 1) es HOLE fl = _
      unfold displayF
      rw [if_pos rfl]
      rfl
    | prim w hH hn =>
      unfold displayF
      rw [if_neg hH]
      rw [hn]
      rfl
    | var i hH hn =>
      unfold displayF
      rw [if_neg hH, hn]
      rfl
    | ivar i hH hn =>
      unfold displayF
      rw [if_neg hH, hn]
      rfl
    | app fi xi tf tx hH hn hdf hdx =>
      unfold displayF
      rw [if_neg hH, hn]
      simp only [PRes.bind_ok]
      rw [displayF_complete f es fi tf true hdf (by simp [depthT] at hdep; omega)]
      rw [displayF_complete f es xi tx false hdx (by simp [depthT] at hdep; omega)]
      simp only [PRes.bind_ok, PRes.map_ok]
      cases fl with
      | true => rfl
      | false => rfl
    | lam bi tb hH hn hdb =>
      unfold displayF
      rw [if_neg hH, hn]
      simp only [PRes.bind_ok]
      rw [displayF_complete f es bi tb false hdb (by simp [depthT] at hdep; omega)]
      rfl

/-- Display is unique: any returning run prints the denoted tree's
rendering. -/
theorem displayF_unique : ∀ (f : Nat) (es : ExprSet) (idx : Nat) (t : STree)
    (fl : Bool) (r : List Char), Denotes es idx t →
    displayF f es idx fl = .ok r → r = dispT t fl
  | 0, _, _, _, _, _, _, h => by cases h
  | f + 1, es, idx, t, fl, r, hden, h => by
    cases hden with
    | hole =>
      unfold displayF at h
      rw [if_pos rfl] at h
      cases h
      rfl
    | prim w hH hn =>
      unfold displayF at h
      rw [if_neg hH, hn] at h
      simp only [PRes.bind_ok] at h
      cases h
      rfl
    | var i hH hn =>
      unfold displayF at h
      rw [if_neg hH, hn] at h
      simp only [PRes.bind_ok] at h
      cases h
      rfl
    | ivar i hH hn =>
      unfold displayF at h
      rw [if_neg hH, hn] at h
      simp only [PRes.bind_ok] at h
      cases h
      rfl
    | app fi xi tf tx hH hn hdf hdx =>
      unfold displayF at h
      rw [if_neg hH, hn] at h
      simp only [PRes.bind_ok] at h
      obtain ⟨sf, hsf, h⟩ := PRes.bind_eq_ok h
      obtain ⟨sx, hsx, h2⟩ := PRes.map_eq_ok h
      obtain rfl := displayF_unique f es fi tf true sf hdf hsf
      obtain rfl := displayF_unique f es xi tx false sx hdx hsx
      rw [← h2]
      cases fl with
      | true => rfl
      | false => rfl
    | lam bi tb hH hn hdb =>
      unfold displayF at h
      rw [if_neg hH, hn] at h
      simp only [PRes.bind_ok] at h
      obtain ⟨sb, hsb, h2⟩ := PRes.map_eq_ok h
      obtain rfl := displayF_unique f es bi tb false sb hdb hsb
      rw [← h2]
      rfl

theorem nodesT_pos : ∀ (t : STree), 1 ≤ nodesT t
  | .prim _ => Nat.le_refl _
  | .var _ => Nat.le_refl _
  | .ivar _ => Nat.le_refl _
  | .app f x => by simp [nodesT]
  | .lam b => by simp [nodesT]

theorem add_shape {es : ExprSet} {n : Node} {idx : Nat} {es2 : ExprSet}
    (hadd : es.add n = .ok (idx, es2)) :
    idx = es.nodes.length ∧ es2.nodes = es.nodes ++ [n] ∧ es2.order = es.order := by
  unfold ExprSet.add at hadd
  cases hsp : es.spans with
  | none =>
    rw [hsp] at hadd
    have hadd2 : (PRes.ok (es.nodes.length,
        { nodes := es.nodes ++ [n], spans := none,
          order := es.order }) : PRes (Nat × ExprSet)) = .ok (idx, es2) := hadd
    injection hadd2 with h
    injection h with h1 h2
    subst h1
    subst h2
    exact ⟨rfl, rfl, rfl⟩
  | some spans =>
    rw [hsp] at hadd
    obtain ⟨sp, hsp2, he⟩ := PRes.map_eq_ok hadd
    injection he with h1 h2
    subst h1
    subst h2
    exact ⟨rfl, rfl, rfl⟩

theorem node?_of_append {es2 es : ExprSet} {n : Node}
    (h : es2.nodes = es.nodes ++ [n]) : es2.node? es.nodes.length = .ok n := by
  unfold ExprSet.node?
  rw [h, List.get?_concat_length]

theorem denotes_or_hole (es2 : ExprSet) (idx : Nat) (t : STree)
    (h : idx ≠ HOLE → Denotes es2 idx t) (hgt : GoodTree t) :
    ∃ t2, GoodTree t2 ∧ Denotes es2 idx t2 ∧ nodesT t2 ≤ nodesT t := by
  by_cases hH : idx = HOLE
  · subst hH
    exact ⟨.prim ['?', '?'],
      show GoodWord ['?', '?'] from ⟨by decide, by decide, by decide, by decide, by decide⟩,
      .hole, nodesT_pos t⟩
  · exact ⟨t, hgt, h hH, Nat.le_refl _⟩

theorem parseI32_range : ∀ (l : List Char) (i : Int), parseI32 l = some i →
    -2147483648 ≤ i ∧ i ≤ 2147483647 := by
  intro l i h
  unfold parseI32 at h
  split at h
  · cases hd : parseDigits _ with
    | none => rw [hd] at h; cases h
    | some n =>
      rw [hd] at h
      simp only [Option.some_bind] at h
      split at h
      · injection h with h
        subst h
        rename_i hb
        omega
      · cases h
  · cases hd : parseDigits _ with
    | none => rw [hd] at h; cases h
    | some n =>
      rw [hd] at h
      simp only [Option.some_bind] at h
      split at h
      · injection h with h
        subst h
        rename_i hb
        omega
      · cases h
  · cases hd : parseDigits l with
    | none => rw [hd] at h; cases h
    | some n =>
      rw [hd] at h
      simp only [Option.some_bind] at h
      split at h
      · injection h with h
        subst h
        rename_i hb
        omega
      · cases h

theorem atomNode_good (w : List Char) (hne : w ≠ [])
    (hnb : ∀ c ∈ w, isBoundary c = false) (hlam : w ≠ ['l', 'a', 'm'])
    {nd : Node} (h : atomNode w = .ok nd) :
    ∃ t, GoodTree t ∧ nodesT t = 1 ∧
      ∀ (es2 : ExprSet) (idx : Nat), idx ≠ HOLE → es2.node? idx = .ok nd →
        Denotes es2 idx t := by
  unfold atomNode at h
  split at h
  · rename_i rest
    cases hp : parseI32 rest with
    | none => rw [hp] at h; cases h
    | some i =>
      rw [hp] at h
      injection h with h
      subst h
      obtain ⟨hlo, hhi⟩ := parseI32_range rest i hp
      exact ⟨.var i, ⟨hlo, hhi⟩, rfl, fun es2 idx hH hn => .var i hH hn⟩
  · rename_i rest
    cases hp : parseI32 rest with
    | none => rw [hp] at h; cases h
    | some i =>
      rw [hp] at h
      injection h with h
      subst h
      obtain ⟨hlo, hhi⟩ := parseI32_range rest i hp
      exact ⟨.ivar i, ⟨hlo, hhi⟩, rfl, fun es2 idx hH hn => .ivar i hH hn⟩
  · rename_i hne1 hne2
    injection h with h
    subst h
    have hgw : GoodWord w := by
      refine ⟨hne, hnb, hlam, ?_, ?_⟩
      · intro hh
        cases w with
        | nil => cases hh
        | cons c0 r =>
          injection hh with hh
          subst hh
          exact hne1 r rfl
      · intro hh
        cases w with
        | nil => cases hh
        | cons c0 r =>
          injection hh with hh
          subst hh
          exact hne2 r rfl
    exact ⟨.prim w, hgw, rfl, fun es2 idx hH hn => .prim w hH hn⟩

theorem buildApps_sound : ∀ (k : Nat) (es : ExprSet) (items : List Nat)
    (ts : List STree) (es2 : ExprSet) (items2 : List Nat),
    buildApps k es items = .ok (es2, items2) →
    List.Forall₂ (fun i t => Denotes es i t ∧ GoodTree t) items ts →
    sumN ts ≤ es.nodes.length →
    ∃ ts2, List.Forall₂ (fun i t => Denotes es2 i t ∧ GoodTree t) items2 ts2 ∧
      sumN ts2 ≤ es2.nodes.length ∧ es2.order = es.order ∧
      ∃ ext, es2.nodes = es.nodes ++ ext
  | 0, es, items, ts, es2, items2, h, hst, hsum => by
    have h2 : (PRes.ok (es, items) : PRes (ExprSet × List Nat)) = .ok (es2, items2) := h
    injection h2 with h2
    injection h2 with h3 h4
    subst h3
    subst h4
    exact ⟨ts, hst, hsum, rfl, [], by simp⟩
  | k + 1, es, items, ts, es2, items2, h, hst, hsum => by
    cases items with
    | nil => cases h
    | cons f tail =>
      cases tail with
      | nil => cases h
      | cons x rest =>
        rcases List.forall₂_cons_left_iff.mp hst with ⟨tf, ts1, hf, hst1, rfl⟩
        rcases List.forall₂_cons_left_iff.mp hst1 with ⟨tx, tsr, hx, hstr, rfl⟩
        obtain ⟨⟨idx, es3⟩, hadd, h2⟩ := PRes.bind_eq_ok h
        obtain ⟨hidx, hn3, hord3⟩ := add_shape hadd
        subst hidx
        have hnode : es3.node? es.nodes.length = .ok (.app f x) := node?_of_append hn3
        obtain ⟨t2, hgt2, hden2, hn2⟩ := denotes_or_hole es3 es.nodes.length
          (.app tf tx)
          (fun hH => .app f x tf tx hH hnode
            (Denotes.mono ⟨[_], hn3⟩ hf.1) (Denotes.mono ⟨[_], hn3⟩ hx.1))
          ⟨hf.2, hx.2⟩
        have hstr3 : List.Forall₂ (fun i t => Denotes es3 i t ∧ GoodTree t)
            (es.nodes.length :: rest) (t2 :: tsr) := by
          refine List.Forall₂.cons ⟨hden2, hgt2⟩ ?_
          exact List.Forall₂.imp (fun a b hab => ⟨Denotes.mono ⟨[_], hn3⟩ hab.1, hab.2⟩) hstr
        have hsum3 : sumN (t2 :: tsr) ≤ es3.nodes.length := by
          rw [hn3]
          simp only [sumN, List.length_append, List.length_singleton]
          simp only [sumN, nodesT] at hsum hn2 ⊢
          omega
        obtain ⟨ts2, hst2, hsum2, hord2, ⟨ext, hext⟩⟩ :=
          buildApps_sound k es3 (es.nodes.length :: rest) (t2 :: tsr) es2 items2 h2 hstr3 hsum3
        refine ⟨ts2, hst2, hsum2, hord2.trans hord3, ⟨[.app f x] ++ ext, ?_⟩⟩
        rw [hext, hn3]
        simp

theorem stack_mono {es es3 : ExprSet} (hext : ∃ ext, es3.nodes = es.nodes ++ ext)
    {items : List Nat} {ts : List STree}
    (h : List.Forall₂ (fun i t => Denotes es i t ∧ GoodTree t) items ts) :
    List.Forall₂ (fun i t => Denotes es3 i t ∧ GoodTree t) items ts :=
  List.Forall₂.imp (fun a b hab => ⟨Denotes.mono hext hab.1, hab.2⟩) h

/-- Any successful `parseLoop` run whose item stack denotes good trees
returns a root denoting a good tree. -/
theorem parse_sound : ∀ (fuel : Nat) (es : ExprSet) (il : Nat) (s : List Char)
    (items : List Nat) (ds : List Nat) (ts : List STree) (root : Nat) (es2 : ExprSet),
    es.order = .childFirst →
    List.Forall₂ (fun i t => Denotes es i t ∧ GoodTree t) items ts →
    sumN ts ≤ es.nodes.length →
    parseLoop fuel es il s items ds = .ok (.ok root, es2) →
    ∃ t, GoodTree t ∧ Denotes es2 root t ∧ nodesT t ≤ es2.nodes.length ∧
      es2.order = .childFirst
  | 0, _, _, _, _, _, _, _, _, _, _, _, h => by cases h
  | fuel + 1, es, il, s, items, ds, ts, root, es2, hord, hst, hsum, h => by
    simp only [parseLoop] at h
    split at h
    · -- end of input
      split at h
      · simp at h
      · split at h
        · simp at h
        · split at h
          · cases h
          · obtain ⟨⟨es3, items3⟩, hba, h2⟩ := PRes.bind_eq_ok h
            obtain ⟨ts3, hst3, hsum3, hord3, hext3⟩ :=
              buildApps_sound _ es items ts es3 items3 hba hst hsum
            simp only [] at h2
            split at h2
            · simp at h2
            · split at h2
              · rw [hord3, hord, if_neg (by decide)] at h2
                simp only [PRes.ok.injEq, Prod.mk.injEq, Except.ok.injEq] at h2
                obtain ⟨h4, h5⟩ := h2
                subst h4
                subst h5
                rcases List.forall₂_cons_left_iff.mp hst3 with ⟨tr, ts3r, hrfact, _, hcons⟩
                refine ⟨tr, hrfact.2, hrfact.1, ?_, by rw [hord3, hord]⟩
                rw [hcons] at hsum3
                simp only [sumN] at hsum3
                omega
              · cases h2
    · -- more input
      rename_i hnemp
      split at h
      · -- opening paren (the current group closes)
        split at h
        · simp at h
        · split at h
          · exact parse_sound fuel es il _ items _ ts root es2 hord hst hsum h
          · obtain ⟨⟨es3, items3⟩, hba, h2⟩ := PRes.bind_eq_ok h
            obtain ⟨ts3, hst3, hsum3, hord3, hext3⟩ :=
              buildApps_sound _ es items ts es3 items3 hba hst hsum
            simp only [] at h2
            split at h2
            · simp at h2
            · exact parse_sound fuel es3 il _ items3 _ ts3 root es2
                (by rw [hord3, hord]) hst3 hsum3 h2
      · -- closing paren
        exact parse_sound fuel es il _ items (0 :: ds) ts root es2 hord hst hsum h
      · -- word
        rename_i hno1 hno2
        obtain ⟨c0, s2, hc0⟩ : ∃ c0 s2, trimRev s = c0 :: s2 := by
          cases hts : trimRev s with
          | nil => rw [hts] at hnemp; simp at hnemp
          | cons a r => exact ⟨a, r, rfl⟩
        have hws : isWs c0 = false := trim_head_nw s c0 (by rw [hc0]; rfl)
        have hne1 : c0 ≠ '(' := fun he => hno1 s2 (by rw [hc0, he])
        have hne2 : c0 ≠ ')' := fun he => hno2 s2 (by rw [hc0, he])
        have hb0 : isBoundary c0 = false := by
          unfold isBoundary
          rw [show c0.isWhitespace = false from hws]
          simp [hne1, hne2]
        have hwne : ((trimRev s).takeWhile (fun c => !isBoundary c)).reverse ≠ [] := by
          rw [hc0, List.takeWhile_cons, if_pos (by simp [hb0])]
          simp
        have hwnb : ∀ c ∈ ((trimRev s).takeWhile (fun c => !isBoundary c)).reverse,
            isBoundary c = false := by
          intro c hc
          have := List.mem_takeWhile_imp (List.mem_reverse.mp hc)
          simpa using this
        split at h
        · -- the word is `lam`
          split at h
          · -- `lam` at the very start of the input
            split at h
            · simp at h
            · split at h
              · simp at h
              · split at h
                · rcases List.forall₂_cons_left_iff.mp hst with ⟨tb, tsr, hbf, hstr, hts2⟩
                  obtain ⟨⟨idx, es3⟩, hadd, h2⟩ := PRes.bind_eq_ok h
                  obtain ⟨hidx, hn3, hord3⟩ := add_shape hadd
                  subst hidx
                  simp only [] at h2
                  split at h2
                  · simp at h2
                  · simp only [PRes.ok.injEq, Prod.mk.injEq, Except.ok.injEq] at h2
                    obtain ⟨h4, h5⟩ := h2
                    subst h4
                    subst h5
                    obtain ⟨t2, hg2, hd2, hsz2⟩ := denotes_or_hole es3 es.nodes.length
                      (.lam tb)
                      (fun hH => .lam _ tb hH (node?_of_append hn3)
                        (Denotes.mono ⟨[_], hn3⟩ hbf.1)) hbf.2
                    refine ⟨t2, hg2, hd2, ?_, by rw [hord3, hord]⟩
                    rw [hts2] at hsum
                    rw [hn3]
                    simp only [sumN, nodesT, List.length_append, List.length_singleton]
                      at hsum hsz2 ⊢
                    omega
                · cases h
          · -- `lam` preceded by `(`
            split at h
            · simp at h
            · split at h
              · simp at h
              · split at h
                · simp at h
                · split at h
                  · rcases List.forall₂_cons_left_iff.mp hst with ⟨tb, tsr, hbf, hstr, hts2⟩
                    obtain ⟨⟨idx, es3⟩, hadd, h2⟩ := PRes.bind_eq_ok h
                    obtain ⟨hidx, hn3, hord3⟩ := add_shape hadd
                    subst hidx
                    simp only [] at h2
                    split at h2
                    · simp at h2
                    · obtain ⟨t2, hg2, hd2, hsz2⟩ := denotes_or_hole es3 es.nodes.length
                        (.lam tb)
                        (fun hH => .lam _ tb hH (node?_of_append hn3)
                          (Denotes.mono ⟨[_], hn3⟩ hbf.1)) hbf.2
                      refine parse_sound fuel es3 il _ _ _ (t2 :: tsr) root es2
                        (by rw [hord3, hord])
                        (List.Forall₂.cons ⟨hd2, hg2⟩ (stack_mono ⟨[_], hn3⟩ hstr)) ?_ h2
                      rw [hts2] at hsum
                      rw [hn3]
                      simp only [sumN, nodesT, List.length_append, List.length_singleton]
                        at hsum hsz2 ⊢
                      omega
                  · cases h
        · -- an ordinary atom
          rename_i hwnotlam
          split at h
          · simp at h
          · rename_i nd hatomeq
            obtain ⟨⟨idx, es3⟩, hadd, h2⟩ := PRes.bind_eq_ok h
            obtain ⟨hidx, hn3, hord3⟩ := add_shape hadd
            subst hidx
            simp only [] at h2
            split at h2
            · cases h2
            · obtain ⟨tnd, hgnd, hsznd, hdmk⟩ := atomNode_good _ hwne hwnb hwnotlam hatomeq
              obtain ⟨t2, hg2, hd2, hsz2⟩ := denotes_or_hole es3 es.nodes.length tnd
                (fun hH => hdmk es3 es.nodes.length hH (node?_of_append hn3)) hgnd
              refine parse_sound fuel es3 il _ (es.nodes.length :: items) _ (t2 :: ts)
                root es2 (by rw [hord3, hord])
                (List.Forall₂.cons ⟨hd2, hg2⟩ (stack_mono ⟨[_], hn3⟩ hst)) ?_ h2
              rw [hn3]
              simp only [sumN, List.length_append, List.length_singleton] at hsum hsz2 ⊢
              omega

/-- C2: display after parse is an idempotent canonical form.  Whenever
parsing `s` into a fresh childFirst arena succeeds with root `root` and
arena `es` (of machine-representable size, `es.nodes.length ≤ HOLE` —
automatic in Rust, where `Vec::len` is a `usize` and `HOLE = usize::MAX`),
and displaying that root succeeds with text `d1`, then parsing `d1` into a
fresh arena succeeds and the result displays back as exactly `d1`.  In
particular `(+ 2 3)` parses and displays as `(+ 2 3)`, and both
`((foo bar) baz)` and `foo bar baz` parse and display as
`(foo bar baz)`. -/
theorem c2_display_parse_roundtrip :
    (∀ (s : List Char) (root : Nat) (es : ExprSet) (fd : Nat) (d1 : List Char),
      parse_extend (ExprSet.empty .childFirst false) s = .ok (.ok root, es) →
      es.nodes.length ≤ HOLE →
      displayF fd es root false = .ok d1 →
      ∃ (root2 : Nat) (es2 : ExprSet),
        parse_extend (ExprSet.empty .childFirst false) d1 = .ok (.ok root2, es2) ∧
        ∃ g, displayF g es2 root2 false = .ok d1) ∧
    (parse_extend (ExprSet.empty .childFirst false) "(+ 2 3)".toList =
        .ok (.ok 4, esP23) ∧
      displayF 8 esP23 4 false = .ok "(+ 2 3)".toList) ∧
    (parse_extend (ExprSet.empty .childFirst false) "((foo bar) baz)".toList =
        .ok (.ok 4, esFBB) ∧
      displayF 8 esFBB 4 false = .ok "(foo bar baz)".toList) ∧
    (parse_extend (ExprSet.empty .childFirst false) "foo bar baz".toList =
        .ok (.ok 4, esFBB) ∧
      displayF 8 esFBB 4 false = .ok "(foo bar baz)".toList) := by
  refine ⟨?_, by decide, by decide, by decide⟩
  intro s root es fd d1 hp hle hd
  obtain ⟨t, hg, hden, hnt, _⟩ := parse_sound (s.length + 1)
    (ExprSet.empty .childFirst false) 0 s.reverse [] [0] [] root es rfl
    List.Forall₂.nil (Nat.zero_le _) hp
  have hd1 : d1 = dispT t false := displayF_unique fd es root t false d1 hden hd
  subst hd1
  refine ⟨_, _, parse_dispT t hg, depthT t,
    displayF_complete (depthT t) _ _ t false (denotes_addT t _ ?_) (Nat.le_refl _)⟩
  show 0 + nodesT t ≤ HOLE
  omega

/-- Witness: the universal round-trip statement applied to the parse of
`(a b)`, whose display is `(a b)` again. -/
theorem c2_display_parse_roundtrip_witness :
    ∃ (root2 : Nat) (es2 : ExprSet),
      parse_extend (ExprSet.empty .childFirst false) ['(', 'a', ' ', 'b', ')'] =
        .ok (.ok root2, es2) ∧
      ∃ g, displayF g es2 root2 false = .ok ['(', 'a', ' ', 'b', ')'] :=
  c2_display_parse_roundtrip.1 ['(', 'a', ' ', 'b', ')'] 2 esAB 8
    ['(', 'a', ' ', 'b', ')'] (by decide) (by decide) (by decide)
